import Mathlib

/-!
Verification development for the homr MusicXML generator
(`src/homr/music_xml_generator.py`).

The Python module is shallowly embedded: exact rational arithmetic
(`fractions.Fraction`) becomes the reduced-fraction structure `Frac`,
mutable XML nodes become the inductive tree `Mxl` with explicit state
threading, Python exceptions become `Except String`, and the diagnostic
log channel is dropped (it carries no data used by the program).
Parts of the repository that are referenced but not present
(`homr.transformer.vocabulary`, `homr.constants`) are modelled from the
specification and marked as such in their doc comments.
-/

/-! ## Character-list string helpers

The Python code tests strings with `startswith`, `endswith`, `in`
(substring) and `split`.  These are re-implemented over `String.data`
by structural recursion so that every definition reduces in the kernel.
-/

/-- Char-list version of `startswith`: `pat` is an initial segment of `l`. -/
def charsLeadWith (pat : List Char) : List Char → Bool
  | [] => pat.isEmpty
  | c :: rest =>
    match pat with
    | [] => true
    | p :: ps => p = c && charsLeadWith ps rest

/-- Python `s.startswith(p)`. -/
def strStarts (s p : String) : Bool := charsLeadWith p.data s.data

/-- Python `s.startswith((p, q))` (tuple form). -/
def strStarts2 (s p q : String) : Bool := strStarts s p || strStarts s q

/-- Python `s.endswith(p)`. -/
def strEnds (s p : String) : Bool := charsLeadWith p.data.reverse s.data.reverse

/-- Python `c in s` for a single character `c`. -/
def strHasChar (s : String) (c : Char) : Bool := s.data.contains c

/-- Char-list version of substring containment. -/
def charsHaveSub (pat : List Char) : List Char → Bool
  | [] => pat.isEmpty
  | c :: rest => charsLeadWith pat (c :: rest) || charsHaveSub pat rest

/-- Python `p in s` (substring test). -/
def strHasSub (s p : String) : Bool := charsHaveSub p.data s.data

/-- Char-list version of `split` on a separator character. -/
def charsSplit (sep : Char) : List Char → List (List Char)
  | [] => [[]]
  | c :: rest =>
    match charsSplit sep rest with
    | [] => [[]]
    | g :: gs => if c = sep then [] :: g :: gs else (c :: g) :: gs

/-- Python `s.split(sep)` for a one-character separator. -/
def strSplit (s : String) (sep : Char) : List String :=
  (charsSplit sep s.data).map (fun l => ⟨l⟩)

/-- Digits of a char list interpreted as a natural number, if all are digits. -/
def charsToNat : List Char → Option Nat
  | [] => none
  | l => go l 0
where
  go : List Char → Nat → Option Nat
    | [], acc => some acc
    | c :: rest, acc =>
      if c.isDigit then go rest (acc * 10 + (c.toNat - 48)) else none

/-- Python `int(s)` on a decimal literal (optional leading minus sign). -/
def pyParseInt (s : String) : Except String Int :=
  match s.data with
  | '-' :: rest =>
    match charsToNat rest with
    | some n => .ok (-(n : Int))
    | none => .error "ValueError: invalid literal for int"
  | l =>
    match charsToNat l with
    | some n => .ok (n : Int)
    | none => .error "ValueError: invalid literal for int"

/-- Python `l[i]` with an `IndexError` on out-of-range access. -/
def pyIndex (l : List α) (i : Nat) : Except String α :=
  match l[i]? with
  | some x => .ok x
  | none => .error "IndexError: list index out of range"

/-! ## Exact rational numbers

`Frac` mirrors Python `fractions.Fraction`: always stored in lowest
terms with a positive denominator.  All operations are plain structural
definitions, so concrete computations reduce inside the kernel.
-/

/-- A reduced fraction with positive denominator, mirroring Python
`fractions.Fraction` values. -/
structure Frac where
  num : Int
  den : Nat
  den_pos : 0 < den
  red : num.natAbs.gcd den = 1

instance : DecidableEq Frac := fun a b =>
  if h : a.num = b.num ∧ a.den = b.den then
    .isTrue (by cases a; cases b; simp_all)
  else
    .isFalse (fun he => by cases he; exact h ⟨rfl, rfl⟩)

/-- Build a `Frac` from numerator and positive denominator, reducing to
lowest terms (Python `Fraction(n, d)`; the `d ≤ 0` branch is never hit
by the embedded code, which only constructs fractions with positive
denominators). -/
def Frac.make (n d : Int) : Frac :=
  if hd : d ≤ 0 then ⟨0, 1, by decide, by decide⟩
  else
    let dn : Nat := d.toNat
    let g := n.natAbs.gcd dn
    have hdn : 0 < dn := by omega
    have hg : 0 < g := Nat.gcd_pos_of_pos_right _ hdn
    have hgd : (g : Int) ∣ n := Int.natAbs_dvd_natAbs.mp (by simpa using Nat.gcd_dvd_left n.natAbs dn)
    ⟨n / g, dn / g,
      Nat.div_pos (Nat.le_of_dvd hdn (Nat.gcd_dvd_right _ _)) hg,
      by rw [Int.natAbs_ediv _ _ hgd]; simpa using Nat.coprime_div_gcd_div_gcd hg⟩

/-- The integer `n` as a `Frac`. -/
def Frac.ofInt (n : Int) : Frac := ⟨n, 1, by decide, Nat.gcd_one_right _⟩

instance : OfNat Frac n := ⟨Frac.ofInt n⟩

def Frac.add (a b : Frac) : Frac :=
  Frac.make (a.num * b.den + b.num * a.den) ((a.den : Int) * b.den)

def Frac.sub (a b : Frac) : Frac :=
  Frac.make (a.num * b.den - b.num * a.den) ((a.den : Int) * b.den)

def Frac.mul (a b : Frac) : Frac :=
  Frac.make (a.num * b.num) ((a.den : Int) * b.den)

/-- Python `a / b` on fractions (used only with positive `b`). -/
def Frac.divF (a b : Frac) : Frac :=
  Frac.make (a.num * b.den) (b.num * a.den)

/-- Python `int(...)` applied to a fraction: truncation toward zero. -/
def Frac.pyInt (a : Frac) : Int := a.num.tdiv a.den

instance : LE Frac := ⟨fun a b => a.num * b.den ≤ b.num * a.den⟩
instance : LT Frac := ⟨fun a b => a.num * b.den < b.num * a.den⟩

instance : DecidableRel (α := Frac) (· ≤ ·) := fun a b =>
  inferInstanceAs (Decidable (a.num * b.den ≤ b.num * a.den))
instance : DecidableRel (α := Frac) (· < ·) := fun a b =>
  inferInstanceAs (Decidable (a.num * b.den < b.num * a.den))

/-- Python `min(a, b)` (first argument wins ties). -/
def Frac.minF (a b : Frac) : Frac := if a ≤ b then a else b

/-- Python `min(x :: rest)`. -/
def Frac.listMin (x : Frac) (rest : List Frac) : Frac := rest.foldl Frac.minF x

/-- Python `max(x :: rest)`. -/
def Frac.maxF (a b : Frac) : Frac := if a ≤ b then b else a

def Frac.listMax (x : Frac) (rest : List Frac) : Frac := rest.foldl Frac.maxF x

/-- The embedding of `Frac` into Mathlib's rationals, used only in proofs. -/
def Frac.toRat (f : Frac) : ℚ := ⟨f.num, f.den, Nat.pos_iff_ne_zero.mp f.den_pos, f.red⟩

/-! ## The symbol data model

`EncodedSymbol` and its duration are defined in
`homr.transformer.vocabulary`, which is not part of the sources under
review; they are modelled from the specification (§3 "DATA MODEL").
-/

/-- Modelled from the spec: the duration record returned by
`EncodedSymbol.get_duration()` — an exact rational value in whole-note
units (`fraction`), a dot count, a tuplet ratio `(actual_notes,
normal_notes)` with equality meaning "no tuplet", and a power-of-two
`kern` base used to select a duration name (0 = breve). -/
structure SymbolDuration where
  fraction : Frac
  dots : Nat
  actual_notes : Int
  normal_notes : Int
  kern : Nat
deriving DecidableEq

/-- Modelled from the spec: one decoded token of
`homr.transformer.vocabulary.EncodedSymbol`, with a rhythm-kind string,
pitch, accidental (`lift`), articulation string, staff position, the
duration payload behind `get_duration()`, the transient beam marker
written by the beaming pass, a symbol identity `sid` standing for
Python object identity, and a flag marking that the symbol co-occurs
with its predecessor (the information used by `sort_token_chords` to
group simultaneous symbols into one chord). -/
structure EncodedSymbol where
  rhythm : String
  pitch : String := "_"
  lift : String := "_"
  articulation : String := "_"
  position : String := "upper"
  duration : SymbolDuration := ⟨Frac.ofInt 0, 0, 1, 1, 4⟩
  beam : Option String := none
  sid : Nat := 0
  joinsPrevious : Bool := false
deriving DecidableEq

/-- Modelled from the spec: the `empty` marker string of the vocabulary
module (an absent pitch/lift/articulation field). -/
def emptyTok : String := "_"

/-- Modelled from the spec: the `nonote` marker string of the vocabulary
module (an invalid pitch/lift/articulation field). -/
def nonoteTok : String := "."

def EncodedSymbol.get_duration (s : EncodedSymbol) : SymbolDuration := s.duration

/-- Modelled from the spec: `EncodedSymbol.strip_articulations(tags)`
removes the listed articulation tags from the symbol's `_`-separated
articulation string, returning the removed tags in order of appearance
together with the stripped symbol. -/
def EncodedSymbol.strip_articulations (s : EncodedSymbol) (tags : List String) :
    List String × EncodedSymbol :=
  let parts := (strSplit s.articulation '_').filter (fun p => p ≠ "")
  let stripped := parts.filter (fun p => tags.contains p)
  let kept := parts.filter (fun p => ¬ tags.contains p)
  let artic := if kept.isEmpty then emptyTok else String.intercalate "_" kept
  (stripped, { s with articulation := artic })

/-- Modelled from the spec: `EncodedSymbol.add_articulations(tags)`
reattaches previously stripped tags to the symbol's articulation
string. -/
def EncodedSymbol.add_articulations (s : EncodedSymbol) (tags : List String) : EncodedSymbol :=
  { s with articulation := s.articulation ++ "_" ++ String.intercalate "_" tags }

/-- Modelled from the spec: `homr.constants.duration_of_quarter`; only
`4 * duration_of_quarter` is used, as the initial whole-measure length
fallback of the conversion state. -/
def constants.duration_of_quarter : Int := 1

/-! ## Chord grouping -/

/-- `SymbolChord`: a vertical slice of simultaneous symbols plus the
tuplet bracket marker assigned by the annotator. -/
structure SymbolChord where
  symbols : List EncodedSymbol
  tuplet_mark : String := ""
deriving DecidableEq

def SymbolChord.is_barline (c : SymbolChord) : Bool :=
  match c.symbols with
  | [] => false
  | s :: _ => strHasSub s.rhythm "barline" || strHasSub s.rhythm "repeat"

def SymbolChord.get_duration (c : SymbolChord) : Frac :=
  let notes_rests := (c.symbols.filter
    (fun s => strStarts2 s.rhythm "note" "rest")).map (fun s => s.get_duration.fraction)
  match notes_rests with
  | [] => Frac.ofInt 0
  | x :: rest => Frac.listMin x rest

def SymbolChord.into_positions (c : SymbolChord) : List SymbolChord :=
  let upper := c.symbols.filter (fun s => s.position = "upper")
  let lower := c.symbols.filter (fun s => s.position ≠ "upper")
  let lower_is_only_rest := lower.all (fun s => strStarts s.rhythm "rest")
  let chords :=
    if lower_is_only_rest then
      [SymbolChord.mk lower c.tuplet_mark, SymbolChord.mk upper c.tuplet_mark]
    else
      [SymbolChord.mk upper c.tuplet_mark, SymbolChord.mk lower c.tuplet_mark]
  chords.filter (fun ch => ch.symbols.length > 0)

def SymbolChord.strip_slur_ties (c : SymbolChord) : List (List String) × SymbolChord :=
  let pairs := c.symbols.map
    (fun s => s.strip_articulations ["slurStart", "slurStop", "tieStart", "tieStop"])
  (pairs.map Prod.fst, SymbolChord.mk (pairs.map Prod.snd) c.tuplet_mark)

/-- Modelled from the spec:
`homr.transformer.vocabulary.sort_token_chords` is not under `src/`;
per spec §4.1, symbols explicitly marked as co-occurring (here: the
`joinsPrevious` flag) form one chord and all others are singleton
chords, preserving input order. -/
def sort_token_chords (voice : List EncodedSymbol) : List (List EncodedSymbol) :=
  match voice with
  | [] => []
  | s :: rest =>
    match sort_token_chords rest with
    | [] => [[s]]
    | g :: gs =>
      match g with
      | [] => [s] :: gs
      | t :: ts => if t.joinsPrevious then (s :: t :: ts) :: gs else [s] :: (t :: ts) :: gs

def group_into_chords (voice : List EncodedSymbol) : List SymbolChord :=
  (sort_token_chords voice).map (fun s => SymbolChord.mk s "")

/-! ## Beaming analyzer

Python stores the transient beam marker by mutating symbol attributes;
the embedding returns an assignment list of `(sid, marker)` pairs
instead (the side-table representation the spec itself recommends in
§9), where a later entry for the same `sid` overrides an earlier one.
-/

def _is_beamable_note (symbol : EncodedSymbol) : Bool :=
  if ¬ strStarts symbol.rhythm "note" then false
  else if strHasChar symbol.rhythm 'G' then false
  else
    let duration := symbol.get_duration
    if duration.fraction ≤ Frac.ofInt 0 then false
    else decide (duration.fraction < Frac.make 1 4)

/-- State of one staff-position pass of `apply_beaming`. -/
structure BeamState where
  pending : Option Nat
  run_length : Nat
  asgn : List (Nat × String)
deriving DecidableEq

/-- `_finalize_pending_beam`: mark the pending symbol's beam as `end`
when the run has length at least 2. -/
def _finalize_pending_beam (st : BeamState) : List (Nat × String) :=
  match st.pending with
  | none => st.asgn
  | some p => if st.run_length < 2 then st.asgn else st.asgn ++ [(p, "end")]

/-- The candidate scan inside `apply_beaming`: walks the sub-chord's
symbols accumulating the note/rest flags, stopping at the first
beamable note.  Returns `(candidate, has_note_or_rest, has_rest)`. -/
def beamScan : List EncodedSymbol → Bool → Bool → (Option EncodedSymbol × Bool × Bool)
  | [], hnr, hr => (none, hnr, hr)
  | s :: rest, hnr, hr =>
    let isRest := strStarts s.rhythm "rest"
    let isNote := strStarts s.rhythm "note"
    let hr' := hr || isRest
    let hnr' := hnr || isRest || isNote
    if _is_beamable_note s then (some s, hnr', hr') else beamScan rest hnr' hr'

/-- The staff-position sub-chord selected by `apply_beaming`'s inner
loop over `into_positions`. -/
def findStaffChord (g : SymbolChord) (staff_position : String) : Option SymbolChord :=
  g.into_positions.find? (fun ch =>
    match ch.symbols with
    | [] => false
    | s :: _ => s.position = staff_position)

/-- One `apply_beaming` loop iteration for a fixed staff position. -/
def beamStep (staff_position : String) (st : BeamState) (g : SymbolChord) : BeamState :=
  if g.is_barline then ⟨none, 0, _finalize_pending_beam st⟩
  else
    match findStaffChord g staff_position with
    | none => ⟨none, 0, _finalize_pending_beam st⟩
    | some staff_chord =>
      let (cand0, has_note_or_rest, has_rest) := beamScan staff_chord.symbols false false
      let candidate := if has_rest then none else cand0
      match candidate with
      | none =>
        if has_note_or_rest then ⟨none, 0, _finalize_pending_beam st⟩ else st
      | some c =>
        match st.pending with
        | none => ⟨some c.sid, 1, st.asgn⟩
        | some p =>
          ⟨some c.sid, st.run_length + 1,
            st.asgn ++ [(p, if st.run_length = 1 then "begin" else "continue")]⟩

/-- The `apply_beaming` loop over all groups for one staff position. -/
def beamRun (staff_position : String) (st : BeamState) : List SymbolChord → BeamState
  | [] => st
  | g :: rest => beamRun staff_position (beamStep staff_position st g) rest

/-- One full staff-position pass, including the final flush. -/
def beamPass (staff_position : String) (groups : List SymbolChord) : List (Nat × String) :=
  _finalize_pending_beam (beamRun staff_position ⟨none, 0, []⟩ groups)

/-- `apply_beaming`: the beam-marker assignment produced by the two
staff-position passes (each symbol is visited by exactly one pass, so
concatenating the two assignment lists reproduces the attribute
writes). -/
def apply_beaming (groups : List SymbolChord) : List (Nat × String) :=
  beamPass "upper" groups ++ beamPass "lower" groups

/-- Reading the transient beam attribute of symbol `sid` after
`apply_beaming`: the last write wins, `none` if never written. -/
def beamOf (asgn : List (Nat × String)) (sid : Nat) : Option String :=
  (asgn.reverse.find? (fun p => p.1 = sid)).map Prod.snd

/-- Distribute the computed beam assignment onto the symbols (the
embedding of reading back the mutated `beam` attributes). -/
def applyBeamMarks (groups : List SymbolChord) (asgn : List (Nat × String)) :
    List SymbolChord :=
  groups.map (fun g =>
    SymbolChord.mk (g.symbols.map (fun s => { s with beam := beamOf asgn s.sid }))
      g.tuplet_mark)

/-! ## Tuplet annotator -/

/-- Whether a chord is a tuplet chord: some Note/Rest member whose
tuplet ratio has `actual ≠ normal` (the `is_tuplet` accumulation inside
`add_tuplet_start_stop`). -/
def isTupletChord (g : SymbolChord) : Bool :=
  g.symbols.any (fun s =>
    strStarts2 s.rhythm "note" "rest" &&
      (s.get_duration.normal_notes ≠ s.get_duration.actual_notes))

def tupletLoop (has_tuplet_mark : Bool) : List SymbolChord → List SymbolChord
  | [] => []
  | g :: rest =>
    let is_tuplet := isTupletChord g
    if is_tuplet ≠ has_tuplet_mark then
      (SymbolChord.mk g.symbols (if has_tuplet_mark then "stop" else "start")) ::
        tupletLoop is_tuplet rest
    else
      g :: tupletLoop has_tuplet_mark rest

def add_tuplet_start_stop (groups : List SymbolChord) : List SymbolChord :=
  tupletLoop false groups

/-! ## Timing analysis -/

/-- Python's `lcm` helper inside `find_common_division`. -/
def pyLcm (a b : Nat) : Nat := Nat.lcm a b

def find_common_division (durations : List Frac) : Int :=
  match (durations.filter (fun d => Frac.ofInt 0 < d)).map Frac.den with
  | [] => 1
  | c :: rest => ((rest.foldl pyLcm c : Nat) : Int)

/-- The accumulation loop of `find_division_and_time_signature_nominator`:
threads `(durations, duration_in_measure, measure_duration)`. -/
def fdLoop : List SymbolChord → List Frac → Frac → List Frac →
    (List Frac × Frac × List Frac)
  | [], durs, acc, md => (durs, acc, md)
  | c :: rest, durs, acc, md =>
    if c.is_barline ∧ Frac.ofInt 0 < acc then
      fdLoop rest durs (Frac.ofInt 0) (md ++ [acc])
    else
      if Frac.ofInt 0 < c.get_duration then
        fdLoop rest (durs ++ [c.get_duration]) (acc.add c.get_duration) md
      else
        fdLoop rest durs acc md

/-- `np.median` on a list of fractions: middle element of the sorted
list, or the mean of the two middle elements. -/
def fracMedian (l : List Frac) : Frac :=
  let s := List.insertionSort (· ≤ ·) l
  let n := s.length
  if n % 2 = 1 then s.getD (n / 2) (Frac.ofInt 0)
  else ((s.getD (n / 2 - 1) (Frac.ofInt 0)).add (s.getD (n / 2) (Frac.ofInt 0))).divF
    (Frac.ofInt 2)

def find_division_and_time_signature_nominator (voice : List SymbolChord) :
    Int × Frac :=
  let (durations, duration_in_measure, measure_duration) :=
    fdLoop voice [Frac.make 1 4] (Frac.ofInt 0) []
  let measure_duration :=
    if Frac.ofInt 0 < duration_in_measure then measure_duration ++ [duration_in_measure]
    else measure_duration
  match measure_duration with
  | [] => (find_common_division durations, Frac.ofInt 1)
  | _ => (find_common_division durations, fracMedian measure_duration)

/-! ## The numbering allocator (`ConversionState`)

Python dictionaries (`defaultdict`) become association lists; each
method returns its result together with the updated state.
-/

instance exceptDecEq {ε α : Type} [DecidableEq ε] [DecidableEq α] :
    DecidableEq (Except ε α) := fun a b =>
  match a, b with
  | .ok x, .ok y =>
    if h : x = y then .isTrue (by rw [h]) else .isFalse (by intro k; cases k; exact h rfl)
  | .error x, .error y =>
    if h : x = y then .isTrue (by rw [h]) else .isFalse (by intro k; cases k; exact h rfl)
  | .ok _, .error _ => .isFalse (by intro k; cases k)
  | .error _, .ok _ => .isFalse (by intro k; cases k)

/-- Lookup in an association list modelling a `defaultdict(list)`: a
missing key reads as the empty list. -/
def dictStacks (m : List (κ × List Int)) (k : κ) [DecidableEq κ] : List Int :=
  match m.find? (fun p => p.1 = k) with
  | some p => p.2
  | none => []

/-- Store a value for a key in an association list (replacing the first
binding, or appending a new one). -/
def dictSet [DecidableEq κ] (m : List (κ × List Int)) (k : κ) (v : List Int) :
    List (κ × List Int) :=
  match m with
  | [] => [(k, v)]
  | p :: rest => if p.1 = k then (k, v) :: rest else p :: dictSet rest k v

/-- `list(range(1, 16))`: the candidate numbers 1..15 of a fresh pool. -/
def poolRange : List Int := (List.range 15).map (fun i => (i : Int) + 1)

/-- `bisect.insort`: insert keeping the list sorted (after equal
elements). -/
def insortList (n : Int) : List Int → List Int
  | [] => [n]
  | x :: xs => if n < x then n :: x :: xs else x :: insortList n xs

/-- Lookup in the association list modelling the
`defaultdict(lambda: list(range(1, 16)))` of per-key tie pools: a
missing key reads as a fresh full pool. -/
def dictPools (m : List ((Int × String × String) × List Int)) (k : Int × String × String) :
    List Int :=
  match m.find? (fun p => p.1 = k) with
  | some p => p.2
  | none => poolRange

/-- The per-part conversion state: division, measure-length fallback,
tremolo toggle, volta counter, open slur/tie stacks and the free-number
pools. -/
structure ConversionState where
  beats : Int
  division : Int
  nominator : Frac
  tremolo_state : String
  volta_number : Int
  last_volta_measure : Int
  open_slurs : List ((Int × Int) × List Int)
  available_slur_numbers : List Int
  open_ties : List ((Int × String × String) × List Int)
  available_tie_numbers : List ((Int × String × String) × List Int)
deriving DecidableEq

/-- `ConversionState.__init__`. -/
def ConversionState.init (division : Int) (nominator : Frac) : ConversionState :=
  { beats := 4 * constants.duration_of_quarter
    division := division
    nominator := nominator
    tremolo_state := "stop"
    volta_number := 1
    last_volta_measure := -10
    open_slurs := []
    available_slur_numbers := poolRange
    open_ties := []
    available_tie_numbers := [] }

def ConversionState.start_volta (st : ConversionState) (measure_no : Int) :
    Int × ConversionState :=
  let vn := if measure_no = st.last_volta_measure + 1 then st.volta_number + 1 else 1
  (vn, { st with volta_number := vn })

def ConversionState.stop_volta (st : ConversionState) (measure_no : Int) :
    Int × ConversionState :=
  (st.volta_number, { st with last_volta_measure := measure_no })

def ConversionState.toggle_tremolo_state (st : ConversionState) :
    String × ConversionState :=
  let s := if st.tremolo_state = "start" then "stop" else "start"
  (s, { st with tremolo_state := s })

def ConversionState.start_slur (st : ConversionState) (staff voice : Int) :
    Int × ConversionState :=
  let key := (staff, voice)
  let stack := dictStacks st.open_slurs key
  if st.available_slur_numbers.isEmpty then
    let number := stack.getLastD 6
    (number, { st with open_slurs := dictSet st.open_slurs key (stack ++ [number]) })
  else
    match st.available_slur_numbers with
    | [] => (6, st)
    | number :: rest =>
      (number,
        { st with
          available_slur_numbers := rest
          open_slurs := dictSet st.open_slurs key (stack ++ [number]) })

def ConversionState._release_slur_number (st : ConversionState) (number : Int) :
    ConversionState :=
  if 1 ≤ number ∧ number ≤ 6 ∧ number ∉ st.available_slur_numbers then
    { st with available_slur_numbers := insortList number st.available_slur_numbers }
  else st

def ConversionState.stop_slur (st : ConversionState) (staff voice : Int) :
    Option Int × ConversionState :=
  let key := (staff, voice)
  let stack := dictStacks st.open_slurs key
  if stack.isEmpty then (none, st)
  else
    let number := stack.getLastD 0
    let st := { st with open_slurs := dictSet st.open_slurs key stack.dropLast }
    (some number, st._release_slur_number number)

def ConversionState.start_tie (st : ConversionState) (staff : Int) (pitch lift : String) :
    Int × ConversionState :=
  let key := (staff, pitch, lift)
  let available := dictPools st.available_tie_numbers key
  let stack := dictStacks st.open_ties key
  if available.isEmpty then
    let number := stack.getLastD 6
    (number, { st with open_ties := dictSet st.open_ties key (stack ++ [number]) })
  else
    match available with
    | [] => (6, st)
    | number :: rest =>
      (number,
        { st with
          available_tie_numbers := dictSet st.available_tie_numbers key rest
          open_ties := dictSet st.open_ties key (stack ++ [number]) })

def ConversionState._release_tie_number (st : ConversionState)
    (key : Int × String × String) (number : Int) : ConversionState :=
  let available := dictPools st.available_tie_numbers key
  if 1 ≤ number ∧ number ≤ 6 ∧ number ∉ available then
    let updated := dictSet st.available_tie_numbers key (insortList number available)
    { st with available_tie_numbers := updated }
  else st

def ConversionState.stop_tie (st : ConversionState) (staff : Int) (pitch lift : String) :
    Option Int × ConversionState :=
  let key := (staff, pitch, lift)
  let stack := dictStacks st.open_ties key
  if stack.isEmpty then (none, st)
  else
    let number := stack.getLastD 0
    let st := { st with open_ties := dictSet st.open_ties key stack.dropLast }
    (some number, st._release_tie_number key number)

/-! ## The output document tree

One inductive covers every `musicxml` element class the generator
creates; mutation by `add_child` becomes functional list extension, and
the aliasing of `build_or_get_attributes` / `build_or_get_barline`
becomes an index into the current measure's child list.
-/

inductive Mxl where
  | measure (number : String) (children : List Mxl)
  | attributes (children : List Mxl)
  | divisions (value : Int)
  | staves (value : Int)
  | printEl
  | note (children : List Mxl)
  | chordMark
  | rest (wholeMeasure : Bool)
  | pitch (children : List Mxl)
  | step (value : String)
  | octave (value : Int)
  | alter (value : Int)
  | grace
  | typeEl (value : String)
  | durationEl (value : Int)
  | staffEl (value : Int)
  | voiceEl (value : String)
  | beamEl (value : String) (number : Int)
  | dot
  | timeModification (children : List Mxl)
  | actualNotes (value : Int)
  | normalNotes (value : Int)
  | notations (children : List Mxl)
  | fermata
  | arpeggiate
  | accent
  | staccato
  | staccatissimo
  | tenuto
  | tremoloEl (value : Int) (type_ : String)
  | trillMark
  | breathMark
  | invertedTurn
  | caesura
  | doit
  | slur (type_ : String) (number : Option Int)
  | tied (type_ : String) (number : Option Int)
  | tuplet (type_ : String)
  | articulationsEl (children : List Mxl)
  | ornamentsEl (children : List Mxl)
  | barlineEl (location : String) (children : List Mxl)
  | barStyle (value : String)
  | ending (type_ : String) (number : String)
  | repeatMark (direction : String)
  | key (children : List Mxl)
  | fifths (value : Int)
  | clef (number : Int) (children : List Mxl)
  | sign (value : String)
  | line (value : Int)
  | time (children : List Mxl)
  | beats (value : String)
  | beatType (value : String)
  | measureStyle (children : List Mxl)
  | multipleRest (value : Int)
  | backup (children : List Mxl)
  | forward (children : List Mxl)
  | direction (children : List Mxl)
  | directionType (children : List Mxl)
  | metronomeEl (children : List Mxl)
  | beatUnit (value : String)
  | perMinute (value : String)
  | soundEl (tempo : Int)

def Mxl.isNote : Mxl → Bool
  | .note _ => true
  | _ => false

def Mxl.isBackupOrForward : Mxl → Bool
  | .backup _ => true
  | .forward _ => true
  | _ => false

def Mxl.isAttributes : Mxl → Bool
  | .attributes _ => true
  | _ => false

def Mxl.isPitch : Mxl → Bool
  | .pitch _ => true
  | _ => false

def Mxl.isChordMark : Mxl → Bool
  | .chordMark => true
  | _ => false

def Mxl.stepValue : Mxl → Option String
  | .step v => some v
  | _ => none

def Mxl.octaveValue : Mxl → Option Int
  | .octave v => some v
  | _ => none

def Mxl.alterValue : Mxl → Option Int
  | .alter v => some v
  | _ => none

def Mxl.durationValue : Mxl → Option Int
  | .durationEl v => some v
  | _ => none

def Mxl.isSlurStop : Mxl → Bool
  | .slur t _ => t = "stop"
  | _ => false

def Mxl.isTiedStop : Mxl → Bool
  | .tied t _ => t = "stop"
  | _ => false

def Mxl.isMeasureStyle : Mxl → Bool
  | .measureStyle _ => true
  | _ => false

def Mxl.isRepeatMark : Mxl → Bool
  | .repeatMark _ => true
  | _ => false

def Mxl.barlineLocation : Mxl → Option String
  | .barlineEl loc _ => some loc
  | _ => none

/-- Append a child to a node that holds children. -/
def Mxl.addChild (parent child : Mxl) : Mxl :=
  match parent with
  | .measure n cs => .measure n (cs ++ [child])
  | .attributes cs => .attributes (cs ++ [child])
  | .note cs => .note (cs ++ [child])
  | .pitch cs => .pitch (cs ++ [child])
  | .timeModification cs => .timeModification (cs ++ [child])
  | .notations cs => .notations (cs ++ [child])
  | .articulationsEl cs => .articulationsEl (cs ++ [child])
  | .ornamentsEl cs => .ornamentsEl (cs ++ [child])
  | .barlineEl loc cs => .barlineEl loc (cs ++ [child])
  | .key cs => .key (cs ++ [child])
  | .clef n cs => .clef n (cs ++ [child])
  | .time cs => .time (cs ++ [child])
  | .measureStyle cs => .measureStyle (cs ++ [child])
  | .backup cs => .backup (cs ++ [child])
  | .forward cs => .forward (cs ++ [child])
  | other => other

/-- Mutate the element at index `i` of a child list (the embedding of
writing through an aliased reference into the current measure). -/
def modifyChild (cs : List Mxl) (i : Nat) (f : Mxl → Mxl) : List Mxl :=
  match cs[i]? with
  | some x => cs.set i (f x)
  | none => cs

/-- `_find_child_of_type` specialised to `XMLPitch`. -/
def findPitch (children : List Mxl) : Option Mxl :=
  children.find? Mxl.isPitch

/-- Children of a node, for the checks that walk them. -/
def Mxl.children : Mxl → List Mxl
  | .measure _ cs => cs
  | .attributes cs => cs
  | .note cs => cs
  | .pitch cs => cs
  | .timeModification cs => cs
  | .notations cs => cs
  | .articulationsEl cs => cs
  | .ornamentsEl cs => cs
  | .barlineEl _ cs => cs
  | .key cs => cs
  | .clef _ cs => cs
  | .time cs => cs
  | .measureStyle cs => cs
  | .backup cs => cs
  | .forward cs => cs
  | .direction cs => cs
  | .directionType cs => cs
  | .metronomeEl cs => cs
  | _ => []

/-! ## Note emission -/

/-- Python `s[i]` on a string. -/
def pyStrIndex (s : String) (i : Nat) : Except String Char := pyIndex s.data i

/-- Python `dict[key]` with a `KeyError` on a missing key. -/
def pyDictGet [DecidableEq κ] (m : List (κ × β)) (k : κ) : Except String β :=
  match m.find? (fun p => p.1 = k) with
  | some p => .ok p.2
  | none => .error "KeyError"

def LIFT_TO_ALTER : List (String × Int) :=
  [("N", 0), ("#", 1), ("##", 2), ("b", -1), ("bb", -2)]

def DURATION_NAMES : List (Nat × String) :=
  [(0, "breve"), (1, "whole"), (2, "half"), (4, "quarter"), (8, "eighth"),
   (16, "16th"), (32, "32nd"), (64, "64th"), (128, "128th")]

def get_staff (symbol : EncodedSymbol) : Int :=
  if symbol.position = "lower" then 2 else 1

/-- One iteration of the `build_articulations` loop: threads the
notation children, the collected articulation marks, the collected
ornaments and the conversion state. -/
def articStep (noteChildren : List Mxl) (staff voice : Option Int)
    (acc : List Mxl × List Mxl × List Mxl × ConversionState) (articulation : String) :
    Except String (List Mxl × List Mxl × List Mxl × ConversionState) :=
  let (notat, arts, orns, st) := acc
  if articulation = "" then .ok acc
  else if articulation = nonoteTok then .ok acc
  else if articulation = "fermata" then .ok (notat ++ [Mxl.fermata], arts, orns, st)
  else if articulation = "arpeggiate" then .ok (notat ++ [Mxl.arpeggiate], arts, orns, st)
  else if articulation = "accent" then .ok (notat, arts ++ [Mxl.accent], orns, st)
  else if articulation = "staccato" then .ok (notat, arts ++ [Mxl.staccato], orns, st)
  else if articulation = "staccatissimo" then .ok (notat, arts ++ [Mxl.staccatissimo], orns, st)
  else if articulation = "tenuto" then .ok (notat, arts ++ [Mxl.tenuto], orns, st)
  else if articulation = "tremolo" then
    let (t, st') := st.toggle_tremolo_state
    .ok (notat, arts, orns ++ [Mxl.tremoloEl 3 t], st')
  else if articulation = "trill" then .ok (notat, arts, orns ++ [Mxl.trillMark], st)
  else if articulation = "breathMark" then .ok (notat, arts ++ [Mxl.breathMark], orns, st)
  else if articulation = "turn" then .ok (notat, arts, orns ++ [Mxl.invertedTurn], st)
  else if articulation = "caesura" then .ok (notat, arts ++ [Mxl.caesura], orns, st)
  else if articulation = "doit" then .ok (notat, arts ++ [Mxl.doit], orns, st)
  else if articulation = "slurStart" then
    match staff, voice with
    | some sv, some vv =>
      let (number, st') := st.start_slur sv vv
      .ok (notat ++ [Mxl.slur "start" (some number)], arts, orns, st')
    | _, _ => .ok (notat ++ [Mxl.slur "start" none], arts, orns, st)
  else if articulation = "slurStop" then
    match staff, voice with
    | some sv, some vv =>
      match st.stop_slur sv vv with
      | (some number, st') => .ok (notat ++ [Mxl.slur "stop" (some number)], arts, orns, st')
      | (none, st') => .ok (notat, arts, orns, st')
    | _, _ => .ok (notat, arts, orns, st)
  else if articulation = "tieStart" then
    match staff, voice with
    | some sv, some _ =>
      match findPitch noteChildren with
      | some p =>
        match p.children.findSome? Mxl.stepValue, p.children.findSome? Mxl.octaveValue with
        | some stepv, some octavev =>
          let pitch_key := stepv ++ toString octavev
          let lift :=
            match p.children.findSome? Mxl.alterValue with
            | some a => toString a
            | none => "0"
          let (number, st') := st.start_tie sv pitch_key lift
          .ok (notat ++ [Mxl.tied "start" (some number)], arts, orns, st')
        | _, _ => .ok (notat ++ [Mxl.tied "start" none], arts, orns, st)
      | none => .ok (notat ++ [Mxl.tied "start" none], arts, orns, st)
    | _, _ => .ok (notat ++ [Mxl.tied "start" none], arts, orns, st)
  else if articulation = "tieStop" then
    match staff, voice with
    | some sv, some _ =>
      match findPitch noteChildren with
      | some p =>
        match p.children.findSome? Mxl.stepValue, p.children.findSome? Mxl.octaveValue with
        | some stepv, some octavev =>
          let pitch_key := stepv ++ toString octavev
          let lift :=
            match p.children.findSome? Mxl.alterValue with
            | some a => toString a
            | none => "0"
          match st.stop_tie sv pitch_key lift with
          | (some number, st') => .ok (notat ++ [Mxl.tied "stop" (some number)], arts, orns, st')
          | (none, st') => .ok (notat, arts, orns, st')
        | _, _ => .ok (notat, arts, orns, st)
      | none => .ok (notat, arts, orns, st)
    | _, _ => .ok (notat, arts, orns, st)
  else .error ("Unsupported articulation " ++ articulation)

def articLoop (noteChildren : List Mxl) (staff voice : Option Int)
    (acc : List Mxl × List Mxl × List Mxl × ConversionState) :
    List String → Except String (List Mxl × List Mxl × List Mxl × ConversionState)
  | [] => .ok acc
  | a :: rest => do
    let acc' ← articStep noteChildren staff voice acc a
    articLoop noteChildren staff voice acc' rest

/-- `build_articulations`: processes the `_`-separated articulation
string of a note and appends the resulting `XMLNotations` child to the
note's children. -/
def build_articulations (noteChildren : List Mxl) (articulations : String)
    (tuplet_mark : String) (st : ConversionState) (staff voice : Option Int) :
    Except String (List Mxl × ConversionState) := do
  let parts := strSplit articulations '_'
  let (notat, arts, orns, st') ← articLoop noteChildren staff voice ([], [], [], st) parts
  let notat := if tuplet_mark ≠ "" then notat ++ [Mxl.tuplet tuplet_mark] else notat
  let notat := if ¬ arts.isEmpty then notat ++ [Mxl.articulationsEl arts] else notat
  let notat := if ¬ orns.isEmpty then notat ++ [Mxl.ornamentsEl orns] else notat
  .ok (noteChildren ++ [Mxl.notations notat], st')

/-- The pitch-or-rest children of `build_note_or_rest`. -/
def pitchChildren (model_note : EncodedSymbol) : Except String (List Mxl) :=
  let model_pitch := model_note.pitch
  let model_duration := model_note.get_duration
  if model_pitch = emptyTok then
    if model_duration.fraction.num = 0 then .ok [Mxl.rest true] else .ok [Mxl.rest false]
  else if model_pitch = nonoteTok then .ok [Mxl.rest false]
  else do
    let c0 ← pyStrIndex model_pitch 0
    let c1 ← pyStrIndex model_pitch 1
    let octave ← pyParseInt (String.mk [c1])
    let alterPart ←
      if model_note.lift = nonoteTok then pure ([] : List Mxl)
      else if model_note.lift ≠ emptyTok then do
        let a ← pyDictGet LIFT_TO_ALTER model_note.lift
        pure [Mxl.alter a]
      else pure []
    .ok [Mxl.pitch ([Mxl.step (String.mk [c0]), Mxl.octave octave] ++ alterPart)]

/-- The duration-related children of `build_note_or_rest` (grace
marker, type name, tick duration). -/
def durationChildren (model_note : EncodedSymbol) (st : ConversionState) :
    Except String (List Mxl) :=
  let model_duration := model_note.get_duration
  if strHasChar model_note.rhythm 'G' then do
    let name ← pyDictGet DURATION_NAMES model_duration.kern
    .ok [Mxl.grace, Mxl.typeEl name]
  else if 0 < model_duration.fraction.num then do
    let base := if model_duration.kern = 0 then 1 else model_duration.kern
    let name ← pyDictGet DURATION_NAMES base
    .ok [Mxl.typeEl name,
      Mxl.durationEl ((model_duration.fraction.mul (Frac.ofInt st.division)).pyInt)]
  else do
    let name ← pyDictGet DURATION_NAMES 0
    .ok [Mxl.typeEl name, Mxl.durationEl st.beats]

/-- The beam child emitted for a note (`if symbol.beam and not is_chord
and _is_beamable_note(symbol)` in the source, hoisted into its own
definition). -/
def beamPartOf (model_note : EncodedSymbol) (is_chord : Bool) : List Mxl :=
  match model_note.beam with
  | some b => if b ≠ "" ∧ ¬ is_chord ∧ _is_beamable_note model_note then [Mxl.beamEl b 1] else []
  | none => []

def build_note_or_rest (model_note : EncodedSymbol) (voice : Nat) (is_chord : Bool)
    (st : ConversionState) (tuplet_mark : String) : Except String (Mxl × ConversionState) := do
  let chordPart := if is_chord then [Mxl.chordMark] else []
  let pitchPart ← pitchChildren model_note
  let durPart ← durationChildren model_note st
  let staff_value := get_staff model_note
  let xml_voice : Int := (voice : Int) + 1
  let d := model_note.get_duration
  let beamPart := beamPartOf model_note is_chord
  let dotsPart := List.replicate d.dots Mxl.dot
  let pre := chordPart ++ pitchPart ++ durPart ++
    [Mxl.staffEl staff_value, Mxl.voiceEl (toString xml_voice)] ++ beamPart ++ dotsPart
  if d.actual_notes ≠ d.normal_notes then
    let pre := pre ++
      [Mxl.timeModification [Mxl.actualNotes d.actual_notes, Mxl.normalNotes d.normal_notes]]
    let (cs, st') ←
      build_articulations pre model_note.articulation tuplet_mark st (some staff_value)
        (some xml_voice)
    .ok (Mxl.note cs, st')
  else
    let (cs, st') ←
      build_articulations pre model_note.articulation "" st (some staff_value) (some xml_voice)
    .ok (Mxl.note cs, st')

/-! ## Duration grouping and chord emission -/

/-- The class key a symbol is filed under inside `_group_notes`: grace
notes collapse to zero, a zero-length (whole-measure) rest is refiled
under the largest real duration, everything else keys by its exact
fraction. -/
def classKey (maxd : Frac) (n : EncodedSymbol) : Frac :=
  if strHasChar n.rhythm 'G' then Frac.ofInt 0
  else if n.get_duration.fraction.num = 0 then maxd
  else n.get_duration.fraction

/-- First-occurrence deduplication (Python dict key order). -/
def dedupKeys : List Frac → List Frac → List Frac
  | _, [] => []
  | seen, k :: rest =>
    if seen.any (fun x => x = k) then dedupKeys seen rest
    else k :: dedupKeys (k :: seen) rest

/-- `_group_notes`: partition the symbols into duration classes,
preserving insertion order of keys and of members. -/
def _group_notes (notes : List EncodedSymbol) : List (Frac × List EncodedSymbol) :=
  match notes with
  | [] => []
  | n :: rest =>
    let maxd := Frac.listMax n.get_duration.fraction
      (rest.map (fun s => s.get_duration.fraction))
    let keys := dedupKeys [] ((n :: rest).map (classKey maxd))
    keys.map (fun k => (k, (n :: rest).filter (fun s => classKey maxd s = k)))

/-- Lookup of a duration class. -/
def classLookup (byDur : List (Frac × List EncodedSymbol)) (k : Frac) :
    List EncodedSymbol :=
  match byDur.find? (fun p => p.1 = k) with
  | some p => p.2
  | none => []

/-- Dict-style lookup of the recorded slur/tie tags of a symbol (later
bindings shadow earlier ones, matching Python dict construction). -/
def stMapLookup (m : List (Nat × List String)) (sid : Nat) : List String :=
  match m.reverse.find? (fun p => p.1 = sid) with
  | some p => p.2
  | none => []

/-- Emission of one duration class: the first member is the primary
note, later members are stacked chord notes. -/
def emitClass (tmark : String) (voice : Nat) (stMap : List (Nat × List String)) :
    ConversionState → List EncodedSymbol → Bool → Except String (List Mxl × ConversionState)
  | st, [], _ => .ok ([], st)
  | st, n :: rest, isFirst => do
    let slurTies := stMapLookup stMap n.sid
    let n' := if ¬ slurTies.isEmpty then n.add_articulations slurTies else n
    let (x, st') ← build_note_or_rest n' voice (!isFirst) st tmark
    let (xs, st'') ← emitClass tmark voice stMap st' rest false
    .ok (x :: xs, st'')

/-- The per-class loop of `build_note_chord` over the sorted duration
keys; returns the emitted elements, the final state and the running
`final_duration`. -/
def bncLoop (byDur : List (Frac × List EncodedSymbol)) (tmark : String)
    (stMap : List (Nat × List String)) (voice_offset : Nat) :
    ConversionState → List Frac → Nat → Frac →
      Except String (List Mxl × ConversionState × Frac)
  | st, [], _, fdur => .ok ([], st, fdur)
  | st, k :: rest, i, _ => do
    let members := classLookup byDur k
    let (notes, st') ← emitClass tmark (i + voice_offset) stMap st members true
    let backupPart :=
      if ¬ rest.isEmpty ∧ Frac.ofInt 0 < k then
        [Mxl.backup [Mxl.durationEl ((k.mul (Frac.ofInt st'.division)).pyInt)]]
      else []
    let (tail, st'', fd) ← bncLoop byDur tmark stMap voice_offset st' rest (i + 1) k
    .ok (notes ++ backupPart ++ tail, st'', fd)

def build_note_chord (note_chord : SymbolChord) (state : ConversionState)
    (chord_duration : Frac) : Except String (List Mxl × ConversionState) := do
  let (slur_tie_groups, nc) := note_chord.strip_slur_ties
  let slurTieMap := (nc.symbols.zip slur_tie_groups).map (fun p => (p.1.sid, p.2))
  let by_duration := _group_notes nc.symbols
  let voice_offset : Nat :=
    match nc.symbols with
    | [] => 0
    | s :: _ => if s.position = "lower" then 1 else 0
  let keys := List.insertionSort (· ≤ ·) (by_duration.map Prod.fst)
  let (result, st', final_duration) ←
    bncLoop by_duration nc.tuplet_mark slurTieMap voice_offset state keys 0 (Frac.ofInt 0)
  if chord_duration < final_duration then
    let backup := Mxl.backup [Mxl.durationEl
      (((final_duration.sub chord_duration).mul (Frac.ofInt st'.division)).pyInt)]
    .ok (result ++ [backup], st')
  else
    .ok (result, st')

/-! ## Measure driver -/

structure XmlGeneratorArguments where
  large_page : Option Bool := none
  metronome : Option Int := none
  tempo : Option Int := none
deriving DecidableEq

def build_add_time_direction (args : XmlGeneratorArguments) : Option Mxl :=
  match args.metronome with
  | none => none
  | some m =>
    let metronome := Mxl.metronomeEl [Mxl.beatUnit "quarter", Mxl.perMinute (toString m)]
    let sound :=
      match args.tempo with
      | some t => Mxl.soundEl t
      | none => Mxl.soundEl m
    some (Mxl.direction [Mxl.directionType [metronome], sound])

def _measure_has_musical_content (children : List Mxl) : Bool :=
  children.any (fun c => c.isNote || c.isBackupOrForward)

/-- `build_or_get_attributes` on the current measure's child list: the
returned index plays the role of the aliased `XMLAttributes` object. -/
def build_or_get_attributes (cur : List Mxl) (lastAttr : Option Nat)
    (force_new : Bool) : List Mxl × Nat :=
  match lastAttr with
  | some i =>
    if ¬ force_new ∨ ¬ _measure_has_musical_content cur then (cur, i)
    else (cur ++ [Mxl.attributes []], cur.length)
  | none => (cur ++ [Mxl.attributes []], cur.length)

/-- Add a child to the element at index `i` of the current measure. -/
def addChildAt (cur : List Mxl) (i : Nat) (child : Mxl) : List Mxl :=
  modifyChild cur i (fun parent => parent.addChild child)

def _max_staff_number (voice : List EncodedSymbol) : Int :=
  voice.foldl (fun m s => max m (get_staff s)) 1

def build_or_get_barline (cur : List Mxl) (location : String) : List Mxl × Nat :=
  match cur.findIdx? (fun c => c.barlineLocation = some location) with
  | some i => (cur, i)
  | none => (cur ++ [Mxl.barlineEl location []], cur.length)

def build_key (model_key : EncodedSymbol) (cur : List Mxl) (ai : Nat) :
    Except String (List Mxl) := do
  let circle_of_fifth ← pyIndex (strSplit model_key.rhythm '_') 1
  let fifth ← pyParseInt circle_of_fifth
  .ok (addChildAt cur ai (Mxl.key [Mxl.fifths fifth]))

def build_clef (model_clef : EncodedSymbol) (cur : List Mxl) (ai : Nat) :
    Except String (List Mxl) := do
  let sign_and_line ← pyIndex (strSplit model_clef.rhythm '_') 1
  let sgn ← pyStrIndex sign_and_line 0
  let ln ← pyStrIndex sign_and_line 1
  let lineNo ← pyParseInt (String.mk [ln])
  .ok (addChildAt cur ai
    (Mxl.clef (get_staff model_clef) [Mxl.sign (String.mk [sgn]), Mxl.line lineNo]))

def build_time_signature (model_time_signature : EncodedSymbol) (cur : List Mxl)
    (ai : Nat) (st : ConversionState) : Except String (List Mxl × ConversionState) := do
  let denominator ← pyIndex (strSplit model_time_signature.rhythm '/') 1
  let denomInt ← pyParseInt denominator
  let beats := max ((st.nominator.mul (Frac.ofInt denomInt)).pyInt) 1
  let timeNode := Mxl.time [Mxl.beats (toString beats), Mxl.beatType denominator]
  .ok (addChildAt cur ai timeNode, { st with beats := beats })

def build_barline_style (barline : EncodedSymbol) (cur : List Mxl) (bi : Nat) :
    List Mxl :=
  let style_value := if barline.rhythm = "bolddoublebarline" then "heavy-heavy" else "light-light"
  addChildAt cur bi (Mxl.barStyle style_value)

def build_barline_ending (volta : EncodedSymbol) (cur : List Mxl) (bi : Nat)
    (volta_number : Int) : Except String (List Mxl) :=
  if strStarts volta.rhythm "voltaStart" then
    .ok (addChildAt cur bi (Mxl.ending "start" (toString volta_number)))
  else if strStarts volta.rhythm "voltaStop" then
    .ok (addChildAt cur bi (Mxl.ending "stop" (toString volta_number)))
  else if strStarts volta.rhythm "voltaDiscontinue" then
    .ok (addChildAt cur bi (Mxl.ending "discontinue" (toString volta_number)))
  else .error ("Unknown ending " ++ volta.rhythm)

def build_repeat (rhythm : String) (cur : List Mxl) (bi : Nat) : List Mxl :=
  let hasRepeat :=
    match cur[bi]? with
    | some b => b.children.any Mxl.isRepeatMark
    | none => false
  if hasRepeat then cur
  else
    let direction := if rhythm = "repeatStart" then "forward" else "backward"
    addChildAt cur bi (Mxl.repeatMark direction)

def build_multi_measure_rest (symbol : EncodedSymbol) (cur : List Mxl) (ai : Nat) :
    Except String (List Mxl) := do
  let hasStyle :=
    match cur[ai]? with
    | some a => a.children.any Mxl.isMeasureStyle
    | none => false
  if hasStyle then .ok cur
  else do
    let part ← pyIndex (strSplit symbol.rhythm '_') 1
    let cleaned : String := ⟨part.data.filter (fun c => c ≠ 'm')⟩
    let duration ← pyParseInt cleaned
    .ok (addChildAt cur ai (Mxl.measureStyle [Mxl.multipleRest duration]))

def build_divisions (division : Int) : Mxl := Mxl.divisions (division / 4)

/-- The per-staff-position emission inside the note/rest branch of
`build_measures`: a zero nominal duration for all but the last
sub-chord, the chord's real duration for the last. -/
def emitPositions (chordDuration : Frac) :
    ConversionState → List SymbolChord → Except String (List Mxl × ConversionState)
  | st, [] => .ok ([], st)
  | st, [p] => build_note_chord p st chordDuration
  | st, p :: q :: rest => do
    let (xs, st') ← build_note_chord p st (Frac.ofInt 0)
    let (ys, st'') ← emitPositions chordDuration st' (q :: rest)
    .ok (xs ++ ys, st'')

/-- The loop over a clef chord's symbols, emitting one clef per clef
symbol. -/
def buildClefs (symbols : List EncodedSymbol) (cur : List Mxl) (ai : Nat) :
    Except String (List Mxl) :=
  match symbols with
  | [] => .ok cur
  | s :: rest => do
    let cur' ← if strStarts s.rhythm "clef" then build_clef s cur ai else pure cur
    buildClefs rest cur' ai

/-- The state threaded by the `build_measures` loop: closed measures,
the current measure number and child list, the `attributes` variable
(as an index into the current children) and the conversion state. -/
structure BMState where
  measures : List Mxl
  measure_number : Int
  current : List Mxl
  attrIdx : Option Nat
  st : ConversionState

/-- One measure gets closed: append it and open the next. -/
def BMState.closeMeasure (s : BMState) (cur : List Mxl) : BMState :=
  { s with
    measures := s.measures ++ [Mxl.measure (toString s.measure_number) cur]
    measure_number := s.measure_number + 1
    current := [] }

def bmLoop (s : BMState) : List SymbolChord → Except String (List Mxl)
  | [] =>
    if s.current.length > 0 then
      .ok (s.measures ++ [Mxl.measure (toString s.measure_number) s.current])
    else .ok s.measures
  | g :: rest => do
    let symbol ← pyIndex g.symbols 0
    let rhythm := symbol.rhythm
    let last_attributes := s.attrIdx
    if strStarts2 rhythm "note" "rest" then
      if g.symbols.length = 1 ∧ strEnds rhythm "m" then
        let (cur, ai) := build_or_get_attributes s.current last_attributes false
        let cur ← build_multi_measure_rest symbol cur ai
        bmLoop { s with current := cur, attrIdx := some ai } rest
      else do
        let (added, st') ← emitPositions g.get_duration s.st g.into_positions
        bmLoop { s with current := s.current ++ added, st := st', attrIdx := none } rest
    else if rhythm = "newline" then
      let is_last_measure := rest.isEmpty
      let cur := if ¬ is_last_measure then s.current ++ [Mxl.printEl] else s.current
      bmLoop { s with current := cur, attrIdx := none } rest
    else if strStarts rhythm "clef" then
      let (cur, ai) := build_or_get_attributes s.current last_attributes true
      let cur ← buildClefs g.symbols cur ai
      bmLoop { s with current := cur, attrIdx := some ai } rest
    else if strStarts rhythm "keySignature" then
      let (cur, ai) := build_or_get_attributes s.current last_attributes false
      let cur ← build_key symbol cur ai
      bmLoop { s with current := cur, attrIdx := some ai } rest
    else if strStarts rhythm "timeSignature" then
      let (cur, ai) := build_or_get_attributes s.current last_attributes false
      let (cur, st') ← build_time_signature symbol cur ai s.st
      bmLoop { s with current := cur, attrIdx := some ai, st := st' } rest
    else if strHasSub rhythm "barline" then
      let cur :=
        if rhythm ≠ "barline" then
          let (cur, bi) := build_or_get_barline s.current "right"
          build_barline_style symbol cur bi
        else s.current
      bmLoop ({ s.closeMeasure cur with attrIdx := none }) rest
    else if rhythm = "repeatStart" then
      let s' := s.closeMeasure s.current
      let (cur, bi) := build_or_get_barline s'.current "right"
      let cur := build_repeat "repeatStart" cur bi
      bmLoop { s' with current := cur, attrIdx := none } rest
    else if rhythm = "repeatEnd" then
      let (cur, bi) := build_or_get_barline s.current "right"
      let cur := build_repeat "repeatEnd" cur bi
      bmLoop ({ s.closeMeasure cur with attrIdx := none }) rest
    else if rhythm = "repeatEndStart" then
      let (cur, bi) := build_or_get_barline s.current "right"
      let cur := build_repeat "repeatEnd" cur bi
      let s' := s.closeMeasure cur
      let (cur2, bi2) := build_or_get_barline s'.current "right"
      let cur2 := build_repeat "repeatStart" cur2 bi2
      bmLoop { s' with current := cur2, attrIdx := none } rest
    else if strStarts rhythm "voltaStart" then
      let (volta_number, st') := s.st.start_volta s.measure_number
      let (cur, bi) := build_or_get_barline s.current "left"
      let cur ← build_barline_ending symbol cur bi volta_number
      bmLoop { s with current := cur, st := st', attrIdx := none } rest
    else if strStarts2 rhythm "voltaStop" "voltaDiscontinue" then
      let (volta_number, st') := s.st.stop_volta s.measure_number
      let (cur, bi) := build_or_get_barline s.current "right"
      let cur ← build_barline_ending symbol cur bi volta_number
      bmLoop { s with current := cur, st := st', attrIdx := none } rest
    else
      bmLoop { s with attrIdx := none } rest

def build_measures (args : XmlGeneratorArguments) (voice : List EncodedSymbol)
    (is_first_part : Bool) : Except String (List Mxl) :=
  let groups0 := add_tuplet_start_stop (group_into_chords voice)
  let groups := applyBeamMarks groups0 (apply_beaming groups0)
  let (division, nominator) := find_division_and_time_signature_nominator groups
  let state := ConversionState.init division nominator
  let (cur, firstAttrIdx) := build_or_get_attributes [] none false
  let cur := addChildAt cur firstAttrIdx (build_divisions division)
  let max_staff := _max_staff_number voice
  let cur := if max_staff > 1 then addChildAt cur firstAttrIdx (Mxl.staves max_staff) else cur
  let cur :=
    if is_first_part then
      match build_add_time_direction args with
      | some d => cur ++ [d]
      | none => cur
    else cur
  bmLoop ⟨[], 1, cur, some firstAttrIdx, state⟩ groups

/-! ## Proof-facing definitions -/

/-- `"G" in rhythm`: the grace-note test used throughout the source. -/
def isGraceSym (s : EncodedSymbol) : Bool := strHasChar s.rhythm 'G'

/-- The time-cursor movement of one emitted element, in ticks: a note
without a chord mark advances by its duration child, a backup moves
backwards, a forward moves forwards, everything else is neutral. -/
def tickDelta : Mxl → Int
  | .note cs => if cs.any Mxl.isChordMark then 0 else ((cs.findSome? Mxl.durationValue).getD 0)
  | .backup cs => -((cs.findSome? Mxl.durationValue).getD 0)
  | .forward cs => ((cs.findSome? Mxl.durationValue).getD 0)
  | _ => 0

/-- Net time-cursor movement of a sequence of emitted elements. -/
def netTicks (l : List Mxl) : Int := (l.map tickDelta).sum

/-- How one chord acts on the beaming state of a staff position: it
either flushes the pending run, leaves it untouched, or pushes a new
beamable candidate. -/
inductive BeamAction where
  | flush
  | neutral
  | push (c : EncodedSymbol)
deriving DecidableEq

/-- Classification of `beamStep`'s behaviour on one chord. -/
def beamActionOf (staff_position : String) (g : SymbolChord) : BeamAction :=
  if g.is_barline then .flush
  else
    match findStaffChord g staff_position with
    | none => .flush
    | some staff_chord =>
      let (cand0, has_note_or_rest, has_rest) := beamScan staff_chord.symbols false false
      let candidate := if has_rest then none else cand0
      match candidate with
      | none => if has_note_or_rest then .flush else .neutral
      | some c => .push c

/-- The `begin`/`continue` marks written while a run of candidates is
pushed, starting from pending symbol `p` at run length `r`. -/
def pushMarks (p : Nat) (r : Nat) : List EncodedSymbol → List (Nat × String)
  | [] => []
  | c :: rest => (p, if r = 1 then "begin" else "continue") :: pushMarks c.sid (r + 1) rest

/-- The sid of the last candidate, with default `p`. -/
def lastSidD (p : Nat) (cands : List EncodedSymbol) : Nat :=
  (cands.map EncodedSymbol.sid).getLastD p

/-- Whether a symbol belongs to the side of the staff examined by the
pass for `staff_position` (either `"upper"` or `"lower"`). -/
def posMatch (staff_position : String) (s : EncodedSymbol) : Prop :=
  if staff_position = "upper" then s.position = "upper" else s.position ≠ "upper"

instance (staff_position : String) (s : EncodedSymbol) :
    Decidable (posMatch staff_position s) := by
  unfold posMatch; split <;> infer_instance

/-- The state update `beamStep` performs, expressed as a function of
the chord's `BeamAction` classification. -/
def stepOfAction (st : BeamState) : BeamAction → BeamState
  | BeamAction.flush => ⟨none, 0, _finalize_pending_beam st⟩
  | BeamAction.neutral => st
  | BeamAction.push c =>
    match st.pending with
    | none => ⟨some c.sid, 1, st.asgn⟩
    | some p =>
      ⟨some c.sid, st.run_length + 1,
        st.asgn ++ [(p, if st.run_length = 1 then "begin" else "continue")]⟩

/-- The beamable candidates a chord run pushes, in order. -/
def pushedCands (staff_position : String) (run : List SymbolChord) : List EncodedSymbol :=
  run.filterMap (fun g =>
    match beamActionOf staff_position g with
    | BeamAction.push c => some c
    | _ => none)

/-- The sid of the pending beam candidate, as a list. -/
def pendSids (st : BeamState) : List Nat :=
  match st.pending with
  | some p => [p]
  | none => []

/-- The sids a staff-position pass can ever write to: symbols of the
groups lying on that side of the staff. -/
def posSids (staff_position : String) (gs : List SymbolChord) : List Nat :=
  (((gs.map SymbolChord.symbols).flatten).filter
    (fun s => decide (posMatch staff_position s))).map EncodedSymbol.sid

/-- All symbol identities of a chord list. -/
def allSids (gs : List SymbolChord) : List Nat :=
  ((gs.map SymbolChord.symbols).flatten).map EncodedSymbol.sid

/-- All sids a beaming state mentions (assignment targets and the
pending candidate). -/
def stSids (st : BeamState) : List Nat :=
  st.asgn.map Prod.fst ++ (match st.pending with | some p => [p] | none => [])

/-- The beam mark the claim specifies for position `i` of a maximal
beamable run of length `L`. -/
def specBeamMark (L i : Nat) : Option String :=
  if L < 2 then none
  else if i = 0 then some "begin"
  else if i = L - 1 then some "end"
  else some "continue"

/-- The tuplet flag of the chord preceding index `i` (starting flag
`flag` for index 0), mirroring `has_tuplet_mark` just before chord `i`
is processed. -/
def prevTupletFlag (flag : Bool) (groups : List SymbolChord) (i : Nat) : Bool :=
  match i with
  | 0 => flag
  | j + 1 =>
    match groups with
    | [] => flag
    | g :: rest => prevTupletFlag (isTupletChord g) rest j
termination_by structural i

/-- The tuplet bracket the claim specifies for chord `i`: `start` on a
tuplet chord whose predecessor is not a tuplet chord, `stop` on a
non-tuplet chord following a tuplet chord, nothing otherwise. -/
def specTupletMark (groups : List SymbolChord) (i : Nat) : String :=
  match groups[i]? with
  | none => ""
  | some g =>
    let prev := prevTupletFlag false groups i
    if isTupletChord g ∧ ¬ prev then "start"
    else if ¬ isTupletChord g ∧ prev then "stop"
    else ""

/-- The symbol as `build_note_chord` sees it after
`strip_slur_ties` removed the slur and tie tags. -/
def stripSym (s : EncodedSymbol) : EncodedSymbol :=
  (s.strip_articulations ["slurStart", "slurStop", "tieStart", "tieStop"]).2

/-- The components of the conversion state that feed tick values:
`samePart a b` says `a` agrees with `b` on the division and the
whole-measure beat count (the slur/tie/tremolo bookkeeping may
differ). -/
def samePart (a b : ConversionState) : Prop :=
  a.division = b.division ∧ a.beats = b.beats

/-- A duration class of `_group_notes` is well formed for the alignment
argument: it is nonempty, and its primary (first) member is either a
grace note filed under the zero key or a positive-duration symbol filed
under its own fraction. -/
def goodClass (byDur : List (Frac × List EncodedSymbol)) (k : Frac) : Prop :=
  ∃ m rest, classLookup byDur k = m :: rest ∧
    ((isGraceSym m = true ∧ ¬ Frac.ofInt 0 < k) ∨
     (isGraceSym m = false ∧ m.get_duration.fraction = k ∧ Frac.ofInt 0 < k))

/-- An element list that contributes neither a chord mark nor a
duration value to `tickDelta`. -/
def neutralEls (l : List Mxl) : Prop :=
  ∀ m ∈ l, m.isChordMark = false ∧ m.durationValue = none

instance : IsTotal Frac (· ≤ ·) :=
  ⟨fun a b => Int.le_total (a.num * b.den) (b.num * a.den)⟩

instance : IsTrans Frac (· ≤ ·) :=
  ⟨fun a b c hab hbc => by
    have ha : (0 : Int) < a.den := by exact_mod_cast a.den_pos
    have hb : (0 : Int) < b.den := by exact_mod_cast b.den_pos
    have hc : (0 : Int) < c.den := by exact_mod_cast c.den_pos
    have hab' : a.num * b.den ≤ b.num * a.den := hab
    have hbc' : b.num * c.den ≤ c.num * b.den := hbc
    show a.num * c.den ≤ c.num * a.den
    have h1 := mul_le_mul_of_nonneg_right hab' (le_of_lt hc)
    have h2 := mul_le_mul_of_nonneg_right hbc' (le_of_lt ha)
    nlinarith⟩

/-- The division the C3 claim specifies: least common multiple of the
denominators of all distinct positive duration fractions among the
part's Note/Rest symbols, seeded with one quarter note.  This follows
the claim's wording, for comparison with the source's
`find_division_and_time_signature_nominator`. -/
def claimedDivisionAllSymbols (voice : List SymbolChord) : Int :=
  let allFractions := (((voice.map SymbolChord.symbols).flatten).filter
    (fun s => strStarts2 s.rhythm "note" "rest")).map (fun s => s.get_duration.fraction)
  let positives := (Frac.make 1 4 :: allFractions).filter (fun d => Frac.ofInt 0 < d)
  (((positives.map Frac.den).foldl Nat.lcm 1 : Nat) : Int)

/-! ## Concrete inputs used by witnesses and counterexamples -/

def durQuarter : SymbolDuration := ⟨Frac.make 1 4, 0, 1, 1, 4⟩
def durEighth : SymbolDuration := ⟨Frac.make 1 8, 0, 1, 1, 8⟩
def durTwelfth : SymbolDuration := ⟨Frac.make 1 12, 0, 3, 2, 8⟩

def c1s0 : ConversionState := ConversionState.init 4 (Frac.ofInt 1)

def c1afterStarts : ConversionState := ((c1s0.start_slur 1 1).2.start_slur 2 1).2

/-- Seven successive slur starts on one key, drawing numbers 1..7. -/
def c2state7 : ConversionState :=
  (((((((c1s0.start_slur 1 1).2.start_slur 1 1).2.start_slur 1 1).2.start_slur 1
    1).2.start_slur 1 1).2.start_slur 1 1).2.start_slur 1 1).2

def c5note1 : EncodedSymbol := { rhythm := "note_8", pitch := "C5", duration := durEighth, sid := 1 }
def c5clef : EncodedSymbol := { rhythm := "clef_G2", sid := 2 }
def c5note2 : EncodedSymbol := { rhythm := "note_8", pitch := "D5", duration := durEighth, sid := 3 }

def c5groups : List SymbolChord :=
  [SymbolChord.mk [c5note1] "", SymbolChord.mk [c5clef] "", SymbolChord.mk [c5note2] ""]

def c10tuplet : EncodedSymbol :=
  { rhythm := "note_12", pitch := "C5", duration := durTwelfth, sid := 1 }

def c10barline : EncodedSymbol :=
  { rhythm := "barline", pitch := ".", lift := ".", articulation := ".", position := ".", sid := 2 }

def c10groups : List SymbolChord :=
  [SymbolChord.mk [c10tuplet] "", SymbolChord.mk [c10barline] ""]

def c10witnessGroups : List SymbolChord := [SymbolChord.mk [c10tuplet] ""]

def c4note : EncodedSymbol := { rhythm := "note_4", pitch := "C5", duration := durQuarter, sid := 1 }

def c4barline : EncodedSymbol :=
  { rhythm := "barline", pitch := ".", lift := ".", articulation := ".", position := ".", sid := 2 }

def c4clef : EncodedSymbol := { rhythm := "clef_G2", sid := 3 }

/-- A part ending in a barline followed by a trailing clef. -/
def c4voice : List EncodedSymbol := [c4note, c4barline, c4clef]

/-- A part ending exactly on a barline. -/
def c4voiceBarlineEnd : List EncodedSymbol := [c4note, c4barline]

def c3note8 : EncodedSymbol := { rhythm := "note_8", pitch := "C5", duration := durEighth, sid := 1 }

def c3note12 : EncodedSymbol :=
  { rhythm := "note_12", pitch := "E5", duration := durTwelfth, sid := 2 }

/-- One chord mixing an eighth note with a triplet-eighth note. -/
def c3groups : List SymbolChord := [SymbolChord.mk [c3note8, c3note12] ""]

def c3witnessGroups : List SymbolChord := [SymbolChord.mk [c3note8] ""]

/-- A tuplet chord followed by a plain chord. -/
def c8groups : List SymbolChord :=
  [SymbolChord.mk [c10tuplet] "", SymbolChord.mk [c3note8] ""]

/-- Children of a note carrying a C5 pitch, as tie-key source. -/
def c9noteChildren : List Mxl := [Mxl.pitch [Mxl.step "C", Mxl.octave 5]]

def c6sym : EncodedSymbol := { rhythm := "note_4", pitch := "C5", duration := durQuarter, sid := 1 }

def c6chord : SymbolChord := SymbolChord.mk [c6sym] ""

def c6st : ConversionState := ConversionState.init 4 (Frac.ofInt 1)

def c6q : Frac := Frac.make 1 4

def c6res : List Mxl :=
  [Mxl.note [Mxl.pitch [Mxl.step "C", Mxl.octave 5], Mxl.typeEl "quarter",
    Mxl.durationEl 1, Mxl.staffEl 1, Mxl.voiceEl "1", Mxl.notations []]]

def c7e1 : EncodedSymbol := { rhythm := "note_8", pitch := "C5", duration := durEighth, sid := 21 }

def c7e2 : EncodedSymbol := { rhythm := "note_8", pitch := "D5", duration := durEighth, sid := 22 }

def c7bar : EncodedSymbol := { rhythm := "barline", sid := 23 }

def c7run : List SymbolChord := [SymbolChord.mk [c7e1] "", SymbolChord.mk [c7e2] ""]

def c7post : List SymbolChord := [SymbolChord.mk [c7bar] ""]

def c7groups : List SymbolChord := c7run ++ c7post

/-! ## Helper lemmas -/

lemma dictPools_set (m : List ((Int × String × String) × List Int))
    (k : Int × String × String) (v : List Int) : dictPools (dictSet m k v) k = v := by
  induction m with
  | nil => simp [dictSet, dictPools]
  | cons p rest ih =>
    by_cases h : p.1 = k
    · simp [dictSet, dictPools, h]
    · simp only [dictSet, if_neg h]
      simpa [dictPools, List.find?, h] using ih

lemma insortList_mem (n : Int) (l : List Int) (b : Int) :
    b ∈ insortList n l ↔ b = n ∨ b ∈ l := by
  induction l with
  | nil => simp [insortList]
  | cons x xs ih =>
    by_cases h : n < x
    · rw [insortList, if_pos h]; simp
    · rw [insortList, if_neg h]; simp [ih]; tauto

lemma insortList_sorted (n : Int) (l : List Int) (h : l.Sorted (· ≤ ·)) :
    (insortList n l).Sorted (· ≤ ·) := by
  induction l with
  | nil => simp [insortList]
  | cons x xs ih =>
    rcases List.sorted_cons.mp h with ⟨hx, hxs⟩
    by_cases hn : n < x
    · rw [insortList, if_pos hn]
      refine List.sorted_cons.mpr ⟨?_, h⟩
      intro b hb
      rcases List.mem_cons.mp hb with rfl | hb
      · exact le_of_lt hn
      · exact le_trans (le_of_lt hn) (hx b hb)
    · rw [insortList, if_neg hn]
      refine List.sorted_cons.mpr ⟨?_, ih hxs⟩
      intro b hb
      rcases (insortList_mem n xs b).mp hb with rfl | hb
      · omega
      · exact hx b hb

lemma beamScan_no_note_rest (l : List EncodedSymbol) (b1 b2 : Bool)
    (hnn : ∀ s ∈ l, strStarts2 s.rhythm "note" "rest" = false) :
    beamScan l b1 b2 = (none, b1, b2) := by
  induction l generalizing b1 b2 with
  | nil => rfl
  | cons s rest ih =>
    have hs := hnn s (List.mem_cons_self s rest)
    have hnote : strStarts s.rhythm "note" = false := by
      unfold strStarts2 at hs
      exact Bool.or_eq_false_iff.mp hs |>.1
    have hrest : strStarts s.rhythm "rest" = false := by
      unfold strStarts2 at hs
      exact Bool.or_eq_false_iff.mp hs |>.2
    have hbeam : _is_beamable_note s = false := by
      unfold _is_beamable_note
      rw [if_pos]
      simp [hnote]
    unfold beamScan
    simp only [hbeam, hnote, hrest, Bool.or_false, Bool.false_eq_true, if_false, ite_false]
    exact ih _ _ (fun t ht => hnn t (List.mem_cons_of_mem _ ht))

/-! ## Helper lemmas: tuplet annotator characterization -/

lemma tupletLoop_getElem? (groups : List SymbolChord) (flag : Bool) (i : Nat) :
    (tupletLoop flag groups)[i]? = (groups[i]?).map (fun g =>
      if isTupletChord g ≠ prevTupletFlag flag groups i then
        SymbolChord.mk g.symbols (if prevTupletFlag flag groups i then "stop" else "start")
      else g) := by
  induction groups generalizing flag i with
  | nil => simp [tupletLoop]
  | cons g rest ih =>
    cases i with
    | zero =>
      by_cases h : isTupletChord g ≠ flag
      · simp [tupletLoop, prevTupletFlag, h]
      · have heq : isTupletChord g = flag := by simpa using h
        simp [tupletLoop, prevTupletFlag, h, heq]
    | succ j =>
      by_cases h : isTupletChord g ≠ flag
      · simpa [tupletLoop, prevTupletFlag, h] using ih (isTupletChord g) j
      · have heq : isTupletChord g = flag := by simpa using h
        simpa [tupletLoop, prevTupletFlag, h, heq] using ih (isTupletChord g) j

lemma prevTupletFlag_succ (groups : List SymbolChord) (flag : Bool) (j : Nat)
    (g : SymbolChord) (hj : groups[j]? = some g) :
    prevTupletFlag flag groups (j + 1) = isTupletChord g := by
  induction groups generalizing flag j with
  | nil => simp at hj
  | cons h rest ih =>
    cases j with
    | zero =>
      simp only [List.getElem?_cons_zero, Option.some_inj] at hj
      subst hj
      simp [prevTupletFlag]
    | succ k =>
      simp only [List.getElem?_cons_succ] at hj
      simpa [prevTupletFlag] using ih (isTupletChord h) k hj

/-! ## Claim theorems (first group) -/

/-- C1 counterexample: with a fresh allocator, two simultaneous
slur starts on staff 1 and staff 2 draw the numbers 1 and 2 — the
staff-2 slur does not get number 1, so slur numbers are not taken from
an independent pool per `(staff, voice)` key. -/
theorem C1_counterexample :
    ((c1s0.start_slur 1 1).1 = 1) ∧
    (((c1s0.start_slur 1 1).2.start_slur 2 1).1 = 2) ∧
    ¬ (((c1s0.start_slur 1 1).2.start_slur 2 1).1 = 1) := by decide

/-- C1 amended: slur numbers are allocated from one pool shared across
all `(staff, voice)` keys (only the open-slur stacks are per-key): in
the parallel-slur scenario the staff-1 slur gets number 1, the staff-2
slur gets number 2, both numbers are gone from the shared pool while
open, and the matching stops return exactly those numbers. -/
theorem C1_amended :
    ((c1s0.start_slur 1 1).1 = 1) ∧
    (((c1s0.start_slur 1 1).2.start_slur 2 1).1 = 2) ∧
    (c1afterStarts.available_slur_numbers = poolRange.drop 2) ∧
    ((c1afterStarts.stop_slur 1 1).1 = some 1) ∧
    (((c1afterStarts.stop_slur 1 1).2.stop_slur 2 1).1 = some 2) := by decide

/-- C2 counterexample: after allocating the numbers 1..7 from the slur
pool and releasing 7 through its stop, the next allocation returns 8,
not 7 — released numbers above 6 are not reinserted into the pool. -/
theorem C2_counterexample :
    ((c2state7.stop_slur 1 1).1 = some 7) ∧
    (((c2state7.stop_slur 1 1).2.start_slur 1 1).1 = 8) ∧
    ¬ (((c2state7.stop_slur 1 1).2.start_slur 1 1).1 = 7) := by decide

/-- C2 amended: a released slur or tie number is reinserted into the
pool's free list in sorted order only when it lies in 1..6 and is not
already free; numbers 7 and above are never returned to a pool.
Allocation still takes the head of the free list, which is the lowest
free number whenever the list is sorted. -/
theorem C2_amended (st : ConversionState) (k : Int × String × String) (n : Int) :
    (7 ≤ n → st._release_slur_number n = st ∧ st._release_tie_number k n = st) ∧
    (1 ≤ n → n ≤ 6 → n ∉ st.available_slur_numbers →
      (st._release_slur_number n).available_slur_numbers =
        insortList n st.available_slur_numbers) ∧
    (1 ≤ n → n ≤ 6 → n ∉ dictPools st.available_tie_numbers k →
      dictPools (st._release_tie_number k n).available_tie_numbers k =
        insortList n (dictPools st.available_tie_numbers k)) ∧
    (∀ l : List Int, l.Sorted (· ≤ ·) → (insortList n l).Sorted (· ≤ ·)) ∧
    (∀ staff voice m rest, st.available_slur_numbers = m :: rest →
      (st.start_slur staff voice).1 = m) := by
  refine ⟨?_, ?_, ?_, ?_, ?_⟩
  · intro h7
    constructor
    · unfold ConversionState._release_slur_number
      rw [if_neg]; omega
    · unfold ConversionState._release_tie_number
      rw [if_neg]; omega
  · intro h1 h6 hmem
    unfold ConversionState._release_slur_number
    rw [if_pos ⟨h1, h6, hmem⟩]
  · intro h1 h6 hmem
    unfold ConversionState._release_tie_number
    rw [if_pos ⟨h1, h6, hmem⟩]
    exact dictPools_set _ _ _
  · intro l hl
    exact insortList_sorted n l hl
  · intro staff voice m rest hav
    unfold ConversionState.start_slur
    rw [hav]
    simp

/-- C2 amended, witness: releasing 3 into the free list [1, 2, 4]
reinserts it in sorted order, and allocation then returns 1. -/
theorem C2_amended_witness :
    ({ c1s0 with available_slur_numbers := [1, 2, 4] } :
        ConversionState)._release_slur_number 3 =
      { c1s0 with available_slur_numbers := [1, 2, 3, 4] } ∧
    (({ c1s0 with available_slur_numbers := [1, 2, 4] } :
        ConversionState).start_slur 1 1).1 = 1 := by
  have h := C2_amended ({ c1s0 with available_slur_numbers := [1, 2, 4] }) (1, "C5", "0") 3
  constructor
  · have h2 := h.2.1 (by decide) (by decide) (by decide)
    have : insortList 3 [1, 2, 4] = [1, 2, 3, 4] := by decide
    rw [this] at h2
    have hother :
        ({ c1s0 with available_slur_numbers := [1, 2, 4] } :
          ConversionState)._release_slur_number 3 =
        { ({ c1s0 with available_slur_numbers := [1, 2, 4] } : ConversionState) with
          available_slur_numbers :=
            (({ c1s0 with available_slur_numbers := [1, 2, 4] } :
              ConversionState)._release_slur_number 3).available_slur_numbers } := by
      unfold ConversionState._release_slur_number
      split <;> rfl
    rw [hother, h2]
  · exact h.2.2.2.2 1 1 1 [2, 4] rfl

/-- C5 counterexample: a vertical slice whose upper sub-chord holds
only a clef (neither note nor rest) does not flush the pending beam
run: two beamable eighths separated by such a slice still receive
`begin` and `end`, where the claim demands two length-1 runs and no
markers at all. -/
theorem C5_counterexample :
    ((SymbolChord.mk [c5clef] "").symbols.all
      (fun s => !(strStarts2 s.rhythm "note" "rest")) = true) ∧
    beamOf (apply_beaming c5groups) 1 = some "begin" ∧
    beamOf (apply_beaming c5groups) 3 = some "end" := by
  refine ⟨by decide, by decide, by decide⟩

/-- C5 amended: during the beaming pass, a present sub-chord at the
examined staff position that contains neither a note nor a rest leaves
the pass state — pending candidate, run length and written markers —
entirely unchanged; only rests, barlines, note-bearing sub-chords
without a beamable candidate, or absent sub-chords flush the run. -/
theorem C5_amended (staff_position : String) (st : BeamState) (g : SymbolChord)
    (sc : SymbolChord) (hbar : g.is_barline = false)
    (hfind : findStaffChord g staff_position = some sc)
    (hnn : ∀ s ∈ sc.symbols, strStarts2 s.rhythm "note" "rest" = false) :
    beamStep staff_position st g = st := by
  have hscan := beamScan_no_note_rest sc.symbols false false hnn
  simp [beamStep, hbar, hfind, hscan]

/-- C5 amended, witness: a clef-only slice leaves a pending run of
length 1 untouched. -/
theorem C5_amended_witness :
    beamStep "upper" ⟨some 7, 1, []⟩ (SymbolChord.mk [c5clef] "") = ⟨some 7, 1, []⟩ :=
  C5_amended "upper" ⟨some 7, 1, []⟩ (SymbolChord.mk [c5clef] "")
    (SymbolChord.mk [c5clef] "") (by decide) (by decide) (by decide)

/-- C10 counterexample: in a part whose last Note/Rest-bearing chord is
a tuplet chord but which ends with a barline chord, the annotator
stamps `start` on the tuplet chord and still stamps `stop` on the
trailing barline chord — contradicting that no stop is stamped on any
chord. -/
theorem C10_counterexample :
    (isTupletChord (SymbolChord.mk [c10tuplet] "") = true) ∧
    ((SymbolChord.mk [c10barline] "").symbols.all
      (fun s => !(strStarts2 s.rhythm "note" "rest")) = true) ∧
    ((add_tuplet_start_stop c10groups).map SymbolChord.tuplet_mark = ["start", "stop"]) := by
  refine ⟨by decide, by decide, by decide⟩

/-- C10 amended: if a part's chord sequence ends while in tuplet state
— its final chord is a tuplet chord — then the annotator stamps `start`
on the first chord of the trailing tuplet run and stamps `stop` on no
chord from that point on, so the bracket opened there is never
closed. -/
theorem C10_amended (groups : List SymbolChord) (gl : SymbolChord)
    (hmarks : ∀ g ∈ groups, g.tuplet_mark = "")
    (hlast : groups.getLast? = some gl)
    (htup : isTupletChord gl = true) :
    ∃ i g', i < groups.length ∧
      (add_tuplet_start_stop groups)[i]? = some g' ∧ g'.tuplet_mark = "start" ∧
      ∀ j h', i ≤ j → (add_tuplet_start_stop groups)[j]? = some h' →
        h'.tuplet_mark ≠ "stop" := by
  obtain ⟨pre, hpre⟩ := List.getLast?_eq_some_iff.mp hlast
  have hlen : 0 < groups.length := by rw [hpre]; simp
  have hdroplast : groups.drop (groups.length - 1) = [gl] := by
    rw [hpre]
    have : (pre ++ [gl]).length - 1 = pre.length := by simp
    rw [this, List.drop_left]
  have hQ : ∃ i, ((groups.drop i).all isTupletChord) = true := by
    refine ⟨groups.length - 1, ?_⟩
    rw [hdroplast]; simp [htup]
  obtain ⟨i0, hi0spec, hi0min⟩ :
      ∃ i0, ((groups.drop i0).all isTupletChord) = true ∧
        ∀ m, m < i0 → ¬ ((groups.drop m).all isTupletChord) = true :=
    ⟨Nat.find hQ, Nat.find_spec hQ, fun m hm => Nat.find_min hQ hm⟩
  have hi0lt : i0 < groups.length := by
    rcases Nat.lt_or_ge i0 groups.length with h | h
    · exact h
    · exfalso
      refine hi0min (groups.length - 1) (by omega) ?_
      rw [hdroplast]; simp [htup]
  have hTupAt : ∀ j g, i0 ≤ j → groups[j]? = some g → isTupletChord g = true := by
    intro j g hij hj
    have hx : (groups.drop i0)[j - i0]? = some g := by
      rw [List.getElem?_drop]
      have : i0 + (j - i0) = j := by omega
      rw [this]; exact hj
    exact List.all_eq_true.mp hi0spec g (List.getElem?_mem hx)
  cases hg0 : groups[i0]? with
  | none =>
    have := List.getElem?_eq_none_iff.mp hg0
    omega
  | some g0 =>
    have hg0tup : isTupletChord g0 = true := hTupAt _ g0 (le_refl _) hg0
    have hprev : prevTupletFlag false groups i0 = false := by
      cases hcase : i0 with
      | zero => rfl
      | succ j =>
        cases hgj : groups[j]? with
        | none =>
          have := List.getElem?_eq_none_iff.mp hgj
          omega
        | some gj =>
          rw [prevTupletFlag_succ groups false j gj hgj]
          cases h : isTupletChord gj with
          | false => rfl
          | true =>
            exfalso
            have hQj : ((groups.drop j).all isTupletChord) = true := by
              have hjlt : j < groups.length := by omega
              rw [List.drop_eq_getElem_cons hjlt]
              have hgl : groups[j] = gj := (List.getElem?_eq_some_iff.mp hgj).2
              rw [List.all_cons, hgl, h, Bool.true_and]
              have : j + 1 = i0 := by omega
              rw [this]
              exact hi0spec
            exact hi0min j (by omega) hQj
    refine ⟨i0, SymbolChord.mk g0.symbols "start", hi0lt, ?_, rfl, ?_⟩
    · unfold add_tuplet_start_stop
      rw [tupletLoop_getElem?, hg0]
      simp only [Option.map_some']
      rw [if_pos (by rw [hg0tup, hprev]; simp), if_neg (by rw [hprev]; simp)]
    · intro j h' hij hj'
      unfold add_tuplet_start_stop at hj'
      rw [tupletLoop_getElem?] at hj'
      cases hjg : groups[j]? with
      | none => rw [hjg] at hj'; simp at hj'
      | some gj =>
        rw [hjg] at hj'
        simp only [Option.map_some', Option.some_inj] at hj'
        have hjt : isTupletChord gj = true := hTupAt j gj hij hjg
        by_cases hne : isTupletChord gj ≠ prevTupletFlag false groups j
        · rw [if_pos hne] at hj'
          have hpf : prevTupletFlag false groups j = false := by
            cases h : prevTupletFlag false groups j
            · rfl
            · exact absurd (by rw [hjt, h]) hne
          rw [if_neg (by rw [hpf]; simp)] at hj'
          rw [← hj']
          show ("start" : String) ≠ "stop"
          decide
        · rw [if_neg hne] at hj'
          rw [← hj']
          rw [hmarks gj (List.getElem?_mem hjg)]
          decide

/-- C10 amended, witness: a single-chord part consisting of one tuplet
chord gets `start` stamped on it and no `stop` anywhere. -/
theorem C10_amended_witness :
    ∃ i g', i < c10witnessGroups.length ∧
      (add_tuplet_start_stop c10witnessGroups)[i]? = some g' ∧ g'.tuplet_mark = "start" ∧
      ∀ j h', i ≤ j → (add_tuplet_start_stop c10witnessGroups)[j]? = some h' →
        h'.tuplet_mark ≠ "stop" :=
  C10_amended c10witnessGroups (SymbolChord.mk [c10tuplet] "")
    (by decide) (by decide) (by decide)

/-! ## Helper lemmas: timing analysis -/

lemma Frac.make_den (n d : Int) (hd : 0 < d) :
    (Frac.make n d).den = d.toNat / (n.natAbs.gcd d.toNat) := by
  unfold Frac.make
  rw [dif_neg (not_le.mpr hd)]

lemma Frac.make_num (n d : Int) (hd : 0 < d) :
    (Frac.make n d).num = n / ((n.natAbs.gcd d.toNat : Nat) : Int) := by
  unfold Frac.make
  rw [dif_neg (not_le.mpr hd)]

lemma fdLoop_durs_mono (gs : List SymbolChord) :
    ∀ durs acc md x, x ∈ durs → x ∈ (fdLoop gs durs acc md).1 := by
  induction gs with
  | nil => intro durs acc md x hx; exact hx
  | cons c rest ih =>
    intro durs acc md x hx
    unfold fdLoop
    split
    · exact ih _ _ _ x hx
    · split
      · exact ih _ _ _ x (List.mem_append_left _ hx)
      · exact ih _ _ _ x hx

lemma fdLoop_mem_dur (gs : List SymbolChord) :
    ∀ durs acc md g, g ∈ gs → g.is_barline = false →
      Frac.ofInt 0 < g.get_duration → g.get_duration ∈ (fdLoop gs durs acc md).1 := by
  induction gs with
  | nil => intro _ _ _ g hg; exact absurd hg (List.not_mem_nil g)
  | cons c rest ih =>
    intro durs acc md g hg hbar hpos
    rcases List.mem_cons.mp hg with rfl | hg
    · unfold fdLoop
      rw [if_neg (by simp [hbar])]
      rw [if_pos hpos]
      exact fdLoop_durs_mono rest _ _ _ _ (List.mem_append_right _ (List.mem_singleton_self _))
    · unfold fdLoop
      split
      · exact ih _ _ _ g hg hbar hpos
      · split
        · exact ih _ _ _ g hg hbar hpos
        · exact ih _ _ _ g hg hbar hpos

lemma foldl_pyLcm_dvd (l : List Nat) : ∀ c x, (x = c ∨ x ∈ l) → x ∣ l.foldl pyLcm c := by
  induction l with
  | nil =>
    intro c x hx
    rcases hx with rfl | hx
    · exact dvd_refl x
    · exact absurd hx (List.not_mem_nil x)
  | cons y rest ih =>
    intro c x hx
    show x ∣ rest.foldl pyLcm (pyLcm c y)
    rcases hx with rfl | hx
    · exact dvd_trans (Nat.dvd_lcm_left x y) (ih (pyLcm x y) _ (Or.inl rfl))
    · rcases List.mem_cons.mp hx with rfl | hx
      · exact dvd_trans (Nat.dvd_lcm_right c x) (ih (pyLcm c x) _ (Or.inl rfl))
      · exact ih (pyLcm c y) x (Or.inr hx)

lemma find_common_division_dvd (durs : List Frac) (d : Frac)
    (hd : d ∈ durs) (hpos : Frac.ofInt 0 < d) :
    ((d.den : Nat) : Int) ∣ find_common_division durs := by
  unfold find_common_division
  have hmem : d.den ∈ (durs.filter (fun x => decide (Frac.ofInt 0 < x))).map Frac.den := by
    exact List.mem_map_of_mem Frac.den (List.mem_filter.mpr ⟨hd, by simpa using hpos⟩)
  cases hdens : (durs.filter (fun x => decide (Frac.ofInt 0 < x))).map Frac.den with
  | nil => rw [hdens] at hmem; exact absurd hmem (List.not_mem_nil _)
  | cons c rest =>
    rw [hdens] at hmem
    simp only [hdens]
    have hdvd : d.den ∣ rest.foldl pyLcm c := by
      rcases List.mem_cons.mp hmem with heq | h
      · exact foldl_pyLcm_dvd rest c d.den (Or.inl heq)
      · exact foldl_pyLcm_dvd rest c d.den (Or.inr h)
    exact_mod_cast Int.natCast_dvd_natCast.mpr hdvd

lemma Frac.mul_ofInt_den_one (f : Frac) (D : Int) (hD : ((f.den : Nat) : Int) ∣ D) :
    (f.mul (Frac.ofInt D)).den = 1 := by
  show (Frac.make (f.num * D) ((f.den : Int) * ((1 : Nat) : Int))).den = 1
  have hden : ((f.den : Int) * ((1 : Nat) : Int)) = (f.den : Int) := by simp
  rw [hden]
  have hpos : (0 : Int) < (f.den : Int) := by exact_mod_cast f.den_pos
  rw [Frac.make_den _ _ hpos]
  have htn : ((f.den : Int)).toNat = f.den := by simp
  rw [htn]
  have hdvd : f.den ∣ (f.num * D).natAbs := by
    have h1 : ((f.den : Nat) : Int) ∣ f.num * D := Dvd.dvd.mul_left hD f.num
    have := Int.natAbs_dvd_natAbs.mpr h1
    simpa using this
  rw [Nat.gcd_eq_right hdvd]
  exact Nat.div_self f.den_pos

lemma Frac.pyInt_den_one (f : Frac) (h : f.den = 1) : f.pyInt = f.num := by
  unfold Frac.pyInt
  rw [h]
  rw [Nat.cast_one]
  exact Int.tdiv_one f.num

lemma fdiv_fst (voice : List SymbolChord) :
    (find_division_and_time_signature_nominator voice).1 =
      find_common_division (fdLoop voice [Frac.make 1 4] (Frac.ofInt 0) []).1 := by
  unfold find_division_and_time_signature_nominator
  rcases h : fdLoop voice [Frac.make 1 4] (Frac.ofInt 0) [] with ⟨durs, acc, md⟩
  simp only []
  split <;> rfl

/-! ## Claim theorems: C4 and C3 -/

/-- C4 counterexample: in a part ending with a barline followed by a
trailing clef, the final accumulated measure is appended even though
its only child is an attributes block (non-musical content): the
emitted part has two measures, the second with one child and no
musical content. -/
theorem C4_counterexample :
    ((build_measures {} c4voice false).map (fun ms =>
      ms.map (fun m => (m.children.length, _measure_has_musical_content m.children))))
      = .ok [(2, true), (1, false)] := by decide

/-- C4 amended: after the last Chord, the accumulated measure is
appended if and only if it holds at least one child element of any
kind: a trailing measure holding only an attributes block (from a
trailing clef after the last barline) is appended, while an input
ending exactly on a barline leaves the empty trailing measure
unappended. -/
theorem C4_amended :
    ((build_measures {} c4voice false).map (fun ms =>
        ms.map (fun m => (m.children.isEmpty, _measure_has_musical_content m.children))))
      = .ok [(false, true), (false, false)] ∧
    ((build_measures {} c4voice false).map (fun ms => ms.length) = .ok 2) ∧
    ((build_measures {} c4voiceBarlineEnd false).map (fun ms => ms.length) = .ok 1) := by
  refine ⟨by decide, by decide, by decide⟩

/-- C3 counterexample: for a part holding one chord that mixes an
eighth note (1/8) with a triplet eighth (1/12), the computed division
is 12 — the lcm over each chord's minimum duration — while the lcm over
all Note/Rest duration denominators prescribed by the claim is 24; the
eighth note's tick value 1/8·12 = 3/2 is then truncated to 1, so not
every emitted duration is exact. -/
theorem C3_counterexample :
    ((find_division_and_time_signature_nominator c3groups).1 = 12) ∧
    (claimedDivisionAllSymbols c3groups = 24) ∧
    ¬ ((find_division_and_time_signature_nominator c3groups).1 =
        claimedDivisionAllSymbols c3groups) ∧
    ((durEighth.fraction.mul
      (Frac.ofInt (find_division_and_time_signature_nominator c3groups).1)).den ≠ 1) ∧
    ((durEighth.fraction.mul
      (Frac.ofInt (find_division_and_time_signature_nominator c3groups).1)).pyInt = 1) := by
  refine ⟨by decide, by decide, by decide, by decide, by decide⟩

/-- C3 amended: the computed division is the least common multiple of
the denominators of each Chord's minimum positive duration
(`SymbolChord.get_duration`), seeded with one quarter note;
consequently each Chord's minimum duration — and the quarter-note seed
— times the division is an exact integer (its fraction has denominator
1 and Python's `int()` is exact on it), but durations of other notes
inside a chord need not be. -/
theorem C3_amended (groups : List SymbolChord) (g : SymbolChord)
    (hmem : g ∈ groups) (hbar : g.is_barline = false)
    (hpos : Frac.ofInt 0 < g.get_duration) :
    ((g.get_duration.mul
      (Frac.ofInt (find_division_and_time_signature_nominator groups).1)).den = 1) ∧
    ((g.get_duration.mul
      (Frac.ofInt (find_division_and_time_signature_nominator groups).1)).pyInt =
     (g.get_duration.mul
      (Frac.ofInt (find_division_and_time_signature_nominator groups).1)).num) ∧
    (((Frac.make 1 4).mul
      (Frac.ofInt (find_division_and_time_signature_nominator groups).1)).den = 1) := by
  have hdur : g.get_duration ∈ (fdLoop groups [Frac.make 1 4] (Frac.ofInt 0) []).1 :=
    fdLoop_mem_dur groups _ _ _ g hmem hbar hpos
  have hseed : Frac.make 1 4 ∈ (fdLoop groups [Frac.make 1 4] (Frac.ofInt 0) []).1 :=
    fdLoop_durs_mono groups _ _ _ _ (List.mem_singleton_self _)
  have h1 := find_common_division_dvd _ _ hdur hpos
  have h2 := find_common_division_dvd _ _ hseed (by decide)
  rw [← fdiv_fst] at h1 h2
  have hq : (g.get_duration.mul
      (Frac.ofInt (find_division_and_time_signature_nominator groups).1)).den = 1 :=
    Frac.mul_ofInt_den_one _ _ h1
  refine ⟨hq, Frac.pyInt_den_one _ hq, Frac.mul_ofInt_den_one _ _ h2⟩

/-- C3 amended, witness: a part with one eighth-note chord gets
division 8, and 1/8 times 8 is exactly 1. -/
theorem C3_amended_witness :
    (((SymbolChord.mk [c3note8] "").get_duration.mul
      (Frac.ofInt (find_division_and_time_signature_nominator c3witnessGroups).1)).den = 1) ∧
    (((SymbolChord.mk [c3note8] "").get_duration.mul
      (Frac.ofInt (find_division_and_time_signature_nominator c3witnessGroups).1)).pyInt =
     ((SymbolChord.mk [c3note8] "").get_duration.mul
      (Frac.ofInt (find_division_and_time_signature_nominator c3witnessGroups).1)).num) ∧
    (((Frac.make 1 4).mul
      (Frac.ofInt (find_division_and_time_signature_nominator c3witnessGroups).1)).den = 1) :=
  C3_amended c3witnessGroups (SymbolChord.mk [c3note8] "")
    (by decide) (by decide) (by decide)

/-! ## Claim theorems: C8 and C9 -/

/-- C8: the tuplet annotator stamps `start` exactly on tuplet chords
whose predecessor is not a tuplet chord (the first chord of a maximal
tuplet run), `stop` exactly on non-tuplet chords whose predecessor is a
tuplet chord (the first chord after such a run), and leaves every other
chord unmarked; in particular a part with no tuplet-ratio mismatch gets
zero bracket marks. -/
theorem C8_tuplet_law (groups : List SymbolChord)
    (hmarks : ∀ g ∈ groups, g.tuplet_mark = "") :
    (∀ i g, groups[i]? = some g →
      (add_tuplet_start_stop groups)[i]? =
        some (SymbolChord.mk g.symbols (specTupletMark groups i))) ∧
    ((∀ g ∈ groups, isTupletChord g = false) →
      ∀ g' ∈ add_tuplet_start_stop groups, g'.tuplet_mark = "") := by
  have hmain : ∀ i g, groups[i]? = some g →
      (add_tuplet_start_stop groups)[i]? =
        some (SymbolChord.mk g.symbols (specTupletMark groups i)) := by
    intro i g hi
    have hm : g.tuplet_mark = "" := hmarks g (List.getElem?_mem hi)
    unfold add_tuplet_start_stop
    rw [tupletLoop_getElem?, hi]
    simp only [Option.map_some', Option.some_inj]
    unfold specTupletMark
    rw [hi]
    dsimp only
    cases ht : isTupletChord g with
    | true =>
      cases hp : prevTupletFlag false groups i with
      | false => simp
      | true =>
        rw [if_neg (by simp), if_neg (by simp), if_neg (by simp)]
        rw [← hm]
    | false =>
      cases hp : prevTupletFlag false groups i with
      | false =>
        rw [if_neg (by simp), if_neg (by simp), if_neg (by simp)]
        rw [← hm]
      | true => simp
  refine ⟨hmain, ?_⟩
  intro hnone g' hg'
  obtain ⟨i, hi⟩ := List.mem_iff_getElem?.mp hg'
  cases hgi : groups[i]? with
  | none =>
    unfold add_tuplet_start_stop at hi
    rw [tupletLoop_getElem?, hgi] at hi
    simp at hi
  | some g =>
    have := hmain i g hgi
    rw [hi] at this
    have hg'eq : g' = SymbolChord.mk g.symbols (specTupletMark groups i) := by
      exact Option.some_inj.mp this
    rw [hg'eq]
    show specTupletMark groups i = ""
    unfold specTupletMark
    rw [hgi]
    have hgt : isTupletChord g = false := hnone g (List.getElem?_mem hgi)
    have hprev : prevTupletFlag false groups i = false := by
      cases i with
      | zero => rfl
      | succ j =>
        cases hgj : groups[j]? with
        | none =>
          have h1 := List.getElem?_eq_none_iff.mp hgj
          have h2 : j + 1 < groups.length := by
            rcases List.getElem?_eq_some_iff.mp hgi with ⟨h, _⟩
            exact h
          omega
        | some gj =>
          rw [prevTupletFlag_succ groups false j gj hgj]
          exact hnone gj (List.getElem?_mem hgj)
    dsimp only
    rw [if_neg (by simp [hgt]), if_neg (by simp [hprev])]

/-- C8 witness: on a tuplet chord followed by a plain chord, the marks
agree with the specified `start`/`stop` pattern. -/
theorem C8_tuplet_law_witness :
    (∀ i g, c8groups[i]? = some g →
      (add_tuplet_start_stop c8groups)[i]? =
        some (SymbolChord.mk g.symbols (specTupletMark c8groups i))) ∧
    ((∀ g ∈ c8groups, isTupletChord g = false) →
      ∀ g' ∈ add_tuplet_start_stop c8groups, g'.tuplet_mark = "") :=
  C8_tuplet_law c8groups (by decide)

/-- C9: stopping a slur on a `(staff, voice)` key with no open slur, or
a tie on a `(staff, pitch, accidental)` key with no open tie, returns
no match and leaves the allocator untouched; the emitter then appends
an empty notations block to the note — no closing slur or tied element
is produced at all. -/
theorem C9_unmatched_stop (st : ConversionState) (staff voice : Int) (nc : List Mxl)
    (hslur : dictStacks st.open_slurs (staff, voice) = [])
    (hties : ∀ pk lift, dictStacks st.open_ties (staff, pk, lift) = []) :
    st.stop_slur staff voice = (none, st) ∧
    (∀ pitch lift, st.stop_tie staff pitch lift = (none, st)) ∧
    build_articulations nc "slurStop" "" st (some staff) (some voice) =
      .ok (nc ++ [Mxl.notations []], st) ∧
    build_articulations nc "tieStop" "" st (some staff) (some voice) =
      .ok (nc ++ [Mxl.notations []], st) := by
  have hstopslur : st.stop_slur staff voice = (none, st) := by
    unfold ConversionState.stop_slur
    dsimp only
    rw [hslur]
    rfl
  have hstoptie : ∀ pitch lift, st.stop_tie staff pitch lift = (none, st) := by
    intro pitch lift
    unfold ConversionState.stop_tie
    dsimp only
    rw [hties pitch lift]
    rfl
  refine ⟨hstopslur, hstoptie, ?_, ?_⟩
  · have hstep : articStep nc (some staff) (some voice) ([], [], [], st) "slurStop" =
        (match st.stop_slur staff voice with
         | (some number, st') =>
             Except.ok (([] : List Mxl) ++ [Mxl.slur "stop" (some number)],
               ([] : List Mxl), ([] : List Mxl), st')
         | (none, st') =>
             Except.ok (([] : List Mxl), ([] : List Mxl), ([] : List Mxl), st')) := rfl
    have hstepok : articStep nc (some staff) (some voice) ([], [], [], st) "slurStop" =
        .ok (([] : List Mxl), ([] : List Mxl), ([] : List Mxl), st) := by
      rw [hstep, hstopslur]
    have hloop : articLoop nc (some staff) (some voice) ([], [], [], st)
        (strSplit "slurStop" '_') =
        .ok (([] : List Mxl), ([] : List Mxl), ([] : List Mxl), st) := by
      show (articStep nc (some staff) (some voice) ([], [], [], st) "slurStop" >>= fun acc =>
        articLoop nc (some staff) (some voice) acc []) =
        .ok (([] : List Mxl), ([] : List Mxl), ([] : List Mxl), st)
      rw [hstepok]
      rfl
    unfold build_articulations
    dsimp only
    rw [hloop]
    rfl
  · have hstep : articStep nc (some staff) (some voice) ([], [], [], st) "tieStop" =
        (match findPitch nc with
         | some p =>
           match p.children.findSome? Mxl.stepValue, p.children.findSome? Mxl.octaveValue with
           | some stepv, some octavev =>
             let pitch_key := stepv ++ toString octavev
             let lift :=
               match p.children.findSome? Mxl.alterValue with
               | some a => toString a
               | none => "0"
             match st.stop_tie staff pitch_key lift with
             | (some number, st') =>
                 Except.ok (([] : List Mxl) ++ [Mxl.tied "stop" (some number)],
                   ([] : List Mxl), ([] : List Mxl), st')
             | (none, st') =>
                 Except.ok (([] : List Mxl), ([] : List Mxl), ([] : List Mxl), st')
           | _, _ => Except.ok (([] : List Mxl), ([] : List Mxl), ([] : List Mxl), st)
         | none => Except.ok (([] : List Mxl), ([] : List Mxl), ([] : List Mxl), st)) := rfl
    have hstep2 : articStep nc (some staff) (some voice) ([], [], [], st) "tieStop" =
        Except.ok (([] : List Mxl), ([] : List Mxl), ([] : List Mxl), st) := by
      rw [hstep]
      cases hp : findPitch nc with
      | none => rfl
      | some p =>
        dsimp only
        cases hs : p.children.findSome? Mxl.stepValue with
        | none => rfl
        | some stepv =>
          cases ho : p.children.findSome? Mxl.octaveValue with
          | none => rfl
          | some octavev =>
            dsimp only
            rw [hstoptie]
    have hloop : articLoop nc (some staff) (some voice) ([], [], [], st)
        (strSplit "tieStop" '_') =
        .ok (([] : List Mxl), ([] : List Mxl), ([] : List Mxl), st) := by
      show (articStep nc (some staff) (some voice) ([], [], [], st) "tieStop" >>= fun acc =>
        articLoop nc (some staff) (some voice) acc []) =
        .ok (([] : List Mxl), ([] : List Mxl), ([] : List Mxl), st)
      rw [hstep2]
      rfl
    unfold build_articulations
    dsimp only
    rw [hloop]
    rfl

/-- C9 witness: a fresh conversion state has no open slurs or ties, so
an unmatched `slurStop`/`tieStop` on a pitched note produces an empty
notations block and no closing element. -/
theorem C9_unmatched_stop_witness :
    c1s0.stop_slur 1 1 = (none, c1s0) ∧
    (∀ pitch lift, c1s0.stop_tie 1 pitch lift = (none, c1s0)) ∧
    build_articulations c9noteChildren "slurStop" "" c1s0 (some 1) (some 1) =
      .ok (c9noteChildren ++ [Mxl.notations []], c1s0) ∧
    build_articulations c9noteChildren "tieStop" "" c1s0 (some 1) (some 1) =
      .ok (c9noteChildren ++ [Mxl.notations []], c1s0) :=
  C9_unmatched_stop c1s0 1 1 c9noteChildren (by decide) (fun pk lift => by
    show dictStacks ([] : List ((Int × String × String) × List Int)) (1, pk, lift) = []
    rfl)

/-! ## Helper lemmas: `Except` binds and the rational bridge for `Frac` -/

lemma exbind_err {ε α β : Type} (e : ε) (k : α → Except ε β) :
    (Except.error e >>= k) = Except.error e := rfl

lemma exbind_ok {ε α β : Type} (a : α) (k : α → Except ε β) :
    (Except.ok a >>= k) = k a := rfl

lemma expure {ε α : Type} (a : α) : (pure a : Except ε α) = Except.ok a := rfl

lemma Frac.toRat_eq_div (f : Frac) : f.toRat = (f.num : ℚ) / ((f.den : Nat) : ℚ) :=
  (Rat.num_div_den f.toRat).symm

lemma Frac.le_iff_toRat (a b : Frac) : a ≤ b ↔ a.toRat ≤ b.toRat := by
  rw [Rat.le_def]; exact Iff.rfl

lemma Frac.lt_iff_toRat (a b : Frac) : a < b ↔ a.toRat < b.toRat := by
  rw [Rat.lt_def]; exact Iff.rfl

lemma Frac.toRat_inj {a b : Frac} (h : a.toRat = b.toRat) : a = b := by
  have hn : a.num = b.num := congrArg Rat.num h
  have hd : a.den = b.den := congrArg Rat.den h
  cases a; cases b; simp_all

lemma Frac.nonneg_iff (f : Frac) : Frac.ofInt 0 ≤ f ↔ 0 ≤ f.num := by
  show (0 : Int) * (f.den : Int) ≤ f.num * ((1 : Nat) : Int) ↔ 0 ≤ f.num
  simp

lemma Frac.pos_iff (f : Frac) : Frac.ofInt 0 < f ↔ 0 < f.num := by
  show (0 : Int) * (f.den : Int) < f.num * ((1 : Nat) : Int) ↔ 0 < f.num
  simp

lemma Frac.num_nonneg_iff_toRat (f : Frac) : 0 ≤ f.num ↔ 0 ≤ f.toRat :=
  @Rat.num_nonneg f.toRat

lemma Frac.toRat_ofInt (n : Int) : (Frac.ofInt n).toRat = (n : ℚ) := by
  have h1 : (Frac.ofInt n).toRat.num = n := rfl
  have h2 : (Frac.ofInt n).toRat.den = 1 := rfl
  exact Rat.ext (h1.trans (Rat.num_intCast n).symm) (h2.trans (Rat.den_intCast n).symm)

lemma Frac.toRat_make (n d : Int) (hd : 0 < d) :
    (Frac.make n d).toRat = (n : ℚ) / (d : ℚ) := by
  set g := n.natAbs.gcd d.toNat with hgdef
  have hd0 : (0 : Int) ≤ d := le_of_lt hd
  have hdn : 0 < d.toNat := by omega
  have hgpos : 0 < g := Nat.gcd_pos_of_pos_right _ hdn
  have hgn : ((g : Nat) : Int) ∣ n :=
    Int.natAbs_dvd_natAbs.mp (by simpa using Nat.gcd_dvd_left n.natAbs d.toNat)
  have hgd : g ∣ d.toNat := Nat.gcd_dvd_right _ _
  have hgQ : ((g : ℚ)) ≠ 0 := by exact_mod_cast Nat.pos_iff_ne_zero.mp hgpos
  rw [Frac.toRat_eq_div, Frac.make_num n d hd, Frac.make_den n d hd]
  have hn' : n = (g : Int) * (n / (g : Int)) := (Int.mul_ediv_cancel' hgn).symm
  have hd' : d.toNat = g * (d.toNat / g) := (Nat.mul_div_cancel' hgd).symm
  have hdQ : ((d.toNat : Nat) : ℚ) = (d : ℚ) := by
    exact_mod_cast congrArg (fun z : Int => (z : ℚ)) (Int.toNat_of_nonneg hd0)
  conv_rhs => rw [hn', ← hdQ, hd']
  push_cast
  rw [mul_div_mul_left _ _ hgQ]

lemma Frac.toRat_mul (a b : Frac) : (a.mul b).toRat = a.toRat * b.toRat := by
  unfold Frac.mul
  have hdpos : (0 : Int) < (a.den : Int) * (b.den : Int) := by
    exact_mod_cast Nat.mul_pos a.den_pos b.den_pos
  rw [Frac.toRat_make _ _ hdpos, Frac.toRat_eq_div a, Frac.toRat_eq_div b]
  push_cast
  rw [div_mul_div_comm]

lemma Frac.toRat_sub (a b : Frac) : (a.sub b).toRat = a.toRat - b.toRat := by
  unfold Frac.sub
  have hdpos : (0 : Int) < (a.den : Int) * (b.den : Int) := by
    exact_mod_cast Nat.mul_pos a.den_pos b.den_pos
  have ha : ((a.den : Nat) : ℚ) ≠ 0 := by
    exact_mod_cast Nat.pos_iff_ne_zero.mp a.den_pos
  have hb : ((b.den : Nat) : ℚ) ≠ 0 := by
    exact_mod_cast Nat.pos_iff_ne_zero.mp b.den_pos
  rw [Frac.toRat_make _ _ hdpos, Frac.toRat_eq_div a, Frac.toRat_eq_div b]
  push_cast
  field_simp
  ring

lemma Frac.pyInt_eq_floor (f : Frac) (h : 0 ≤ f.num) : f.pyInt = ⌊f.toRat⌋ := by
  unfold Frac.pyInt
  rw [Int.tdiv_eq_ediv h (by exact_mod_cast Nat.zero_le f.den), Rat.floor_def]
  rfl

lemma Frac.toRat_of_den_one (f : Frac) (h : f.den = 1) : f.toRat = (f.num : ℚ) := by
  rw [Frac.toRat_eq_div, h]
  simp

lemma pyInt_sub_cancel (f q : Frac) (Dv : Int) (hq0 : 0 ≤ q.num) (hqf : q ≤ f)
    (hDv : 0 ≤ Dv) (hden : (q.mul (Frac.ofInt Dv)).den = 1) :
    (f.mul (Frac.ofInt Dv)).pyInt - ((f.sub q).mul (Frac.ofInt Dv)).pyInt =
      (q.mul (Frac.ofInt Dv)).num := by
  have hqr : (0 : ℚ) ≤ q.toRat := (Frac.num_nonneg_iff_toRat q).mp hq0
  have hfr : q.toRat ≤ f.toRat := (Frac.le_iff_toRat q f).mp hqf
  have hDr : (0 : ℚ) ≤ ((Dv : ℚ)) := by exact_mod_cast hDv
  have hf0 : (0 : ℚ) ≤ f.toRat := le_trans hqr hfr
  have hm1 : (f.mul (Frac.ofInt Dv)).toRat = f.toRat * (Dv : ℚ) := by
    rw [Frac.toRat_mul, Frac.toRat_ofInt]
  have hm2 : ((f.sub q).mul (Frac.ofInt Dv)).toRat = (f.toRat - q.toRat) * (Dv : ℚ) := by
    rw [Frac.toRat_mul, Frac.toRat_sub, Frac.toRat_ofInt]
  have hm3 : (q.mul (Frac.ofInt Dv)).toRat = ((q.mul (Frac.ofInt Dv)).num : ℚ) :=
    Frac.toRat_of_den_one _ hden
  have hm3' : (q.mul (Frac.ofInt Dv)).toRat = q.toRat * (Dv : ℚ) := by
    rw [Frac.toRat_mul, Frac.toRat_ofInt]
  have h1 : 0 ≤ (f.mul (Frac.ofInt Dv)).num := by
    rw [Frac.num_nonneg_iff_toRat, hm1]
    exact mul_nonneg hf0 hDr
  have h2 : 0 ≤ ((f.sub q).mul (Frac.ofInt Dv)).num := by
    rw [Frac.num_nonneg_iff_toRat, hm2]
    exact mul_nonneg (sub_nonneg.mpr hfr) hDr
  rw [Frac.pyInt_eq_floor _ h1, Frac.pyInt_eq_floor _ h2, hm1, hm2]
  have hkey : (f.toRat - q.toRat) * (Dv : ℚ) =
      f.toRat * (Dv : ℚ) - ((q.mul (Frac.ofInt Dv)).num : ℚ) := by
    rw [← hm3, hm3']
    ring
  rw [hkey, Int.floor_sub_int]
  ring

/-! ## Helper lemmas: tick bookkeeping of emitted note children -/

lemma netTicks_nil : netTicks [] = 0 := rfl

lemma netTicks_cons (x : Mxl) (l : List Mxl) :
    netTicks (x :: l) = tickDelta x + netTicks l := by
  simp [netTicks]

lemma netTicks_append (a b : List Mxl) :
    netTicks (a ++ b) = netTicks a + netTicks b := by
  simp [netTicks]

lemma neutralEls_nil : neutralEls [] := by
  intro m hm
  cases hm

lemma neutralEls_single (m : Mxl) (h1 : m.isChordMark = false)
    (h2 : m.durationValue = none) : neutralEls [m] := by
  intro x hx
  rcases List.mem_singleton.mp hx with rfl
  exact ⟨h1, h2⟩

lemma neutralEls_append (a b : List Mxl) (ha : neutralEls a) (hb : neutralEls b) :
    neutralEls (a ++ b) := by
  intro m hm
  rcases List.mem_append.mp hm with h | h
  · exact ha m h
  · exact hb m h

lemma neutralEls_replicate (k : Nat) : neutralEls (List.replicate k Mxl.dot) := by
  intro m hm
  rw [List.eq_of_mem_replicate hm]
  exact ⟨rfl, rfl⟩

lemma beamPartOf_neutral (n : EncodedSymbol) (ic : Bool) :
    neutralEls (beamPartOf n ic) := by
  unfold beamPartOf
  cases n.beam with
  | none => exact neutralEls_nil
  | some b =>
    dsimp only
    split
    · exact neutralEls_single _ rfl rfl
    · exact neutralEls_nil

lemma pitchChildren_neutral (n : EncodedSymbol) (ps : List Mxl)
    (h : pitchChildren n = .ok ps) : neutralEls ps := by
  unfold pitchChildren at h
  try dsimp only at h
  by_cases hpe : n.pitch = emptyTok
  · rw [if_pos hpe] at h
    by_cases hz : n.get_duration.fraction.num = 0
    · rw [if_pos hz] at h
      cases h
      exact neutralEls_single _ rfl rfl
    · rw [if_neg hz] at h
      cases h
      exact neutralEls_single _ rfl rfl
  · rw [if_neg hpe] at h
    by_cases hpn : n.pitch = nonoteTok
    · rw [if_pos hpn] at h
      cases h
      exact neutralEls_single _ rfl rfl
    · rw [if_neg hpn] at h
      cases hc0 : pyStrIndex n.pitch 0 with
      | error e => rw [hc0, exbind_err] at h; exact Except.noConfusion h
      | ok c0 =>
        rw [hc0, exbind_ok] at h
        cases hc1 : pyStrIndex n.pitch 1 with
        | error e => rw [hc1, exbind_err] at h; exact Except.noConfusion h
        | ok c1 =>
          rw [hc1, exbind_ok] at h
          cases hoct : pyParseInt (String.mk [c1]) with
          | error e => rw [hoct, exbind_err] at h; exact Except.noConfusion h
          | ok octave =>
            rw [hoct, exbind_ok] at h
            try dsimp only at h
            by_cases hln : n.lift = nonoteTok
            · rw [if_pos hln, expure, exbind_ok] at h
              cases h
              exact neutralEls_single _ rfl rfl
            · rw [if_neg hln] at h
              by_cases hle : n.lift = emptyTok
              · rw [if_neg (not_not_intro hle), expure, exbind_ok] at h
                cases h
                exact neutralEls_single _ rfl rfl
              · rw [if_pos hle] at h
                cases hget : pyDictGet LIFT_TO_ALTER n.lift with
                | error e => rw [hget, exbind_err] at h; exact Except.noConfusion h
                | ok a =>
                  rw [hget, exbind_ok, expure, exbind_ok] at h
                  cases h
                  exact neutralEls_single _ rfl rfl

lemma durationChildren_spec (n : EncodedSymbol) (st : ConversionState) (ds : List Mxl)
    (h : durationChildren n st = .ok ds) :
    (isGraceSym n = true → ∃ nm, ds = [Mxl.grace, Mxl.typeEl nm]) ∧
    (isGraceSym n = false → 0 < n.get_duration.fraction.num →
      ∃ nm, ds = [Mxl.typeEl nm,
        Mxl.durationEl ((n.get_duration.fraction.mul (Frac.ofInt st.division)).pyInt)]) ∧
    (isGraceSym n = false → ¬ 0 < n.get_duration.fraction.num →
      ∃ nm, ds = [Mxl.typeEl nm, Mxl.durationEl st.beats]) := by
  unfold durationChildren at h
  by_cases hg : strHasChar n.rhythm 'G'
  · rw [if_pos hg] at h
    cases hget : pyDictGet DURATION_NAMES n.get_duration.kern with
    | error e => rw [hget, exbind_err] at h; exact Except.noConfusion h
    | ok nm =>
      rw [hget, exbind_ok] at h
      cases h
      refine ⟨fun _ => ⟨nm, rfl⟩, fun hng => ?_, fun hng => ?_⟩ <;>
        exact absurd hg (by simp [isGraceSym] at hng; simp [hng])
  · rw [if_neg hg] at h
    by_cases hp : 0 < n.get_duration.fraction.num
    · rw [if_pos hp] at h
      try dsimp only at h
      cases hget : pyDictGet DURATION_NAMES
          (if n.get_duration.kern = 0 then 1 else n.get_duration.kern) with
      | error e => rw [hget, exbind_err] at h; exact Except.noConfusion h
      | ok nm =>
        rw [hget, exbind_ok] at h
        cases h
        refine ⟨fun hgr => absurd hgr ?_, fun _ _ => ⟨nm, rfl⟩, fun _ hnp => absurd hp hnp⟩
        simp [isGraceSym, hg]
    · rw [if_neg hp] at h
      cases hget : pyDictGet DURATION_NAMES 0 with
      | error e => rw [hget, exbind_err] at h; exact Except.noConfusion h
      | ok nm =>
        rw [hget, exbind_ok] at h
        cases h
        refine ⟨fun hgr => absurd hgr ?_, fun _ hpp => absurd hpp hp, fun _ _ => ⟨nm, rfl⟩⟩
        simp [isGraceSym, hg]

lemma neutral_any (l : List Mxl) (h : neutralEls l) : l.any Mxl.isChordMark = false :=
  List.any_eq_false.mpr (fun x hx => by simp [(h x hx).1])

lemma neutral_find (l : List Mxl) (h : neutralEls l) :
    l.findSome? Mxl.durationValue = none :=
  List.findSome?_eq_none_iff.mpr (fun x hx => (h x hx).2)

lemma tickDelta_note_zero (cs : List Mxl) (h : neutralEls cs) :
    tickDelta (Mxl.note cs) = 0 := by
  simp [tickDelta, neutral_any cs h, neutral_find cs h]

lemma tickDelta_note_chordMark (cs : List Mxl) :
    tickDelta (Mxl.note (Mxl.chordMark :: cs)) = 0 := by
  simp [tickDelta, List.any_cons, Mxl.isChordMark]

lemma tickDelta_note_mid (A B : List Mxl) (v : Int) (hA : neutralEls A)
    (hB : ∀ m ∈ B, m.isChordMark = false) :
    tickDelta (Mxl.note (A ++ Mxl.durationEl v :: B)) = v := by
  have hany : (A ++ Mxl.durationEl v :: B).any Mxl.isChordMark = false := by
    rw [List.any_eq_false]
    intro x hx
    rcases List.mem_append.mp hx with h | h
    · simp [(hA x h).1]
    · rcases List.mem_cons.mp h with rfl | h
      · simp [Mxl.isChordMark]
      · simp [hB x h]
  have hfind : (A ++ Mxl.durationEl v :: B).findSome? Mxl.durationValue = some v := by
    rw [List.findSome?_append, neutral_find A hA]
    rfl
  simp [tickDelta, hany, hfind]

/-! ## Helper lemmas: the articulation emitter preserves division and beats -/

lemma samePart_refl (st : ConversionState) : samePart st st := ⟨rfl, rfl⟩

lemma samePart_trans {a b c : ConversionState} (h1 : samePart a b) (h2 : samePart b c) :
    samePart a c := ⟨h1.1.trans h2.1, h1.2.trans h2.2⟩

lemma toggle_samePart {st : ConversionState} {t : String} {st' : ConversionState}
    (h : st.toggle_tremolo_state = (t, st')) : samePart st' st := by
  unfold ConversionState.toggle_tremolo_state at h
  cases h
  exact ⟨rfl, rfl⟩

lemma start_slur_samePart {st : ConversionState} {a b r : Int} {st' : ConversionState}
    (h : st.start_slur a b = (r, st')) : samePart st' st := by
  unfold ConversionState.start_slur at h
  try dsimp only at h
  split at h
  · cases h; exact ⟨rfl, rfl⟩
  · split at h
    · cases h; exact ⟨rfl, rfl⟩
    · cases h; exact ⟨rfl, rfl⟩

lemma release_slur_samePart (st : ConversionState) (n : Int) :
    samePart (st._release_slur_number n) st := by
  unfold ConversionState._release_slur_number
  split
  · exact ⟨rfl, rfl⟩
  · exact ⟨rfl, rfl⟩

lemma stop_slur_samePart {st : ConversionState} {a b : Int} {r : Option Int}
    {st' : ConversionState} (h : st.stop_slur a b = (r, st')) : samePart st' st := by
  unfold ConversionState.stop_slur at h
  try dsimp only at h
  split at h
  · cases h; exact ⟨rfl, rfl⟩
  · cases h
    exact samePart_trans (release_slur_samePart _ _) ⟨rfl, rfl⟩

lemma start_tie_samePart {st : ConversionState} {a : Int} {p l : String} {r : Int}
    {st' : ConversionState} (h : st.start_tie a p l = (r, st')) : samePart st' st := by
  unfold ConversionState.start_tie at h
  try dsimp only at h
  split at h
  · cases h; exact ⟨rfl, rfl⟩
  · split at h
    · cases h; exact ⟨rfl, rfl⟩
    · cases h; exact ⟨rfl, rfl⟩

lemma release_tie_samePart (st : ConversionState) (k : Int × String × String) (n : Int) :
    samePart (st._release_tie_number k n) st := by
  unfold ConversionState._release_tie_number
  try dsimp only
  split
  · exact ⟨rfl, rfl⟩
  · exact ⟨rfl, rfl⟩

lemma stop_tie_samePart {st : ConversionState} {a : Int} {p l : String} {r : Option Int}
    {st' : ConversionState} (h : st.stop_tie a p l = (r, st')) : samePart st' st := by
  unfold ConversionState.stop_tie at h
  try dsimp only at h
  split at h
  · cases h; exact ⟨rfl, rfl⟩
  · cases h
    exact samePart_trans (release_tie_samePart _ _ _) ⟨rfl, rfl⟩

lemma toggle_samePart2 (st : ConversionState) :
    samePart st.toggle_tremolo_state.2 st :=
  toggle_samePart rfl

lemma start_slur_samePart2 (st : ConversionState) (a b : Int) :
    samePart (st.start_slur a b).2 st :=
  start_slur_samePart rfl

lemma start_tie_samePart2 (st : ConversionState) (a : Int) (p l : String) :
    samePart (st.start_tie a p l).2 st :=
  start_tie_samePart rfl

lemma articStep_samePart (nc : List Mxl) (sv vv : Option Int)
    (acc : List Mxl × List Mxl × List Mxl × ConversionState) (a : String)
    (acc' : List Mxl × List Mxl × List Mxl × ConversionState)
    (h : articStep nc sv vv acc a = .ok acc') :
    samePart acc'.2.2.2 acc.2.2.2 := by
  obtain ⟨notat, arts, orns, st0⟩ := acc
  unfold articStep at h
  try dsimp only at h
  by_cases c1 : a = ""
  · rw [if_pos c1] at h
    cases h
    exact ⟨rfl, rfl⟩
  · rw [if_neg c1] at h
    by_cases c2 : a = nonoteTok
    · rw [if_pos c2] at h
      cases h
      exact ⟨rfl, rfl⟩
    · rw [if_neg c2] at h
      by_cases c3 : a = "fermata"
      · rw [if_pos c3] at h
        cases h
        exact ⟨rfl, rfl⟩
      · rw [if_neg c3] at h
        by_cases c4 : a = "arpeggiate"
        · rw [if_pos c4] at h
          cases h
          exact ⟨rfl, rfl⟩
        · rw [if_neg c4] at h
          by_cases c5 : a = "accent"
          · rw [if_pos c5] at h
            cases h
            exact ⟨rfl, rfl⟩
          · rw [if_neg c5] at h
            by_cases c6 : a = "staccato"
            · rw [if_pos c6] at h
              cases h
              exact ⟨rfl, rfl⟩
            · rw [if_neg c6] at h
              by_cases c7 : a = "staccatissimo"
              · rw [if_pos c7] at h
                cases h
                exact ⟨rfl, rfl⟩
              · rw [if_neg c7] at h
                by_cases c8 : a = "tenuto"
                · rw [if_pos c8] at h
                  cases h
                  exact ⟨rfl, rfl⟩
                · rw [if_neg c8] at h
                  by_cases c9 : a = "tremolo"
                  · rw [if_pos c9] at h
                    cases h
                    exact toggle_samePart2 st0
                  · rw [if_neg c9] at h
                    by_cases c10 : a = "trill"
                    · rw [if_pos c10] at h
                      cases h
                      exact ⟨rfl, rfl⟩
                    · rw [if_neg c10] at h
                      by_cases c11 : a = "breathMark"
                      · rw [if_pos c11] at h
                        cases h
                        exact ⟨rfl, rfl⟩
                      · rw [if_neg c11] at h
                        by_cases c12 : a = "turn"
                        · rw [if_pos c12] at h
                          cases h
                          exact ⟨rfl, rfl⟩
                        · rw [if_neg c12] at h
                          by_cases c13 : a = "caesura"
                          · rw [if_pos c13] at h
                            cases h
                            exact ⟨rfl, rfl⟩
                          · rw [if_neg c13] at h
                            by_cases c14 : a = "doit"
                            · rw [if_pos c14] at h
                              cases h
                              exact ⟨rfl, rfl⟩
                            · rw [if_neg c14] at h
                              by_cases c15 : a = "slurStart"
                              · rw [if_pos c15] at h
                                cases sv with
                                | none =>
                                  cases vv with
                                  | none => try dsimp only at h; cases h; exact ⟨rfl, rfl⟩
                                  | some y => try dsimp only at h; cases h; exact ⟨rfl, rfl⟩
                                | some x =>
                                  cases vv with
                                  | none => try dsimp only at h; cases h; exact ⟨rfl, rfl⟩
                                  | some y =>
                                    try dsimp only at h
                                    cases h
                                    exact start_slur_samePart2 st0 x y
                              · rw [if_neg c15] at h
                                by_cases c16 : a = "slurStop"
                                · rw [if_pos c16] at h
                                  cases sv with
                                  | none =>
                                    cases vv with
                                    | none => try dsimp only at h; cases h; exact ⟨rfl, rfl⟩
                                    | some y => try dsimp only at h; cases h; exact ⟨rfl, rfl⟩
                                  | some x =>
                                    cases vv with
                                    | none => try dsimp only at h; cases h; exact ⟨rfl, rfl⟩
                                    | some y =>
                                      try dsimp only at h
                                      cases hss : st0.stop_slur x y with
                                      | mk r1 st1 =>
                                        rw [hss] at h
                                        try dsimp only at h
                                        cases r1 with
                                        | some num => try dsimp only at h; cases h; exact stop_slur_samePart hss
                                        | none => try dsimp only at h; cases h; exact stop_slur_samePart hss
                                · rw [if_neg c16] at h
                                  by_cases c17 : a = "tieStart"
                                  · rw [if_pos c17] at h
                                    cases sv with
                                    | none =>
                                      cases vv with
                                      | none => try dsimp only at h; cases h; exact ⟨rfl, rfl⟩
                                      | some y => try dsimp only at h; cases h; exact ⟨rfl, rfl⟩
                                    | some x =>
                                      cases vv with
                                      | none => try dsimp only at h; cases h; exact ⟨rfl, rfl⟩
                                      | some y =>
                                        try dsimp only at h
                                        cases hfp : findPitch nc with
                                        | none => rw [hfp] at h; try dsimp only at h; cases h; exact ⟨rfl, rfl⟩
                                        | some p =>
                                          rw [hfp] at h
                                          try dsimp only at h
                                          cases hsv : p.children.findSome? Mxl.stepValue with
                                          | none =>
                                            rw [hsv] at h
                                            cases hov : p.children.findSome? Mxl.octaveValue with
                                            | none => rw [hov] at h; try dsimp only at h; cases h; exact ⟨rfl, rfl⟩
                                            | some ov => rw [hov] at h; try dsimp only at h; cases h; exact ⟨rfl, rfl⟩
                                          | some stepv =>
                                            rw [hsv] at h
                                            cases hov : p.children.findSome? Mxl.octaveValue with
                                            | none => rw [hov] at h; try dsimp only at h; cases h; exact ⟨rfl, rfl⟩
                                            | some ov =>
                                              rw [hov] at h
                                              try dsimp only at h
                                              cases h
                                              exact start_tie_samePart2 st0 x _ _
                                  · rw [if_neg c17] at h
                                    by_cases c18 : a = "tieStop"
                                    · rw [if_pos c18] at h
                                      cases sv with
                                      | none =>
                                        cases vv with
                                        | none => try dsimp only at h; cases h; exact ⟨rfl, rfl⟩
                                        | some y => try dsimp only at h; cases h; exact ⟨rfl, rfl⟩
                                      | some x =>
                                        cases vv with
                                        | none => try dsimp only at h; cases h; exact ⟨rfl, rfl⟩
                                        | some y =>
                                          try dsimp only at h
                                          cases hfp : findPitch nc with
                                          | none => rw [hfp] at h; try dsimp only at h; cases h; exact ⟨rfl, rfl⟩
                                          | some p =>
                                            rw [hfp] at h
                                            try dsimp only at h
                                            cases hsv : p.children.findSome? Mxl.stepValue with
                                            | none =>
                                              rw [hsv] at h
                                              cases hov : p.children.findSome? Mxl.octaveValue with
                                              | none => rw [hov] at h; try dsimp only at h; cases h; exact ⟨rfl, rfl⟩
                                              | some ov => rw [hov] at h; try dsimp only at h; cases h; exact ⟨rfl, rfl⟩
                                            | some stepv =>
                                              rw [hsv] at h
                                              cases hov : p.children.findSome? Mxl.octaveValue with
                                              | none => rw [hov] at h; try dsimp only at h; cases h; exact ⟨rfl, rfl⟩
                                              | some ov =>
                                                rw [hov] at h
                                                try dsimp only at h
                                                cases hav : p.children.findSome? Mxl.alterValue with
                                                | some aa =>
                                                  rw [hav] at h
                                                  try dsimp only at h
                                                  cases hst : st0.stop_tie x (stepv ++ toString ov) (toString aa) with
                                                  | mk r1 st1 =>
                                                    rw [hst] at h
                                                    try dsimp only at h
                                                    cases r1 with
                                                    | some num => try dsimp only at h; cases h; exact stop_tie_samePart hst
                                                    | none => try dsimp only at h; cases h; exact stop_tie_samePart hst
                                                | none =>
                                                  rw [hav] at h
                                                  try dsimp only at h
                                                  cases hst : st0.stop_tie x (stepv ++ toString ov) "0" with
                                                  | mk r1 st1 =>
                                                    rw [hst] at h
                                                    try dsimp only at h
                                                    cases r1 with
                                                    | some num => try dsimp only at h; cases h; exact stop_tie_samePart hst
                                                    | none => try dsimp only at h; cases h; exact stop_tie_samePart hst
                                    · rw [if_neg c18] at h
                                      exact Except.noConfusion h

lemma articLoop_samePart (nc : List Mxl) (sv vv : Option Int) :
    ∀ (parts : List String) (acc acc' : List Mxl × List Mxl × List Mxl × ConversionState),
      articLoop nc sv vv acc parts = .ok acc' → samePart acc'.2.2.2 acc.2.2.2 := by
  intro parts
  induction parts with
  | nil =>
    intro acc acc' h
    unfold articLoop at h
    cases h
    exact ⟨rfl, rfl⟩
  | cons a rest ih =>
    intro acc acc' h
    unfold articLoop at h
    cases hs : articStep nc sv vv acc a with
    | error e => rw [hs, exbind_err] at h; exact Except.noConfusion h
    | ok acc1 =>
      rw [hs, exbind_ok] at h
      exact samePart_trans (ih acc1 acc' h) (articStep_samePart nc sv vv acc a acc1 hs)

lemma build_articulations_spec (nc : List Mxl) (a t : String) (st : ConversionState)
    (sv vv : Option Int) (cs : List Mxl) (st' : ConversionState)
    (h : build_articulations nc a t st sv vv = .ok (cs, st')) :
    (∃ X, cs = nc ++ [Mxl.notations X]) ∧ samePart st' st := by
  unfold build_articulations at h
  try dsimp only at h
  cases hl : articLoop nc sv vv ([], [], [], st) (strSplit a '_') with
  | error e => rw [hl, exbind_err] at h; exact Except.noConfusion h
  | ok r =>
    rw [hl, exbind_ok] at h
    obtain ⟨notat, arts, orns, stl⟩ := r
    try dsimp only at h
    cases h
    exact ⟨⟨_, rfl⟩, articLoop_samePart nc sv vv _ _ _ hl⟩

/-! ## Helper lemmas: the tick advance of one emitted note -/

lemma exbind_ok_inv {ε α β : Type} {m : Except ε α} {k : α → Except ε β} {b : β}
    (h : (m >>= k) = .ok b) : ∃ a, m = .ok a ∧ k a = .ok b := by
  cases m with
  | error e => rw [exbind_err] at h; exact Except.noConfusion h
  | ok a => rw [exbind_ok] at h; exact ⟨a, rfl, h⟩

lemma tickDelta_note_mid2 (ps B : List Mxl) (nm : String) (v : Int) (hps : neutralEls ps)
    (hB : ∀ m ∈ B, m.isChordMark = false) :
    tickDelta (Mxl.note (ps ++ Mxl.typeEl nm :: Mxl.durationEl v :: B)) = v := by
  have h1 : ps ++ Mxl.typeEl nm :: Mxl.durationEl v :: B =
      (ps ++ [Mxl.typeEl nm]) ++ Mxl.durationEl v :: B := by simp
  rw [h1]
  apply tickDelta_note_mid
  · intro m hm
    rcases List.mem_append.mp hm with hh | hh
    · exact hps m hh
    · rcases List.mem_singleton.mp hh with rfl
      exact ⟨rfl, rfl⟩
  · exact hB

lemma noChord_parts (a : Int) (b : String) (n : EncodedSymbol) (ic : Bool) (k : Nat)
    (tail : List Mxl) (htail : ∀ m ∈ tail, m.isChordMark = false) :
    ∀ m ∈ Mxl.staffEl a :: Mxl.voiceEl b ::
      (beamPartOf n ic ++ (List.replicate k Mxl.dot ++ tail)), m.isChordMark = false := by
  intro m hm
  rcases List.mem_cons.mp hm with rfl | hm
  · rfl
  rcases List.mem_cons.mp hm with rfl | hm
  · rfl
  rcases List.mem_append.mp hm with hh | hh
  · exact (beamPartOf_neutral n ic m hh).1
  rcases List.mem_append.mp hh with hh2 | hh2
  · exact (neutralEls_replicate k m hh2).1
  · exact htail m hh2

lemma neutral_graceList (ps : List Mxl) (nm : String) (a : Int) (b : String)
    (n : EncodedSymbol) (ic : Bool) (k : Nat) (tail : List Mxl)
    (hps : neutralEls ps) (htail : neutralEls tail) :
    neutralEls (ps ++ Mxl.grace :: Mxl.typeEl nm :: Mxl.staffEl a :: Mxl.voiceEl b ::
      (beamPartOf n ic ++ (List.replicate k Mxl.dot ++ tail))) := by
  intro m hm
  rcases List.mem_append.mp hm with hh | hh
  · exact hps m hh
  rcases List.mem_cons.mp hh with rfl | hh
  · exact ⟨rfl, rfl⟩
  rcases List.mem_cons.mp hh with rfl | hh
  · exact ⟨rfl, rfl⟩
  rcases List.mem_cons.mp hh with rfl | hh
  · exact ⟨rfl, rfl⟩
  rcases List.mem_cons.mp hh with rfl | hh
  · exact ⟨rfl, rfl⟩
  rcases List.mem_append.mp hh with hh2 | hh2
  · exact beamPartOf_neutral n ic m hh2
  rcases List.mem_append.mp hh2 with hh3 | hh3
  · exact neutralEls_replicate k m hh3
  · exact htail m hh3

lemma build_note_or_rest_spec (n : EncodedSymbol) (v : Nat) (ic : Bool)
    (st : ConversionState) (t : String) (x : Mxl) (st' : ConversionState)
    (h : build_note_or_rest n v ic st t = .ok (x, st')) :
    samePart st' st ∧
    tickDelta x =
      (if ic = true then 0
       else if isGraceSym n = true then 0
       else if 0 < n.get_duration.fraction.num then
         (n.get_duration.fraction.mul (Frac.ofInt st.division)).pyInt
       else st.beats) := by
  unfold build_note_or_rest at h
  try dsimp only at h
  cases hp : pitchChildren n with
  | error e => rw [hp, exbind_err] at h; exact Except.noConfusion h
  | ok ps =>
    rw [hp, exbind_ok] at h
    try dsimp only at h
    cases hd : durationChildren n st with
    | error e => rw [hd, exbind_err] at h; exact Except.noConfusion h
    | ok ds =>
      rw [hd, exbind_ok] at h
      try dsimp only at h
      have hps := pitchChildren_neutral n ps hp
      have hds := durationChildren_spec n st ds hd
      by_cases htm : n.get_duration.actual_notes ≠ n.get_duration.normal_notes
      · rw [if_pos htm] at h
        try dsimp only at h
        obtain ⟨pr, hba, h2⟩ := exbind_ok_inv h
        obtain ⟨cs, st1⟩ := pr
        obtain ⟨⟨X, hcs⟩, hsp⟩ := build_articulations_spec _ _ _ _ _ _ _ _ hba
        try dsimp only at h2
        cases h2
        subst hcs
        refine ⟨hsp, ?_⟩
        have htail2 : neutralEls [Mxl.timeModification
            [Mxl.actualNotes n.get_duration.actual_notes,
             Mxl.normalNotes n.get_duration.normal_notes], Mxl.notations X] := by
          intro m hm
          rcases List.mem_cons.mp hm with rfl | hm
          · exact ⟨rfl, rfl⟩
          rcases List.mem_singleton.mp hm with rfl
          exact ⟨rfl, rfl⟩
        by_cases hic : ic = true
        · rw [if_pos hic, if_pos hic]
          exact tickDelta_note_chordMark _
        · rw [if_neg hic, if_neg hic]
          by_cases hg : isGraceSym n = true
          · rw [if_pos hg]
            obtain ⟨nm, hds1⟩ := hds.1 hg
            subst hds1
            simp only [List.append_assoc, List.cons_append, List.singleton_append,
              List.nil_append]
            exact tickDelta_note_zero _ (neutral_graceList ps nm _ _ n ic _ _ hps htail2)
          · rw [if_neg hg]
            have hgf : isGraceSym n = false := by simpa using hg
            by_cases hnum : 0 < n.get_duration.fraction.num
            · rw [if_pos hnum]
              obtain ⟨nm, hds2⟩ := hds.2.1 hgf hnum
              subst hds2
              simp only [List.append_assoc, List.cons_append, List.singleton_append,
                List.nil_append]
              exact tickDelta_note_mid2 ps _ nm _ hps
                (noChord_parts _ _ n ic _ _ (fun m hm => (htail2 m hm).1))
            · rw [if_neg hnum]
              obtain ⟨nm, hds3⟩ := hds.2.2 hgf hnum
              subst hds3
              simp only [List.append_assoc, List.cons_append, List.singleton_append,
                List.nil_append]
              exact tickDelta_note_mid2 ps _ nm _ hps
                (noChord_parts _ _ n ic _ _ (fun m hm => (htail2 m hm).1))
      · rw [if_neg htm] at h
        try dsimp only at h
        obtain ⟨pr, hba, h2⟩ := exbind_ok_inv h
        obtain ⟨cs, st1⟩ := pr
        obtain ⟨⟨X, hcs⟩, hsp⟩ := build_articulations_spec _ _ _ _ _ _ _ _ hba
        try dsimp only at h2
        cases h2
        subst hcs
        refine ⟨hsp, ?_⟩
        have htail1 : neutralEls [Mxl.notations X] := neutralEls_single _ rfl rfl
        by_cases hic : ic = true
        · rw [if_pos hic, if_pos hic]
          exact tickDelta_note_chordMark _
        · rw [if_neg hic, if_neg hic]
          by_cases hg : isGraceSym n = true
          · rw [if_pos hg]
            obtain ⟨nm, hds1⟩ := hds.1 hg
            subst hds1
            simp only [List.append_assoc, List.cons_append, List.singleton_append,
              List.nil_append]
            exact tickDelta_note_zero _ (neutral_graceList ps nm _ _ n ic _ _ hps htail1)
          · rw [if_neg hg]
            have hgf : isGraceSym n = false := by simpa using hg
            by_cases hnum : 0 < n.get_duration.fraction.num
            · rw [if_pos hnum]
              obtain ⟨nm, hds2⟩ := hds.2.1 hgf hnum
              subst hds2
              simp only [List.append_assoc, List.cons_append, List.singleton_append,
                List.nil_append]
              exact tickDelta_note_mid2 ps _ nm _ hps
                (noChord_parts _ _ n ic _ _ (fun m hm => (htail1 m hm).1))
            · rw [if_neg hnum]
              obtain ⟨nm, hds3⟩ := hds.2.2 hgf hnum
              subst hds3
              simp only [List.append_assoc, List.cons_append, List.singleton_append,
                List.nil_append]
              exact tickDelta_note_mid2 ps _ nm _ hps
                (noChord_parts _ _ n ic _ _ (fun m hm => (htail1 m hm).1))

/-! ## Helper lemmas: per-class and per-chord tick accounting -/

lemma netTicks_backupEl (w : Int) : netTicks [Mxl.backup [Mxl.durationEl w]] = -w := by
  simp [netTicks, tickDelta, List.findSome?_cons, Mxl.durationValue]

lemma emitClass_rest_spec (tmark : String) (voice : Nat) (stMap : List (Nat × List String)) :
    ∀ (members : List EncodedSymbol) (st : ConversionState)
      (out : List Mxl × ConversionState),
      emitClass tmark voice stMap st members false = .ok out →
      samePart out.2 st ∧ netTicks out.1 = 0 := by
  intro members
  induction members with
  | nil =>
    intro st out h
    unfold emitClass at h
    cases h
    exact ⟨⟨rfl, rfl⟩, rfl⟩
  | cons n rest ih =>
    intro st out h
    unfold emitClass at h
    try dsimp only at h
    obtain ⟨pr, hb, h2⟩ := exbind_ok_inv h
    obtain ⟨x, st1⟩ := pr
    try dsimp only at h2
    obtain ⟨pr2, he, h3⟩ := exbind_ok_inv h2
    obtain ⟨xs, st2⟩ := pr2
    try dsimp only at h3
    cases h3
    obtain ⟨hsp1, htd⟩ := build_note_or_rest_spec _ _ _ _ _ _ _ hb
    obtain ⟨hsp2, hnet⟩ := ih st1 (xs, st2) he
    refine ⟨samePart_trans hsp2 hsp1, ?_⟩
    rw [netTicks_cons, htd, hnet]
    simp

lemma emitClass_first_spec (tmark : String) (voice : Nat) (stMap : List (Nat × List String))
    (st : ConversionState) (n : EncodedSymbol) (rest : List EncodedSymbol)
    (out : List Mxl × ConversionState)
    (h : emitClass tmark voice stMap st (n :: rest) true = .ok out) :
    samePart out.2 st ∧
    netTicks out.1 =
      (if isGraceSym n = true then 0
       else if 0 < n.get_duration.fraction.num then
         (n.get_duration.fraction.mul (Frac.ofInt st.division)).pyInt
       else st.beats) := by
  unfold emitClass at h
  try dsimp only at h
  obtain ⟨pr, hb, h2⟩ := exbind_ok_inv h
  obtain ⟨x, st1⟩ := pr
  try dsimp only at h2
  obtain ⟨pr2, he, h3⟩ := exbind_ok_inv h2
  obtain ⟨xs, st2⟩ := pr2
  try dsimp only at h3
  cases h3
  obtain ⟨hsp1, htd⟩ := build_note_or_rest_spec _ _ _ _ _ _ _ hb
  obtain ⟨hsp2, hnet⟩ := emitClass_rest_spec tmark voice stMap rest st1 (xs, st2) he
  refine ⟨samePart_trans hsp2 hsp1, ?_⟩
  rw [netTicks_cons, htd, hnet]
  have hr : isGraceSym (if ¬ (stMapLookup stMap n.sid).isEmpty then
      n.add_articulations (stMapLookup stMap n.sid) else n) = isGraceSym n := by
    split <;> rfl
  have hdm : (if ¬ (stMapLookup stMap n.sid).isEmpty then
      n.add_articulations (stMapLookup stMap n.sid) else n).get_duration =
      n.get_duration := by
    split <;> rfl
  simp only [Bool.not_true, Bool.false_eq_true, if_false, add_zero]
  rw [hr, hdm]

lemma bncLoop_spec (byDur : List (Frac × List EncodedSymbol)) (tmark : String)
    (stMap : List (Nat × List String)) (voff : Nat) :
    ∀ (keys : List Frac) (st : ConversionState) (i : Nat) (fd0 : Frac)
      (out : List Mxl × ConversionState × Frac),
      bncLoop byDur tmark stMap voff st keys i fd0 = .ok out →
      (∀ k ∈ keys, goodClass byDur k) →
      samePart out.2.1 st ∧ out.2.2 = keys.getLastD fd0 ∧
      netTicks out.1 =
        (if keys = [] then 0
         else if Frac.ofInt 0 < keys.getLastD fd0 then
           ((keys.getLastD fd0).mul (Frac.ofInt st.division)).pyInt
         else 0) := by
  intro keys
  induction keys with
  | nil =>
    intro st i fd0 out h _
    unfold bncLoop at h
    cases h
    exact ⟨⟨rfl, rfl⟩, rfl, by simp [netTicks_nil]⟩
  | cons k rest ih =>
    intro st i fd0 out h hgood
    unfold bncLoop at h
    try dsimp only at h
    obtain ⟨m, mrest, hclass, hhead⟩ := hgood k (List.mem_cons_self k rest)
    rw [hclass] at h
    obtain ⟨pr, he, h2⟩ := exbind_ok_inv h
    obtain ⟨notes, st1⟩ := pr
    try dsimp only at h2
    obtain ⟨pr2, hr, h3⟩ := exbind_ok_inv h2
    obtain ⟨tail, pr3⟩ := pr2
    obtain ⟨st2, fd⟩ := pr3
    try dsimp only at h3
    cases h3
    obtain ⟨hsp1, hnet1⟩ := emitClass_first_spec tmark (i + voff) stMap st m mrest
      (notes, st1) he
    obtain ⟨hsp2, hfd, hnet2⟩ := ih st1 (i + 1) k (tail, st2, fd) hr
      (fun y hy => hgood y (List.mem_cons_of_mem _ hy))
    refine ⟨samePart_trans hsp2 hsp1, ?_, ?_⟩
    · rw [List.getLastD_cons]
      exact hfd
    · rw [netTicks_append, netTicks_append, hnet1, hnet2, hsp1.1,
        if_neg (List.cons_ne_nil k rest), List.getLastD_cons]
      cases rest with
      | nil =>
        have hbf : ¬ ((¬ (List.isEmpty ([] : List Frac) = true)) ∧ Frac.ofInt 0 < k) :=
          fun hc => hc.1 rfl
        rw [if_neg hbf, if_pos rfl]
        simp only [List.getLastD_nil]
        rcases hhead with ⟨hgr, hnpos⟩ | ⟨hgrf, hfrac, hpos⟩
        · rw [if_pos hgr, if_neg hnpos]
          simp [netTicks_nil]
        · have hgr' : ¬ isGraceSym m = true := by simp [hgrf]
          have hnum : 0 < m.get_duration.fraction.num := by
            rw [hfrac]; exact (Frac.pos_iff k).mp hpos
          rw [if_neg hgr', if_pos hnum, if_pos hpos, hfrac]
          simp [netTicks_nil]
      | cons r2 rrest =>
        rw [if_neg (List.cons_ne_nil r2 rrest)]
        by_cases hposk : Frac.ofInt 0 < k
        · have hbc : (¬ (List.isEmpty (r2 :: rrest) = true)) ∧ Frac.ofInt 0 < k :=
            ⟨by simp, hposk⟩
          rw [if_pos hbc, netTicks_backupEl]
          rcases hhead with ⟨hgr, hnpos⟩ | ⟨hgrf, hfrac, hpos⟩
          · exact absurd hposk hnpos
          · have hgr' : ¬ isGraceSym m = true := by simp [hgrf]
            have hnum : 0 < m.get_duration.fraction.num := by
              rw [hfrac]; exact (Frac.pos_iff k).mp hpos
            rw [if_neg hgr', if_pos hnum, hfrac]
            ring
        · have hbc : ¬ ((¬ (List.isEmpty (r2 :: rrest) = true)) ∧ Frac.ofInt 0 < k) :=
            fun hc => hposk hc.2
          rw [if_neg hbc]
          rcases hhead with ⟨hgr, hnpos⟩ | ⟨hgrf, hfrac, hpos⟩
          · rw [if_pos hgr]
            simp [netTicks_nil]
          · exact absurd hpos hposk

/-! ## Helper lemmas: duration classes of `_group_notes` -/

lemma Frac.lerefl (a : Frac) : a ≤ a := le_refl (a.num * (a.den : Int))

lemma Frac.le_of_not_lt {a b : Frac} (h : ¬ a < b) : b ≤ a := Int.not_lt.mp h

lemma Frac.lt_of_le_lt {a b c : Frac} (h1 : a ≤ b) (h2 : b < c) : a < c := by
  rw [Frac.lt_iff_toRat] at h2 ⊢
  rw [Frac.le_iff_toRat] at h1
  exact lt_of_le_of_lt h1 h2

lemma Frac.eq_of_le_of_le {a b : Frac} (h1 : a ≤ b) (h2 : b ≤ a) : a = b :=
  Frac.toRat_inj (le_antisymm ((Frac.le_iff_toRat a b).mp h1) ((Frac.le_iff_toRat b a).mp h2))

lemma find?_keyFun {α : Type} (F : Frac → α) (keys : List Frac) (k : Frac) (hk : k ∈ keys) :
    (keys.map (fun x => (x, F x))).find? (fun p => p.1 = k) = some (k, F k) := by
  induction keys with
  | nil => cases hk
  | cons a as ih =>
    by_cases hak : a = k
    · subst hak
      rw [List.map_cons, List.find?_cons_of_pos _ (by simp)]
    · rcases List.mem_cons.mp hk with h | h
      · exact absurd h.symm hak
      · rw [List.map_cons, List.find?_cons_of_neg _ (by simp [hak])]
        exact ih h

lemma dedupKeys_sub : ∀ (seen l : List Frac) (x : Frac), x ∈ dedupKeys seen l → x ∈ l := by
  intro seen l
  induction l generalizing seen with
  | nil =>
    intro x hx
    simp [dedupKeys] at hx
  | cons a rest ih =>
    intro x hx
    unfold dedupKeys at hx
    split at hx
    · exact List.mem_cons_of_mem _ (ih seen x hx)
    · rcases List.mem_cons.mp hx with rfl | hx
      · exact List.mem_cons_self _ _
      · exact List.mem_cons_of_mem _ (ih (a :: seen) x hx)

lemma dedupKeys_complete : ∀ (seen l : List Frac) (x : Frac),
    x ∈ l → x ∉ seen → x ∈ dedupKeys seen l := by
  intro seen l
  induction l generalizing seen with
  | nil =>
    intro x hx _
    cases hx
  | cons a rest ih =>
    intro x hx hns
    unfold dedupKeys
    split
    · rcases List.mem_cons.mp hx with rfl | hx2
      · rename_i hcond
        exfalso
        rcases List.any_eq_true.mp hcond with ⟨y, hy, hyx⟩
        have hxy : y = x := by simpa using hyx
        exact hns (hxy ▸ hy)
      · exact ih seen x hx2 hns
    · rcases List.mem_cons.mp hx with rfl | hx2
      · exact List.mem_cons_self _ _
      · by_cases hxa : x = a
        · subst hxa
          exact List.mem_cons_self _ _
        · refine List.mem_cons_of_mem _ (ih (a :: seen) x hx2 ?_)
          intro hmem
          rcases List.mem_cons.mp hmem with h | h
          · exact hxa h
          · exact hns h

lemma map_fst_keyFun {α : Type} (F : Frac → α) (keys : List Frac) :
    (keys.map (fun x => (x, F x))).map Prod.fst = keys := by
  induction keys with
  | nil => rfl
  | cons a as ih => simpa using ih

lemma group_notes_keys (n : EncodedSymbol) (rest : List EncodedSymbol) :
    (_group_notes (n :: rest)).map Prod.fst =
      dedupKeys [] ((n :: rest).map (classKey (Frac.listMax n.get_duration.fraction
        (rest.map (fun s => s.get_duration.fraction))))) := by
  unfold _group_notes
  try dsimp only
  rw [map_fst_keyFun]

lemma group_notes_lookup (n : EncodedSymbol) (rest : List EncodedSymbol) (k : Frac)
    (hk : k ∈ (_group_notes (n :: rest)).map Prod.fst) :
    classLookup (_group_notes (n :: rest)) k =
      (n :: rest).filter (fun s => classKey (Frac.listMax n.get_duration.fraction
        (rest.map (fun s => s.get_duration.fraction))) s = k) := by
  rw [group_notes_keys] at hk
  unfold classLookup _group_notes
  try dsimp only
  rw [find?_keyFun _ _ k hk]

lemma getLastD_mem (l : List Frac) : ∀ d, l ≠ [] → l.getLastD d ∈ l := by
  induction l with
  | nil =>
    intro d h
    exact absurd rfl h
  | cons x xs ih =>
    intro d _
    rw [List.getLastD_cons]
    cases xs with
    | nil => simp
    | cons y ys => exact List.mem_cons_of_mem _ (ih x (List.cons_ne_nil y ys))

lemma sorted_le_getLastD : ∀ (l : List Frac), l.Sorted (· ≤ ·) →
    ∀ a ∈ l, ∀ d, a ≤ l.getLastD d := by
  intro l
  induction l with
  | nil =>
    intro _ a ha
    cases ha
  | cons x xs ih =>
    intro hs a ha d
    rw [List.getLastD_cons]
    rcases List.sorted_cons.mp hs with ⟨hx, hxs⟩
    rcases List.mem_cons.mp ha with rfl | ha
    · cases xs with
      | nil => exact Frac.lerefl a
      | cons y ys => exact hx _ (getLastD_mem (y :: ys) a (List.cons_ne_nil y ys))
    · exact ih hxs a ha x

lemma group_notes_goodClass (n : EncodedSymbol) (rest : List EncodedSymbol) (k : Frac)
    (hk : k ∈ (_group_notes (n :: rest)).map Prod.fst)
    (hpos : ∀ s ∈ n :: rest, isGraceSym s = true ∨ 0 < s.get_duration.fraction.num) :
    goodClass (_group_notes (n :: rest)) k ∧
      (∀ m ∈ classLookup (_group_notes (n :: rest)) k, m ∈ n :: rest) := by
  have hlook := group_notes_lookup n rest k hk
  have hmem : k ∈ (n :: rest).map (classKey (Frac.listMax n.get_duration.fraction
      (rest.map (fun s => s.get_duration.fraction)))) := by
    rw [group_notes_keys] at hk
    exact dedupKeys_sub [] _ k hk
  obtain ⟨s0, hs0, hks0⟩ := List.mem_map.mp hmem
  have hs0f : s0 ∈ (n :: rest).filter (fun s => classKey (Frac.listMax n.get_duration.fraction
      (rest.map (fun s => s.get_duration.fraction))) s = k) :=
    List.mem_filter.mpr ⟨hs0, by simp [hks0]⟩
  rcases hfl : (n :: rest).filter (fun s => classKey (Frac.listMax n.get_duration.fraction
      (rest.map (fun s => s.get_duration.fraction))) s = k) with _ | ⟨m, mrest⟩
  · rw [hfl] at hs0f
    cases hs0f
  · have hminf : m ∈ (n :: rest).filter (fun s => classKey (Frac.listMax n.get_duration.fraction
        (rest.map (fun s => s.get_duration.fraction))) s = k) := by
      rw [hfl]
      exact List.mem_cons_self _ _
    have hmk : classKey (Frac.listMax n.get_duration.fraction
        (rest.map (fun s => s.get_duration.fraction))) m = k := by
      simpa using (List.mem_filter.mp hminf).2
    have hmmem : m ∈ n :: rest := (List.mem_filter.mp hminf).1
    refine ⟨⟨m, mrest, by rw [hlook, hfl], ?_⟩, ?_⟩
    · by_cases hg : strHasChar m.rhythm 'G' = true
      · left
        refine ⟨hg, ?_⟩
        have hk0 : classKey (Frac.listMax n.get_duration.fraction
            (rest.map (fun s => s.get_duration.fraction))) m = Frac.ofInt 0 := by
          unfold classKey
          rw [if_pos hg]
        rw [← hmk, hk0]
        decide
      · right
        have hgf : isGraceSym m = false := by
          unfold isGraceSym
          simpa using hg
        have hnum : 0 < m.get_duration.fraction.num := by
          rcases hpos m hmmem with hgr | hnum
          · exact absurd hgr (by simp [hgf])
          · exact hnum
        have hnz : ¬ m.get_duration.fraction.num = 0 := by omega
        have hkf : classKey (Frac.listMax n.get_duration.fraction
            (rest.map (fun s => s.get_duration.fraction))) m =
            m.get_duration.fraction := by
          unfold classKey
          rw [if_neg hg, if_neg hnz]
        refine ⟨hgf, by rw [← hmk, hkf], ?_⟩
        rw [← hmk, hkf]
        exact (Frac.pos_iff _).mpr hnum
    · intro y hy
      rw [hlook] at hy
      exact (List.mem_filter.mp hy).1

lemma Frac.le_of_lt' {a b : Frac} (h : a < b) : a ≤ b := Int.le_of_lt h

lemma Frac.lt_of_lt_le {a b c : Frac} (h1 : a < b) (h2 : b ≤ c) : a < c := by
  rw [Frac.lt_iff_toRat] at h1 ⊢
  rw [Frac.le_iff_toRat] at h2
  exact lt_of_lt_of_le h1 h2

lemma strip_symbols_map (c : SymbolChord) :
    c.strip_slur_ties.2.symbols = c.symbols.map stripSym := by
  show (c.symbols.map (fun s =>
    s.strip_articulations ["slurStart", "slurStop", "tieStart", "tieStop"])).map Prod.snd =
      c.symbols.map stripSym
  rw [List.map_map]
  rfl

/-- C6: the alignment invariant of one Chord.  Under the run conditions
of `build_measures` — every symbol of the chord is a grace note or has
strictly positive duration (the whole-measure-rest shorthand is
exempt), the nominal duration `q` passed in is a lower bound of every
symbol duration, is nonnegative, is zero if the chord is all-grace, the
division is nonnegative and `q` times the division is an exact integer
— the emitted advances, chord stacks and rewinds of `build_note_chord`
sum to exactly `q` times the division: the cursor lands `q·division`
ticks after where it started, for every staff position at once because
later duration classes rewind their own advance. -/
theorem C6_alignment (chord : SymbolChord) (st : ConversionState) (q : Frac)
    (res : List Mxl) (st' : ConversionState)
    (hne : chord.symbols ≠ [])
    (hpos : ∀ s ∈ chord.symbols, isGraceSym s = true ∨ 0 < s.get_duration.fraction.num)
    (hle : ∀ s ∈ chord.symbols, q ≤ s.get_duration.fraction)
    (hng : (∃ s ∈ chord.symbols, isGraceSym s = false) ∨ q = Frac.ofInt 0)
    (hq0 : Frac.ofInt 0 ≤ q)
    (hD : 0 ≤ st.division)
    (hden : (q.mul (Frac.ofInt st.division)).den = 1)
    (hok : build_note_chord chord st q = .ok (res, st')) :
    netTicks res = (q.mul (Frac.ofInt st.division)).num := by
  have hmapF := strip_symbols_map chord
  have hpos' : ∀ s2 ∈ chord.strip_slur_ties.2.symbols,
      isGraceSym s2 = true ∨ 0 < s2.get_duration.fraction.num := by
    rw [hmapF]
    intro s2 hs2
    obtain ⟨s0, hs0, rfl⟩ := List.mem_map.mp hs2
    exact hpos s0 hs0
  have hle' : ∀ s2 ∈ chord.strip_slur_ties.2.symbols, q ≤ s2.get_duration.fraction := by
    rw [hmapF]
    intro s2 hs2
    obtain ⟨s0, hs0, rfl⟩ := List.mem_map.mp hs2
    exact hle s0 hs0
  have hng' : (∃ s2 ∈ chord.strip_slur_ties.2.symbols, isGraceSym s2 = false) ∨
      q = Frac.ofInt 0 := by
    rcases hng with ⟨s0, hs0, hgf⟩ | hq
    · left
      rw [hmapF]
      exact ⟨stripSym s0, List.mem_map_of_mem stripSym hs0, hgf⟩
    · right
      exact hq
  unfold build_note_chord at hok
  try dsimp only at hok
  obtain ⟨pr, hloop, h2⟩ := exbind_ok_inv hok
  obtain ⟨result, pr2⟩ := pr
  obtain ⟨stL, fd⟩ := pr2
  try dsimp only at h2
  cases hnc : chord.strip_slur_ties.2.symbols with
  | nil =>
    have : chord.symbols = [] := by rwa [hmapF, List.map_eq_nil_iff] at hnc
    exact absurd this hne
  | cons n rest =>
    rw [hnc] at hloop hpos' hle' hng'
    obtain ⟨hspL, hfd, hnetL⟩ := bncLoop_spec _ _ _ _ _ st 0 (Frac.ofInt 0)
      (result, stL, fd) hloop
      (fun k hk => (group_notes_goodClass n rest k
        ((List.perm_insertionSort (· ≤ ·) _).mem_iff.mp hk) hpos').1)
    try dsimp only at hspL hfd hnetL
    set L := List.insertionSort (· ≤ ·) ((_group_notes (n :: rest)).map Prod.fst)
      with hLdef
    have hLsorted : L.Sorted (· ≤ ·) := by
      rw [hLdef]
      exact List.sorted_insertionSort (· ≤ ·) _
    have hLperm : ∀ x : Frac, x ∈ L ↔ x ∈ (_group_notes (n :: rest)).map Prod.fst := by
      intro x
      rw [hLdef]
      exact (List.perm_insertionSort _ _).mem_iff
    have hLne : L ≠ [] := by
      intro hL0
      have hx : classKey (Frac.listMax n.get_duration.fraction
          (rest.map (fun s => s.get_duration.fraction))) n ∈
          (_group_notes (n :: rest)).map Prod.fst := by
        rw [group_notes_keys]
        exact dedupKeys_complete [] _ _
          (List.mem_map_of_mem _ (List.mem_cons_self n rest)) (List.not_mem_nil _)
      have hmem := (hLperm _).mpr hx
      rw [hL0] at hmem
      cases hmem
    have hfdmemL : fd ∈ L := by
      rw [hfd]
      exact getLastD_mem L _ hLne
    have hfdkeys : fd ∈ (_group_notes (n :: rest)).map Prod.fst := (hLperm fd).mp hfdmemL
    by_cases hlt : q < fd
    · have hfdpos : Frac.ofInt 0 < fd := Frac.lt_of_le_lt hq0 hlt
      rw [if_pos hlt] at h2
      cases h2
      rw [netTicks_append, netTicks_backupEl]
      rw [if_neg hLne, ← hfd, if_pos hfdpos] at hnetL
      rw [hnetL, hspL.1]
      have hcan := pyInt_sub_cancel fd q st.division ((Frac.nonneg_iff q).mp hq0)
        (Frac.le_of_lt' hlt) hD hden
      omega
    · rw [if_neg hlt] at h2
      cases h2
      by_cases hfdpos : Frac.ofInt 0 < fd
      · obtain ⟨⟨m, mrest, hcl, hhead⟩, hsub⟩ :=
          group_notes_goodClass n rest fd hfdkeys hpos'
        rcases hhead with ⟨_, hnp⟩ | ⟨hgf, hfrac, _⟩
        · exact absurd hfdpos hnp
        · have hmNC : m ∈ n :: rest := hsub m (by rw [hcl]; exact List.mem_cons_self _ _)
          have hqfd : q ≤ fd := by
            rw [← hfrac]
            exact hle' m hmNC
          have heq : q = fd := Frac.eq_of_le_of_le hqfd (Frac.le_of_not_lt hlt)
          rw [if_neg hLne, ← hfd, if_pos hfdpos] at hnetL
          rw [hnetL, ← heq]
          exact Frac.pyInt_den_one _ hden
      · rw [if_neg hLne, ← hfd, if_neg hfdpos] at hnetL
        rw [hnetL]
        rcases hng' with ⟨s2, hs2, hgf⟩ | hq0eq
        · exfalso
          have hnum : 0 < s2.get_duration.fraction.num := by
            rcases hpos' s2 hs2 with hgr | hnum
            · exact absurd hgr (by simp [hgf])
            · exact hnum
          have hnz : ¬ s2.get_duration.fraction.num = 0 := by omega
          have hgg : ¬ strHasChar s2.rhythm 'G' = true := by
            rw [show strHasChar s2.rhythm 'G' = isGraceSym s2 from rfl, hgf]
            simp
          have hkmem : s2.get_duration.fraction ∈ (_group_notes (n :: rest)).map Prod.fst := by
            rw [group_notes_keys]
            refine dedupKeys_complete [] _ _ ?_ (List.not_mem_nil _)
            refine List.mem_map.mpr ⟨s2, hs2, ?_⟩
            unfold classKey
            rw [if_neg hgg, if_neg hnz]
          have hmemL : s2.get_duration.fraction ∈ L := (hLperm _).mpr hkmem
          have hlefd : s2.get_duration.fraction ≤ fd := by
            rw [hfd]
            exact sorted_le_getLastD L hLsorted _ hmemL _
          have hfpos : Frac.ofInt 0 < s2.get_duration.fraction := (Frac.pos_iff _).mpr hnum
          exact hfdpos (Frac.lt_of_lt_le hfpos hlefd)
        · subst hq0eq
          have hz : ((Frac.ofInt 0).mul (Frac.ofInt st.division)).toRat = 0 := by
            rw [Frac.toRat_mul, Frac.toRat_ofInt, Frac.toRat_ofInt]
            simp
          have hzn := congrArg Rat.num hz
          simpa using hzn.symm

/-- C6 witness: one quarter note at division 4 — the chord advances the
cursor by exactly one tick, the nominal quarter times the division. -/
theorem C6_alignment_witness :
    build_note_chord c6chord c6st c6q = .ok (c6res, c6st) ∧
    netTicks c6res = (c6q.mul (Frac.ofInt c6st.division)).num ∧
    (c6q.mul (Frac.ofInt c6st.division)).num = 1 :=
  ⟨rfl,
   C6_alignment c6chord c6st c6q c6res c6st (by decide) (by decide) (by decide)
     (by decide) (by decide) (by decide) (by decide) rfl,
   by decide⟩

/-! ## Helper lemmas: the beaming pass -/

lemma beamStep_eq_stepOfAction (pos : String) (st : BeamState) (g : SymbolChord) :
    beamStep pos st g = stepOfAction st (beamActionOf pos g) := by
  unfold beamStep beamActionOf
  by_cases hb : g.is_barline = true
  · rw [if_pos hb, if_pos hb]
    rfl
  · rw [if_neg hb, if_neg hb]
    cases hf : findStaffChord g pos with
    | none => rfl
    | some sc =>
      try dsimp only
      rcases hsc : beamScan sc.symbols false false with ⟨c0, hnr2, hr2⟩
      cases hr2 <;> cases hnr2 <;> cases c0 <;> rfl

lemma beamScan_some : ∀ (l : List EncodedSymbol) (b1 b2 : Bool) (c : EncodedSymbol)
    (pr : Bool × Bool), beamScan l b1 b2 = (some c, pr) →
    c ∈ l ∧ _is_beamable_note c = true := by
  intro l
  induction l with
  | nil =>
    intro b1 b2 c pr h
    simp [beamScan] at h
  | cons s rest ih =>
    intro b1 b2 c pr h
    unfold beamScan at h
    try dsimp only at h
    by_cases hbm : _is_beamable_note s = true
    · rw [if_pos hbm] at h
      have hc : some s = some c := congrArg Prod.fst h
      cases hc
      exact ⟨List.mem_cons_self _ _, hbm⟩
    · rw [if_neg hbm] at h
      obtain ⟨hmem, hbeam⟩ := ih _ _ _ _ h
      exact ⟨List.mem_cons_of_mem _ hmem, hbeam⟩

lemma findStaffChord_spec (g : SymbolChord) (pos : String) (sc : SymbolChord)
    (h : findStaffChord g pos = some sc) :
    ∀ s ∈ sc.symbols, s ∈ g.symbols ∧ posMatch pos s := by
  unfold findStaffChord at h
  have hmem := List.mem_of_find?_eq_some h
  have hcond := List.find?_some h
  unfold SymbolChord.into_positions at hmem
  try dsimp only at hmem
  rw [List.mem_filter] at hmem
  obtain ⟨hmem2, _⟩ := hmem
  cases hsy : sc.symbols with
  | nil =>
    intro s hs
    exact absurd hs (List.not_mem_nil s)
  | cons s0 srest =>
    rw [hsy] at hcond
    try dsimp only at hcond
    have hs0pos : s0.position = pos := by simpa using hcond
    have hcase1 : sc = SymbolChord.mk (g.symbols.filter (fun s => s.position = "upper"))
        g.tuplet_mark → ∀ s ∈ s0 :: srest, s ∈ g.symbols ∧ posMatch pos s := by
      intro hsc s hs
      have hsy2 : g.symbols.filter (fun s => decide (s.position = "upper")) = s0 :: srest := by
        rw [hsc] at hsy
        exact hsy
      rw [← hsy2] at hs
      refine ⟨(List.mem_filter.mp hs).1, ?_⟩
      have hposu : pos = "upper" := by
        have hs0 : s0 ∈ g.symbols.filter (fun s => decide (s.position = "upper")) := by
          rw [hsy2]
          exact List.mem_cons_self _ _
        have h2 := (List.mem_filter.mp hs0).2
        simp only [decide_eq_true_eq] at h2
        rw [← hs0pos, h2]
      unfold posMatch
      rw [if_pos hposu]
      have h3 := (List.mem_filter.mp hs).2
      simpa using h3
    have hcase2 : sc = SymbolChord.mk (g.symbols.filter (fun s => s.position ≠ "upper"))
        g.tuplet_mark → ∀ s ∈ s0 :: srest, s ∈ g.symbols ∧ posMatch pos s := by
      intro hsc s hs
      have hsy2 : g.symbols.filter (fun s => decide (s.position ≠ "upper")) = s0 :: srest := by
        rw [hsc] at hsy
        exact hsy
      rw [← hsy2] at hs
      refine ⟨(List.mem_filter.mp hs).1, ?_⟩
      have hposl : ¬ pos = "upper" := by
        have hs0 : s0 ∈ g.symbols.filter (fun s => decide (s.position ≠ "upper")) := by
          rw [hsy2]
          exact List.mem_cons_self _ _
        have h2 := (List.mem_filter.mp hs0).2
        intro hp
        rw [hp] at hs0pos
        simp [hs0pos] at h2
      unfold posMatch
      rw [if_neg hposl]
      have h2 := (List.mem_filter.mp hs).2
      simpa using h2
    split at hmem2 <;>
      rcases List.mem_cons.mp hmem2 with h1 | h1 <;>
      first
        | exact hcase1 h1
        | exact hcase2 h1
        | exact hcase1 (List.mem_singleton.mp h1)
        | exact hcase2 (List.mem_singleton.mp h1)

lemma push_cand_mem (pos : String) (g : SymbolChord) (c : EncodedSymbol)
    (haction : beamActionOf pos g = BeamAction.push c) :
    c ∈ g.symbols ∧ posMatch pos c := by
  unfold beamActionOf at haction
  by_cases hb : g.is_barline = true
  · rw [if_pos hb] at haction
    exact BeamAction.noConfusion haction
  · rw [if_neg hb] at haction
    cases hf : findStaffChord g pos with
    | none =>
      rw [hf] at haction
      exact BeamAction.noConfusion haction
    | some sc =>
      rw [hf] at haction
      try dsimp only at haction
      rcases hsc : beamScan sc.symbols false false with ⟨c0, hnr2, hr2⟩
      rw [hsc] at haction
      try dsimp only at haction
      cases hr2 with
      | true => cases hnr2 <;> simp at haction
      | false =>
        cases c0 with
        | none => cases hnr2 <;> simp at haction
        | some cc =>
          have hcc : cc = c := by simpa using haction
          subst hcc
          obtain ⟨hmem, _⟩ := beamScan_some sc.symbols false false cc _ hsc
          exact findStaffChord_spec g pos sc hf cc hmem

lemma beamRun_append (pos : String) : ∀ (l1 l2 : List SymbolChord) (st : BeamState),
    beamRun pos st (l1 ++ l2) = beamRun pos (beamRun pos st l1) l2 := by
  intro l1
  induction l1 with
  | nil =>
    intro l2 st
    rfl
  | cons g rest ih =>
    intro l2 st
    show beamRun pos (beamStep pos st g) (rest ++ l2) =
      beamRun pos (beamRun pos (beamStep pos st g) rest) l2
    exact ih l2 (beamStep pos st g)

lemma pushedCands_nil (pos : String) : pushedCands pos [] = [] := rfl

lemma pushedCands_cons_neutral (pos : String) (g : SymbolChord) (run : List SymbolChord)
    (h : beamActionOf pos g = BeamAction.neutral) :
    pushedCands pos (g :: run) = pushedCands pos run := by
  unfold pushedCands
  rw [List.filterMap_cons]
  try dsimp only
  rw [h]

lemma pushedCands_cons_push (pos : String) (g : SymbolChord) (run : List SymbolChord)
    (c : EncodedSymbol) (h : beamActionOf pos g = BeamAction.push c) :
    pushedCands pos (g :: run) = c :: pushedCands pos run := by
  unfold pushedCands
  rw [List.filterMap_cons]
  try dsimp only
  rw [h]

lemma beamRun_chain (pos : String) : ∀ (run : List SymbolChord) (p : Nat) (r : Nat)
    (A : List (Nat × String)), 1 ≤ r →
    (∀ g ∈ run, beamActionOf pos g ≠ BeamAction.flush) →
    beamRun pos ⟨some p, r, A⟩ run =
      ⟨some (lastSidD p (pushedCands pos run)), r + (pushedCands pos run).length,
        A ++ pushMarks p r (pushedCands pos run)⟩ := by
  intro run
  induction run with
  | nil =>
    intro p r A _ _
    simp [beamRun, pushedCands, lastSidD, pushMarks]
  | cons g rest ih =>
    intro p r A hr hnf
    show beamRun pos (beamStep pos ⟨some p, r, A⟩ g) rest = _
    rw [beamStep_eq_stepOfAction]
    rcases haction : beamActionOf pos g with _ | _ | c
    · exact absurd haction (hnf g (List.mem_cons_self g rest))
    · rw [show stepOfAction ⟨some p, r, A⟩ BeamAction.neutral = ⟨some p, r, A⟩ from rfl]
      rw [ih p r A hr (fun g' hg' => hnf g' (List.mem_cons_of_mem _ hg'))]
      rw [pushedCands_cons_neutral pos g rest haction]
    · rw [show stepOfAction ⟨some p, r, A⟩ (BeamAction.push c) =
          ⟨some c.sid, r + 1, A ++ [(p, if r = 1 then "begin" else "continue")]⟩ from rfl]
      rw [ih c.sid (r + 1) _ (by omega) (fun g' hg' => hnf g' (List.mem_cons_of_mem _ hg'))]
      rw [pushedCands_cons_push pos g rest c haction]
      have h1 : lastSidD p (c :: pushedCands pos rest) =
          lastSidD c.sid (pushedCands pos rest) := by
        unfold lastSidD
        rw [List.map_cons, List.getLastD_cons]
      have h2 : pushMarks p r (c :: pushedCands pos rest) =
          (p, if r = 1 then "begin" else "continue") ::
            pushMarks c.sid (r + 1) (pushedCands pos rest) := rfl
      have h3 : r + 1 + (pushedCands pos rest).length =
          r + ((pushedCands pos rest).length + 1) := by omega
      have h4 : (A ++ [(p, if r = 1 then "begin" else "continue")]) ++
          pushMarks c.sid (r + 1) (pushedCands pos rest) =
          A ++ ((p, if r = 1 then "begin" else "continue") ::
            pushMarks c.sid (r + 1) (pushedCands pos rest)) := by
        simp
      rw [h1, h2, h3, h4]
      rfl

lemma beamRun_chain0 (pos : String) : ∀ (run : List SymbolChord) (A : List (Nat × String)),
    (∀ g ∈ run, beamActionOf pos g ≠ BeamAction.flush) →
    beamRun pos ⟨none, 0, A⟩ run =
      (match pushedCands pos run with
       | [] => ⟨none, 0, A⟩
       | c :: cs => ⟨some (lastSidD c.sid cs), 1 + cs.length, A ++ pushMarks c.sid 1 cs⟩) := by
  intro run
  induction run with
  | nil =>
    intro A _
    rfl
  | cons g rest ih =>
    intro A hnf
    show beamRun pos (beamStep pos ⟨none, 0, A⟩ g) rest = _
    rw [beamStep_eq_stepOfAction]
    rcases haction : beamActionOf pos g with _ | _ | c
    · exact absurd haction (hnf g (List.mem_cons_self g rest))
    · rw [show stepOfAction ⟨none, 0, A⟩ BeamAction.neutral = ⟨none, 0, A⟩ from rfl]
      rw [ih A (fun g' hg' => hnf g' (List.mem_cons_of_mem _ hg'))]
      rw [pushedCands_cons_neutral pos g rest haction]
    · rw [show stepOfAction ⟨none, 0, A⟩ (BeamAction.push c) = ⟨some c.sid, 1, A⟩ from rfl]
      rw [beamRun_chain pos rest c.sid 1 A (le_refl 1)
        (fun g' hg' => hnf g' (List.mem_cons_of_mem _ hg'))]
      rw [pushedCands_cons_push pos g rest c haction]

lemma finalize_asgn (st : BeamState) :
    ∃ Δ0, _finalize_pending_beam st = st.asgn ++ Δ0 ∧
      ∀ a ∈ Δ0.map Prod.fst, a ∈ pendSids st := by
  unfold _finalize_pending_beam
  cases hp : st.pending with
  | none => exact ⟨[], by simp, by simp⟩
  | some p =>
    try dsimp only
    split
    · exact ⟨[], by simp, by simp⟩
    · refine ⟨[(p, "end")], rfl, ?_⟩
      intro a ha
      simp at ha
      subst ha
      simp [pendSids, hp]

lemma posSids_cons (pos : String) (g : SymbolChord) (rest : List SymbolChord) :
    posSids pos (g :: rest) =
      (g.symbols.filter (fun s => decide (posMatch pos s))).map EncodedSymbol.sid ++
        posSids pos rest := by
  simp [posSids]

lemma stepOfAction_asgn (st : BeamState) (act : BeamAction) :
    ∃ Δ0, (stepOfAction st act).asgn = st.asgn ++ Δ0 ∧
      (∀ a ∈ Δ0.map Prod.fst, a ∈ pendSids st) ∧
      (∀ a ∈ pendSids (stepOfAction st act),
        a ∈ pendSids st ∨ ∃ c, act = BeamAction.push c ∧ a = c.sid) := by
  cases act with
  | flush =>
    obtain ⟨Δ0, h1, h2⟩ := finalize_asgn st
    exact ⟨Δ0, h1, h2, by simp [stepOfAction, pendSids]⟩
  | neutral =>
    exact ⟨[], by simp [stepOfAction], by simp, fun a ha => Or.inl ha⟩
  | push c =>
    cases hp : st.pending with
    | none =>
      refine ⟨[], by simp [stepOfAction, hp], by simp, ?_⟩
      intro a ha
      simp [stepOfAction, hp, pendSids] at ha
      exact Or.inr ⟨c, rfl, ha⟩
    | some p =>
      refine ⟨[(p, if st.run_length = 1 then "begin" else "continue")],
        by simp [stepOfAction, hp], ?_, ?_⟩
      · intro a ha
        simp at ha
        subst ha
        simp [pendSids, hp]
      · intro a ha
        simp [stepOfAction, hp, pendSids] at ha
        exact Or.inr ⟨c, rfl, ha⟩

lemma beamRun_dom (pos : String) : ∀ (gs : List SymbolChord) (st : BeamState),
    ∃ Δ, (beamRun pos st gs).asgn = st.asgn ++ Δ ∧
      (∀ a ∈ Δ.map Prod.fst, a ∈ pendSids st ∨ a ∈ posSids pos gs) ∧
      (∀ a ∈ pendSids (beamRun pos st gs), a ∈ pendSids st ∨ a ∈ posSids pos gs) := by
  intro gs
  induction gs with
  | nil =>
    intro st
    exact ⟨[], by simp [beamRun], by simp, fun a ha => Or.inl ha⟩
  | cons g rest ih =>
    intro st
    obtain ⟨Δ', h1, h2, h3⟩ := ih (beamStep pos st g)
    rw [beamStep_eq_stepOfAction] at h1 h2 h3
    obtain ⟨Δ0, g1, g2, g3⟩ := stepOfAction_asgn st (beamActionOf pos g)
    have hcand : ∀ a, (∃ c, beamActionOf pos g = BeamAction.push c ∧ a = c.sid) →
        a ∈ posSids pos (g :: rest) := by
      rintro a ⟨c, hact, rfl⟩
      obtain ⟨hmem, hpm⟩ := push_cand_mem pos g c hact
      rw [posSids_cons]
      apply List.mem_append_left
      exact List.mem_map_of_mem _ (List.mem_filter.mpr ⟨hmem, by simpa using hpm⟩)
    refine ⟨Δ0 ++ Δ', ?_, ?_, ?_⟩
    · show (beamRun pos (beamStep pos st g) rest).asgn = _
      rw [beamStep_eq_stepOfAction, h1, g1, List.append_assoc]
    · intro a ha
      rw [List.map_append, List.mem_append] at ha
      rcases ha with ha | ha
      · exact Or.inl (g2 a ha)
      · rcases h2 a ha with h | h
        · rcases g3 a h with h' | h'
          · exact Or.inl h'
          · exact Or.inr (hcand a h')
        · refine Or.inr ?_
          rw [posSids_cons]
          exact List.mem_append_right _ h
    · intro a ha
      have ha2 : a ∈ pendSids (beamRun pos (beamStep pos st g) rest) := ha
      rw [beamStep_eq_stepOfAction] at ha2
      rcases h3 a ha2 with h | h
      · rcases g3 a h with h' | h'
        · exact Or.inl h'
        · exact Or.inr (hcand a h')
      · refine Or.inr ?_
        rw [posSids_cons]
        exact List.mem_append_right _ h

lemma beamPass_dom (pos : String) (gs : List SymbolChord) :
    ∀ e ∈ beamPass pos gs, e.1 ∈ posSids pos gs := by
  intro e he
  unfold beamPass at he
  obtain ⟨Δ, h1, h2, h3⟩ := beamRun_dom pos gs ⟨none, 0, []⟩
  obtain ⟨Δ0, g1, g2⟩ := finalize_asgn (beamRun pos ⟨none, 0, []⟩ gs)
  rw [g1, h1] at he
  simp only [List.nil_append] at he
  rw [List.mem_append] at he
  rcases he with he | he
  · rcases h2 e.1 (List.mem_map_of_mem Prod.fst he) with h | h
    · simp [pendSids] at h
    · exact h
  · have h := g2 e.1 (List.mem_map_of_mem Prod.fst he)
    rcases h3 e.1 h with h' | h'
    · simp [pendSids] at h'
    · exact h'

lemma beamOf_append (A B : List (Nat × String)) (sid : Nat) :
    beamOf (A ++ B) sid =
      (match beamOf B sid with
       | some m => some m
       | none => beamOf A sid) := by
  unfold beamOf
  rw [List.reverse_append, List.find?_append]
  cases hB : B.reverse.find? (fun p => decide (p.1 = sid)) with
  | none => simp [hB]
  | some e => simp [hB]

lemma beamOf_not_mem (A : List (Nat × String)) (sid : Nat)
    (h : ∀ e ∈ A, e.1 ≠ sid) : beamOf A sid = none := by
  unfold beamOf
  rw [List.find?_eq_none.mpr]
  · rfl
  · intro e he
    simp only [decide_eq_true_eq]
    exact h e (List.mem_reverse.mp he)

lemma find?_fst_unique : ∀ (A : List (Nat × String)) (s : Nat) (m : String),
    (s, m) ∈ A → (A.map Prod.fst).Nodup →
    A.find? (fun p => p.1 = s) = some (s, m) := by
  intro A
  induction A with
  | nil =>
    intro s m hm _
    cases hm
  | cons e rest ih =>
    intro s m hm hnd
    rw [List.map_cons, List.nodup_cons] at hnd
    obtain ⟨hnotin, hnd2⟩ := hnd
    by_cases he : e.1 = s
    · rcases List.mem_cons.mp hm with rfl | hm2
      · rw [List.find?_cons_of_pos _ (by simp)]
      · exfalso
        apply hnotin
        rw [he]
        exact List.mem_map_of_mem Prod.fst hm2
    · rw [List.find?_cons_of_neg _ (by simp [he])]
      rcases List.mem_cons.mp hm with heq | hm2
      · exact absurd (by rw [← heq] : e.1 = s) he
      · exact ih s m hm2 hnd2

lemma beamOf_mem_unique (A : List (Nat × String)) (s : Nat) (m : String)
    (hmem : (s, m) ∈ A) (huniq : (A.map Prod.fst).Nodup) :
    beamOf A s = some m := by
  unfold beamOf
  rw [find?_fst_unique A.reverse s m (List.mem_reverse.mpr hmem) (by
    rw [List.map_reverse]
    exact List.nodup_reverse.mpr huniq)]
  rfl

lemma pushMarks_map_fst : ∀ (l : List EncodedSymbol) (p : Nat) (r : Nat),
    (pushMarks p r l).map Prod.fst = (p :: l.map EncodedSymbol.sid).dropLast := by
  intro l
  induction l with
  | nil =>
    intro p r
    rfl
  | cons c t ih =>
    intro p r
    rw [show pushMarks p r (c :: t) = (p, if r = 1 then "begin" else "continue") ::
        pushMarks c.sid (r + 1) t from rfl]
    rw [List.map_cons, ih]
    rfl

lemma pushMarks_getElem? : ∀ (l : List EncodedSymbol) (p : Nat) (r j : Nat),
    (pushMarks p r l)[j]? =
      (if j < l.length then
        some ((p :: l.map EncodedSymbol.sid).getD j 0,
          if r + j = 1 then "begin" else "continue")
      else none) := by
  intro l
  induction l with
  | nil =>
    intro p r j
    simp [pushMarks]
  | cons c t ih =>
    intro p r j
    rw [show pushMarks p r (c :: t) = (p, if r = 1 then "begin" else "continue") ::
        pushMarks c.sid (r + 1) t from rfl]
    cases j with
    | zero => simp
    | succ j =>
      rw [List.getElem?_cons_succ, ih c.sid (r + 1) j]
      have harr : r + 1 + j = r + (j + 1) := by omega
      rw [harr]
      by_cases hj : j < t.length
      · rw [if_pos hj, if_pos (by rw [List.length_cons]; omega : j + 1 < (c :: t).length)]
        rfl
      · rw [if_neg hj, if_neg (by rw [List.length_cons]; omega : ¬ j + 1 < (c :: t).length)]

lemma pushedCands_cons_flush (pos : String) (g : SymbolChord) (run : List SymbolChord)
    (h : beamActionOf pos g = BeamAction.flush) :
    pushedCands pos (g :: run) = pushedCands pos run := by
  unfold pushedCands
  rw [List.filterMap_cons]
  try dsimp only
  rw [h]

lemma posSids_sub_allSids (pos : String) (gs : List SymbolChord) :
    ∀ a ∈ posSids pos gs, a ∈ allSids gs := by
  intro a ha
  unfold posSids at ha
  unfold allSids
  obtain ⟨s, hs, rfl⟩ := List.mem_map.mp ha
  exact List.mem_map_of_mem _ (List.mem_filter.mp hs).1

lemma allSids_append (l1 l2 : List SymbolChord) :
    allSids (l1 ++ l2) = allSids l1 ++ allSids l2 := by
  simp [allSids]

lemma posSids_not_both (gs : List SymbolChord) (hnd : (allSids gs).Nodup) (a : Nat) :
    ¬ (a ∈ posSids "upper" gs ∧ a ∈ posSids "lower" gs) := by
  rintro ⟨h1, h2⟩
  unfold posSids at h1 h2
  obtain ⟨s1, hs1, he1⟩ := List.mem_map.mp h1
  obtain ⟨s2, hs2, he2⟩ := List.mem_map.mp h2
  obtain ⟨hm1, hp1⟩ := List.mem_filter.mp hs1
  obtain ⟨hm2, hp2⟩ := List.mem_filter.mp hs2
  have hs12 : s1 = s2 :=
    List.inj_on_of_nodup_map hnd hm1 hm2 (he1.trans he2.symm)
  have hu : posMatch "upper" s2 := by
    rw [← hs12]
    exact of_decide_eq_true hp1
  have hl : posMatch "lower" s2 := of_decide_eq_true hp2
  unfold posMatch at hu hl
  rw [if_pos rfl] at hu
  rw [if_neg (by decide)] at hl
  exact hl hu

lemma pushedCands_sids_sublist (pos : String) : ∀ (run : List SymbolChord),
    ((pushedCands pos run).map EncodedSymbol.sid).Sublist (allSids run) := by
  intro run
  induction run with
  | nil => simp [pushedCands, allSids]
  | cons g rest ih =>
    have hall : allSids (g :: rest) = g.symbols.map EncodedSymbol.sid ++ allSids rest := by
      simp [allSids]
    rcases haction : beamActionOf pos g with _ | _ | c
    · rw [pushedCands_cons_flush pos g rest haction, hall]
      exact ih.trans (List.sublist_append_right _ _)
    · rw [pushedCands_cons_neutral pos g rest haction, hall]
      exact ih.trans (List.sublist_append_right _ _)
    · rw [pushedCands_cons_push pos g rest c haction, hall, List.map_cons]
      have hc : c.sid ∈ g.symbols.map EncodedSymbol.sid :=
        List.mem_map_of_mem _ (push_cand_mem pos g c haction).1
      have h1 : [c.sid].Sublist (g.symbols.map EncodedSymbol.sid) :=
        List.singleton_sublist.mpr hc
      have h2 := h1.append ih
      simpa using h2

lemma Frac.lt_of_not_le {a b : Frac} (h : ¬ a ≤ b) : b < a := Int.not_le.mp h

lemma Frac.not_le_of_lt' {a b : Frac} (h : a < b) : ¬ b ≤ a := Int.not_le.mpr h

lemma beamOf_single (s : Nat) (m : String) : beamOf [(s, m)] s = some m := by
  simp [beamOf]

lemma lastSidD_getLastD (c0 : EncodedSymbol) (cs : List EncodedSymbol) :
    lastSidD c0.sid cs = ((c0 :: cs).map EncodedSymbol.sid).getLastD 0 := by
  unfold lastSidD
  rw [List.map_cons, List.getLastD_cons]

lemma last_not_dropLast {S : List Nat} (hS : S ≠ []) (hnd : S.Nodup) :
    S.getLastD 0 ∉ S.dropLast := by
  have hco := List.dropLast_concat_getLast hS
  have hld : S.getLastD 0 = S.getLast hS := by
    conv_lhs => rw [← hco]
    rw [List.getLastD_concat]
  rw [hld]
  intro hmem
  rw [← hco] at hnd
  exact (List.nodup_append.mp hnd).2.2 hmem (List.mem_singleton_self _)

lemma beamOf_append_none {A B : List (Nat × String)} {sid : Nat}
    (h : beamOf B sid = none) : beamOf (A ++ B) sid = beamOf A sid := by
  rw [beamOf_append, h]

lemma beamOf_append_some {A B : List (Nat × String)} {sid : Nat} {m : String}
    (h : beamOf B sid = some m) : beamOf (A ++ B) sid = some m := by
  rw [beamOf_append, h]

/-- C7: the beaming law.  A note is beamable exactly when it is a
Note, not a grace note, and its duration lies strictly between zero and
a quarter.  For a maximal run of consecutive beamable chords at one
staff position — every chord in the run pushes a beamable candidate or
leaves the state untouched, the run is preceded and followed by a
flushing chord (rest-bearing slice, barline, absent slice) or by the
part boundary — the run's L candidate notes receive the markers
`begin`, `continue`×(L−2), `end` when L ≥ 2, and no marker when
L = 1. -/
theorem C7_beaming_law (pos : String) (groups pre run post : List SymbolChord)
    (hpos : pos = "upper" ∨ pos = "lower")
    (hsplit : groups = pre ++ run ++ post)
    (hrun : ∀ g ∈ run, beamActionOf pos g ≠ BeamAction.flush)
    (hpre : pre = [] ∨ ∃ pre0 gl, pre = pre0 ++ [gl] ∧
      beamActionOf pos gl = BeamAction.flush)
    (hpost : post = [] ∨ ∃ gf post0, post = gf :: post0 ∧
      beamActionOf pos gf = BeamAction.flush)
    (hnd : (allSids groups).Nodup) :
    (∀ s : EncodedSymbol, _is_beamable_note s = true ↔
      (strStarts s.rhythm "note" = true ∧ isGraceSym s = false ∧
        Frac.ofInt 0 < s.get_duration.fraction ∧
        s.get_duration.fraction < Frac.make 1 4)) ∧
    (∀ i c, (pushedCands pos run)[i]? = some c →
      beamOf (apply_beaming groups) c.sid =
        specBeamMark (pushedCands pos run).length i) := by
  constructor
  · intro s
    unfold _is_beamable_note
    constructor
    · intro h
      by_cases h1 : strStarts s.rhythm "note" = true
      · rw [if_neg (not_not_intro h1)] at h
        by_cases h2 : strHasChar s.rhythm 'G' = true
        · rw [if_pos h2] at h
          exact absurd h (by simp)
        · rw [if_neg h2] at h
          try dsimp only at h
          by_cases h3 : s.get_duration.fraction ≤ Frac.ofInt 0
          · rw [if_pos h3] at h
            exact absurd h (by simp)
          · rw [if_neg h3] at h
            refine ⟨h1, ?_, Frac.lt_of_not_le h3, of_decide_eq_true h⟩
            unfold isGraceSym
            simpa using h2
      · rw [if_pos h1] at h
        exact absurd h (by simp)
    · rintro ⟨h1, h2, h3, h4⟩
      rw [if_neg (not_not_intro h1)]
      rw [if_neg (by
        rw [show strHasChar s.rhythm 'G' = isGraceSym s from rfl, h2]
        simp)]
      try dsimp only
      rw [if_neg (Frac.not_le_of_lt' h3)]
      exact decide_eq_true h4
  · intro i c hic
    subst hsplit
    -- split the global Nodup over the three segments
    have hndall := hnd
    rw [allSids_append, allSids_append, List.nodup_append, List.nodup_append] at hnd
    obtain ⟨⟨hndpre, hndrun, hdisjprerun⟩, hndpost, hdisjrp⟩ := hnd
    -- the state after the pre segment
    have hS1 : beamRun pos ⟨none, 0, []⟩ pre =
        ⟨none, 0, (beamRun pos ⟨none, 0, []⟩ pre).asgn⟩ := by
      rcases hpre with rfl | ⟨pre0, gl, rfl, hgl⟩
      · rfl
      · rw [beamRun_append]
        rw [show beamRun pos (beamRun pos ⟨none, 0, []⟩ pre0) [gl] =
            beamStep pos (beamRun pos ⟨none, 0, []⟩ pre0) gl from rfl]
        rw [beamStep_eq_stepOfAction, hgl]
        rfl
    set A1 := (beamRun pos ⟨none, 0, []⟩ pre).asgn with hA1def
    have hA1dom : ∀ a ∈ A1.map Prod.fst, a ∈ posSids pos pre := by
      obtain ⟨Δ, d1, d2, _⟩ := beamRun_dom pos pre ⟨none, 0, []⟩
      simp only [List.nil_append] at d1
      intro a ha
      rw [hA1def, d1] at ha
      rcases d2 a ha with h | h
      · simp [pendSids] at h
      · exact h
    -- the candidate list is nonempty
    have hlen : i < (pushedCands pos run).length := by
      by_contra hcon
      rw [List.getElem?_eq_none_iff.mpr (le_of_not_lt hcon)] at hic
      exact Option.noConfusion hic
    obtain ⟨c0, cs, hcands⟩ : ∃ c0 cs, pushedCands pos run = c0 :: cs := by
      cases hpc : pushedCands pos run with
      | nil =>
        rw [hpc] at hlen
        simp at hlen
      | cons a b => exact ⟨a, b, rfl⟩
    rw [hcands] at hic hlen ⊢
    -- facts about the candidate c
    have hcmem : c ∈ c0 :: cs := List.getElem?_mem hic
    have hcpc : c ∈ pushedCands pos run := by
      rw [hcands]
      exact hcmem
    have hcand : ∃ g ∈ run, beamActionOf pos g = BeamAction.push c := by
      unfold pushedCands at hcpc
      obtain ⟨g, hg, hfg⟩ := List.mem_filterMap.mp hcpc
      rcases haction : beamActionOf pos g with _ | _ | c'
      · rw [haction] at hfg
        exact absurd hfg (by simp)
      · rw [haction] at hfg
        exact absurd hfg (by simp)
      · rw [haction] at hfg
        have : c' = c := by simpa using hfg
        subst this
        exact ⟨g, hg, haction⟩
    obtain ⟨gc, hgc, hgact⟩ := hcand
    obtain ⟨hcg, hcpm⟩ := push_cand_mem pos gc c hgact
    have hcposrun : c.sid ∈ posSids pos run := by
      unfold posSids
      refine List.mem_map.mpr ⟨c, List.mem_filter.mpr ⟨?_, by simpa using hcpm⟩, rfl⟩
      rw [List.mem_flatten]
      exact ⟨gc.symbols, List.mem_map_of_mem _ hgc, hcg⟩
    have hcsidrun : c.sid ∈ allSids run := posSids_sub_allSids pos run c.sid hcposrun
    have hSnodup : ((c0 :: cs).map EncodedSymbol.sid).Nodup := by
      have hsub := pushedCands_sids_sublist pos run
      rw [hcands] at hsub
      exact List.Nodup.sublist hsub hndrun
    have hSi : ((c0 :: cs).map EncodedSymbol.sid)[i]? = some c.sid := by
      rw [List.getElem?_map, hic]
      rfl
    -- sid disjointness with the other segments
    have hnotpre : c.sid ∉ allSids pre := fun h => hdisjprerun h hcsidrun
    have hnotpost : c.sid ∉ allSids post :=
      fun h => hdisjrp (List.mem_append_right _ hcsidrun) h
    -- the full pass for this position
    have hrunres := beamRun_chain0 pos run A1 hrun
    rw [hcands] at hrunres
    try dsimp only at hrunres
    have hpassdecomp : beamPass pos (pre ++ run ++ post) =
        _finalize_pending_beam (beamRun pos
          ⟨some (lastSidD c0.sid cs), 1 + cs.length,
            A1 ++ pushMarks c0.sid 1 cs⟩ post) := by
      unfold beamPass
      rw [beamRun_append, beamRun_append, hS1, hrunres]
    have hpass : ∃ Δf, beamPass pos (pre ++ run ++ post) =
        _finalize_pending_beam ⟨some (lastSidD c0.sid cs), 1 + cs.length,
          A1 ++ pushMarks c0.sid 1 cs⟩ ++ Δf ∧
        ∀ a ∈ Δf.map Prod.fst, a ∈ posSids pos post := by
      rcases hpost with rfl | ⟨gf, post0, rfl, hgf⟩
      · refine ⟨[], ?_, by simp⟩
        rw [hpassdecomp]
        simp [beamRun]
      · rw [hpassdecomp]
        rw [show beamRun pos ⟨some (lastSidD c0.sid cs), 1 + cs.length,
            A1 ++ pushMarks c0.sid 1 cs⟩ (gf :: post0) =
            beamRun pos (beamStep pos ⟨some (lastSidD c0.sid cs), 1 + cs.length,
              A1 ++ pushMarks c0.sid 1 cs⟩ gf) post0 from rfl]
        rw [beamStep_eq_stepOfAction, hgf]
        rw [show stepOfAction ⟨some (lastSidD c0.sid cs), 1 + cs.length,
            A1 ++ pushMarks c0.sid 1 cs⟩ BeamAction.flush =
            ⟨none, 0, _finalize_pending_beam ⟨some (lastSidD c0.sid cs), 1 + cs.length,
              A1 ++ pushMarks c0.sid 1 cs⟩⟩ from rfl]
        obtain ⟨Δ, d1, d2, d3⟩ := beamRun_dom pos post0
          ⟨none, 0, _finalize_pending_beam ⟨some (lastSidD c0.sid cs), 1 + cs.length,
            A1 ++ pushMarks c0.sid 1 cs⟩⟩
        obtain ⟨Δ0, f1, f2⟩ := finalize_asgn (beamRun pos
          ⟨none, 0, _finalize_pending_beam ⟨some (lastSidD c0.sid cs), 1 + cs.length,
            A1 ++ pushMarks c0.sid 1 cs⟩⟩ post0)
        refine ⟨Δ ++ Δ0, ?_, ?_⟩
        · rw [f1, d1]
          simp [List.append_assoc]
        · intro a ha
          rw [List.map_append, List.mem_append] at ha
          rcases ha with ha | ha
          · rcases d2 a ha with h | h
            · simp [pendSids] at h
            · rw [posSids_cons]
              exact List.mem_append_right _ h
          · have h := f2 a ha
            rcases d3 a h with h' | h'
            · simp [pendSids] at h'
            · rw [posSids_cons]
              exact List.mem_append_right _ h'
    obtain ⟨Δf, hpasseq, hΔfdom⟩ := hpass
    have hΔfnone : beamOf Δf c.sid = none := by
      apply beamOf_not_mem
      intro e he heq
      apply hnotpost
      apply posSids_sub_allSids
      rw [← heq]
      exact hΔfdom e.1 (List.mem_map_of_mem Prod.fst he)
    have hA1none : beamOf A1 c.sid = none := by
      apply beamOf_not_mem
      intro e he heq
      apply hnotpre
      apply posSids_sub_allSids
      rw [← heq]
      exact hA1dom e.1 (List.mem_map_of_mem Prod.fst he)
    -- value of this pass's beamOf at c.sid
    have hvpass : beamOf (beamPass pos (pre ++ run ++ post)) c.sid =
        specBeamMark (c0 :: cs).length i := by
      cases cs with
      | nil =>
        -- a run of length one: no marker at all
        have hi0 : i = 0 := by
          simp at hlen
          omega
        subst hi0
        have hceq : c = c0 := by
          simpa using hic.symm
        subst hceq
        rw [hpasseq]
        rw [show _finalize_pending_beam ⟨some (lastSidD c.sid []), 1 + List.length
            ([] : List EncodedSymbol), A1 ++ pushMarks c.sid 1 []⟩ =
            A1 ++ pushMarks c.sid 1 [] from rfl]
        rw [show pushMarks c.sid 1 ([] : List EncodedSymbol) = [] from rfl]
        rw [beamOf_append_none hΔfnone]
        rw [beamOf_append_none (beamOf_not_mem ([] : List (Nat × String)) c.sid
          (fun e he => absurd he (List.not_mem_nil e)))]
        rw [hA1none]
        rfl
      | cons d ds =>
        -- a genuine run: L ≥ 2
        have hL1 : (d :: ds).length = ds.length + 1 := by rw [List.length_cons]
        have hL2 : (c0 :: d :: ds).length = ds.length + 2 := by
          rw [List.length_cons, List.length_cons]
        have hfin : _finalize_pending_beam ⟨some (lastSidD c0.sid (d :: ds)),
            1 + (d :: ds).length, A1 ++ pushMarks c0.sid 1 (d :: ds)⟩ =
            (A1 ++ pushMarks c0.sid 1 (d :: ds)) ++
              [(lastSidD c0.sid (d :: ds), "end")] := by
          unfold _finalize_pending_beam
          try dsimp only
          rw [if_neg (by rw [hL1]; omega)]
        rw [hpasseq, hfin]
        by_cases hilast : i = (d :: ds).length
        · -- the last candidate of the run: marker `end`
          have hlast : lastSidD c0.sid (d :: ds) = c.sid := by
            rw [lastSidD_getLastD, List.getLastD_eq_getLast?, List.getLast?_eq_getElem?]
            have hL : ((c0 :: d :: ds).map EncodedSymbol.sid).length - 1 =
                (d :: ds).length := by
              rw [List.length_map, hL2, hL1]
              omega
            rw [hL, ← hilast, hSi]
            rfl
          rw [beamOf_append_none hΔfnone]
          rw [beamOf_append_some (by rw [hlast]; exact beamOf_single c.sid "end")]
          unfold specBeamMark
          rw [if_neg (by rw [hL2]; omega)]
          rw [if_neg (by rw [hilast, hL1]; omega)]
          rw [if_pos (by rw [hilast, hL1, hL2]; omega)]
        · -- an inner candidate: `begin` or `continue`
          have hii : i < (d :: ds).length := by
            omega
          have hpm : (pushMarks c0.sid 1 (d :: ds))[i]? =
              some (((c0.sid :: (d :: ds).map EncodedSymbol.sid)).getD i 0,
                if 1 + i = 1 then "begin" else "continue") := by
            rw [pushMarks_getElem?, if_pos hii]
          have hmapeq : (c0.sid :: (d :: ds).map EncodedSymbol.sid) =
              (c0 :: d :: ds).map EncodedSymbol.sid := by
            simp
          have hgd : ((c0.sid :: (d :: ds).map EncodedSymbol.sid)).getD i 0 = c.sid := by
            rw [hmapeq, List.getD_eq_getElem?_getD, hSi]
            rfl
          rw [hgd] at hpm
          have hpmmem : (c.sid, if 1 + i = 1 then "begin" else "continue") ∈
              pushMarks c0.sid 1 (d :: ds) := List.getElem?_mem hpm
          have hpmnodup : ((pushMarks c0.sid 1 (d :: ds)).map Prod.fst).Nodup := by
            rw [pushMarks_map_fst]
            refine List.Nodup.sublist (List.dropLast_sublist _) ?_
            rw [hmapeq]
            exact hSnodup
          have hnotlast : lastSidD c0.sid (d :: ds) ≠ c.sid := by
            intro heq
            have hdl : c.sid ∈ ((c0 :: d :: ds).map EncodedSymbol.sid).dropLast := by
              have hfst := pushMarks_map_fst (d :: ds) c0.sid 1
              rw [hmapeq] at hfst
              rw [← hfst]
              exact List.mem_map_of_mem Prod.fst hpmmem
            have hnm := last_not_dropLast (by simp : ((c0 :: d :: ds).map
                EncodedSymbol.sid) ≠ []) hSnodup
            rw [lastSidD_getLastD] at heq
            rw [heq] at hnm
            exact hnm hdl
          rw [beamOf_append_none hΔfnone]
          rw [beamOf_append_none (beamOf_not_mem [(lastSidD c0.sid (d :: ds), "end")]
            c.sid (by
              intro e he
              rcases List.mem_singleton.mp he with rfl
              exact hnotlast))]
          rw [beamOf_append_some (beamOf_mem_unique _ _ _ hpmmem hpmnodup)]
          have hine : ¬ i = ds.length + 1 := by
            rw [hL1] at hilast
            exact hilast
          by_cases hi0 : i = 0
          · rw [if_pos (by omega : 1 + i = 1)]
            unfold specBeamMark
            rw [if_neg (by rw [hL2]; omega), if_pos hi0]
          · rw [if_neg (by omega : ¬ 1 + i = 1)]
            unfold specBeamMark
            rw [if_neg (by rw [hL2]; omega), if_neg hi0,
              if_neg (by rw [hL2]; omega)]
    -- the other pass never writes this sid
    have hother : ∀ pos2, pos2 ≠ pos → (pos2 = "upper" ∨ pos2 = "lower") →
        beamOf (beamPass pos2 (pre ++ run ++ post)) c.sid = none := by
      intro pos2 hne2 hpos2
      apply beamOf_not_mem
      intro e he heq
      have hdom := beamPass_dom pos2 (pre ++ run ++ post) e he
      rw [heq] at hdom
      have hcgroups : c.sid ∈ posSids pos (pre ++ run ++ post) := by
        unfold posSids at hcposrun ⊢
        obtain ⟨s, hs, hse⟩ := List.mem_map.mp hcposrun
        refine List.mem_map.mpr ⟨s,
          List.mem_filter.mpr ⟨?_, (List.mem_filter.mp hs).2⟩, hse⟩
        have hsall := (List.mem_filter.mp hs).1
        rw [List.mem_flatten] at hsall ⊢
        obtain ⟨l, hl, hsl⟩ := hsall
        refine ⟨l, ?_, hsl⟩
        rw [List.map_append, List.map_append, List.mem_append, List.mem_append]
        exact Or.inl (Or.inr hl)
      rcases hpos with rfl | rfl
      · rcases hpos2 with rfl | rfl
        · exact hne2 rfl
        · exact posSids_not_both _ hndall c.sid ⟨hcgroups, hdom⟩
      · rcases hpos2 with rfl | rfl
        · exact posSids_not_both _ hndall c.sid ⟨hdom, hcgroups⟩
        · exact hne2 rfl
    -- assemble the two passes
    unfold apply_beaming
    rcases hpos with rfl | rfl
    · rw [beamOf_append_none (hother "lower" (by decide) (Or.inr rfl))]
      rw [hvpass]
    · cases hv : specBeamMark (c0 :: cs).length i with
      | some m =>
        rw [beamOf_append_some (by rw [hvpass, hv])]
      | none =>
        rw [beamOf_append_none (by rw [hvpass, hv])]
        rw [hother "upper" (by decide) (Or.inl rfl)]

/-- Witness for C7 on a concrete two-eighth run closed by a barline:
the two candidates receive `begin` and `end`. -/
theorem C7_beaming_law_witness :
    beamOf (apply_beaming c7groups) 21 = some "begin" ∧
    beamOf (apply_beaming c7groups) 22 = some "end" :=
  have h := C7_beaming_law "upper" c7groups [] c7run c7post (Or.inl rfl) rfl
    (by decide) (Or.inl rfl) (Or.inr ⟨SymbolChord.mk [c7bar] "", [], rfl, by decide⟩) (by decide)
  ⟨h.2 0 c7e1 rfl, h.2 1 c7e2 rfl⟩
